import Mathlib

/-! Memory pool allocator (`MemoryManager.cpp`)

A shallow embedding of the pool allocator of `src/config/MemoryManager.cpp`.

* Pointers are natural-number addresses; a nullable pointer is an `Option Nat`
  (`none` is `nullptr`).
* `size_t` is a natural number below `2 ^ 64`; the two places where the source
  can wrap (`size + ALIGNMENT - 1` and `m_pool_size - sizeof(BlockHeader)`) are
  computed modulo `2 ^ 64`.
* The block headers that the source stores inside the raw buffer are kept in a
  partial map from addresses to headers; reading a header from an address where
  none was written is undefined behaviour and is reported as a fault.
* `sizeof(BlockHeader)` and `ALIGNMENT = alignof(std::max_align_t)` depend on the
  platform and are parameters (`Layout`).
-/

namespace PoolAlloc

/-! ## Machine arithmetic -/

/-- Number of values of `size_t`. -/
def SIZE_MOD : Nat := 2 ^ 64

/-- Addition in `size_t`. -/
def wadd (a b : Nat) : Nat := (a + b) % SIZE_MOD

/-- Subtraction in `size_t` (wraps below zero). -/
def wsub (a b : Nat) : Nat := (a + (SIZE_MOD - b % SIZE_MOD)) % SIZE_MOD

/-- Bitwise complement in `size_t`. -/
def wnot (a : Nat) : Nat := SIZE_MOD - 1 - a % SIZE_MOD

/-! ## Data model -/

/-- Platform constants: `sizeof(BlockHeader)` and `ALIGNMENT`. -/
structure Layout where
  header_size : Nat
  ALIGNMENT : Nat
deriving DecidableEq, Repr

/-- The `BlockHeader` struct (lines 11-15); a null `tag` is `none`. -/
structure BlockHeader where
  size : Nat
  is_free : Bool
  tag : Option String
deriving DecidableEq, Repr

/-- Headers stored in raw memory, by address. -/
abbrev Memory := Nat → Option BlockHeader

/-- Store a whole header at an address. -/
def poke (mem : Memory) (a : Nat) (h : BlockHeader) : Memory :=
  fun x => if x = a then some h else mem x

/-- The fields of `class MemoryManager` together with the headers that live in
the pool buffer (`mem`). -/
structure MemoryManager where
  m_pool : Option Nat
  m_pool_size : Nat
  m_free_list : List Nat
  mem : Memory

/-- A default-constructed manager: `m_pool = nullptr`, `m_pool_size = 0`, empty list. -/
def MemoryManager.fresh : MemoryManager :=
  { m_pool := none, m_pool_size := 0, m_free_list := [], mem := fun _ => none }

/-- What can stop an operation: the `std::runtime_error` thrown by `allocate`, the
`std::bad_alloc` thrown by `::operator new` inside `initialize`, or a read of a
header from memory that holds none. -/
inductive Fault where
  | runtime_error (what : String)
  | bad_alloc
  | undefined_behavior
deriving DecidableEq, Repr

/-- Result of a call: the returned value, the manager afterwards, and the lines
written to `std::cerr`. -/
structure Ret (α : Type) where
  value : α
  state : MemoryManager
  cerr : List String

/-! ## Operations -/

/-- `MemoryManager::initialize` (lines 27-46). `buffer` is the outcome of
`::operator new(m_pool_size)` at line 35: `some b` when it returns the address
`b`, `none` when it throws `std::bad_alloc`. The exception leaves `initialize`
after line 34 has stored `m_pool_size`, so the value of the call is the error
and the state keeps the new `m_pool_size` with `m_pool` still null. A new buffer
holds no header until the first block is written at its start. The subtraction
of line 39 is a `size_t` subtraction. The line written to `std::cout` is not
modelled. -/
def initializePool (L : Layout) (m : MemoryManager) (buffer : Option Nat) (total_size : Nat) :
    Ret (Except Fault Unit) :=
  match m.m_pool with
  | some _ => ⟨.ok (), m, ["Warning: MemoryManager already initialized."]⟩
  | none =>
    match buffer with
    | none => ⟨.error .bad_alloc, { m with m_pool_size := total_size }, []⟩
    | some b =>
      let first_block : BlockHeader :=
        { size := wsub total_size L.header_size, is_free := true, tag := some "InitialPool" }
      ⟨.ok (), { m_pool := some b
                 m_pool_size := total_size
                 m_free_list := m.m_free_list ++ [b]
                 mem := poke (fun _ => none) b first_block }, []⟩

/-- The rounding of line 56: `(size + ALIGNMENT - 1) & ~(ALIGNMENT - 1)` in `size_t`. -/
def aligned_size (L : Layout) (size : Nat) : Nat :=
  (wsub (wadd size L.ALIGNMENT) 1) &&& (wnot (wsub L.ALIGNMENT 1))

/-- The body of the `if` in the loop of `allocate` (lines 62-83), entered for the
free-list entry `block` whose header `hdr` is free and large enough. `visited`
are the list entries before `block`, `rest` those after it. -/
def takeBlock (L : Layout) (m : MemoryManager) (asz : Nat) (tag : Option String)
    (visited : List Nat) (block : Nat) (rest : List Nat) (hdr : BlockHeader) :
    Ret (Option Nat) :=
  let remaining_size := hdr.size - asz
  if L.header_size + L.ALIGNMENT < remaining_size then
    let new_block := block + L.header_size + asz
    let mem1 := poke m.mem new_block
      { size := remaining_size - L.header_size, is_free := true, tag := some "SplitBlock" }
    let mem2 := poke mem1 block { size := asz, is_free := false, tag := tag }
    ⟨some (block + L.header_size),
     { m with mem := mem2, m_free_list := visited ++ new_block :: rest }, []⟩
  else
    let mem1 := poke m.mem block { size := hdr.size, is_free := false, tag := tag }
    ⟨some (block + L.header_size),
     { m with mem := mem1, m_free_list := visited ++ rest }, []⟩

/-- The first-fit loop of `allocate` (lines 59-89). `visited` holds the list
entries before the iterator, `block :: rest` the entries from the iterator on. -/
def allocateLoop (L : Layout) (m : MemoryManager) (size asz : Nat) (tag : Option String) :
    List Nat → List Nat → Except Fault (Ret (Option Nat))
  | _, [] =>
    .ok ⟨none, m,
      ["MemoryManager: Out of memory for allocation of " ++ toString size ++ " bytes."]⟩
  | visited, block :: rest =>
    match m.mem block with
    | none => .error .undefined_behavior
    | some hdr =>
      if hdr.is_free && decide (asz ≤ hdr.size) then
        .ok (takeBlock L m asz tag visited block rest hdr)
      else allocateLoop L m size asz tag (visited ++ [block]) rest

/-- `MemoryManager::allocate` (lines 48-90). -/
def allocate (L : Layout) (m : MemoryManager) (size : Nat) (tag : Option String) :
    Except Fault (Ret (Option Nat)) :=
  match m.m_pool with
  | none => .error (.runtime_error "MemoryManager not initialized.")
  | some _ => allocateLoop L m size (aligned_size L size) tag [] m.m_free_list

/-- `MemoryManager::deallocate` (lines 92-116). `std::list::sort` with the
comparator `a < b` yields the ascending arrangement of the pointers, which is
what `List.insertionSort` computes. -/
def deallocate (L : Layout) (m : MemoryManager) (ptr : Option Nat) (_tag : Option String) :
    Except Fault (Ret Unit) :=
  match ptr with
  | none => .ok ⟨(), m, []⟩
  | some p =>
    let block := p - L.header_size
    match m.mem block with
    | none => .error .undefined_behavior
    | some hdr =>
      if hdr.is_free then
        .ok ⟨(), m, ["Warning: Double free detected for tag: " ++ hdr.tag.getD "unknown"]⟩
      else
        .ok ⟨(), { m with
                   mem := poke m.mem block { hdr with is_free := true, tag := some "FreedBlock" }
                   m_free_list := List.insertionSort (· ≤ ·) (m.m_free_list ++ [block]) }, []⟩

/-- `MemoryManager::shutdown` (lines 118-127): the buffer is released, so no
header is readable afterwards. -/
def shutdown (m : MemoryManager) : MemoryManager :=
  match m.m_pool with
  | some _ => { m_pool := none, m_pool_size := 0, m_free_list := [], mem := fun _ => none }
  | none => m


/-! ## Specification vocabulary -/

/-- The least multiple of `al` that is at least `size` (the `round_up` of the
specification). -/
def round_up (size al : Nat) : Nat := (size + al - 1) / al * al

/-- Requirements on the platform constants: the header is not empty, `ALIGNMENT`
is a power of two that fits `size_t`, and the `static_assert` of line 20 holds. -/
structure Layout.ok (L : Layout) : Prop where
  header_pos : 0 < L.header_size
  pow2 : ∃ k, k < 64 ∧ L.ALIGNMENT = 2 ^ k
  header_aligned : L.header_size % L.ALIGNMENT = 0

/-- The `is_free` flag stored at an address (`false` where no header is stored). -/
def isFreeAt (mem : Memory) (b : Nat) : Bool :=
  match mem b with
  | some h => h.is_free
  | none => false

/-- The `size` field stored at an address (`0` where no header is stored). -/
def sizeAt (mem : Memory) (b : Nat) : Nat :=
  match mem b with
  | some h => h.size
  | none => 0

/-- The free list of a pool state is well formed: it is strictly ascending and
every entry points at a stored header that is marked free and whose size is a
`size_t` value. -/
structure FreeListWF (m : MemoryManager) : Prop where
  ascending : m.m_free_list.Sorted (· < ·)
  entries : ∀ b ∈ m.m_free_list, ∃ h, m.mem b = some h ∧ h.is_free = true ∧ h.size < SIZE_MOD

/-- The headers at the addresses `bs` follow each other without gap from address
`a` up to address `e`: each block starts where the previous one ends. -/
def Chain (hs : Nat) (mem : Memory) : List Nat → Nat → Nat → Prop
  | [], a, e => a = e
  | b :: bs, a, e => b = a ∧ ∃ h, mem b = some h ∧ Chain hs mem bs (a + hs + h.size) e

/-- Walk the arena from address `a` to address `e`, following the stored sizes,
and collect the block addresses met; `none` if a header is missing or the end is
not reached within `fuel` blocks. -/
def walkBlocks (hs : Nat) (mem : Memory) (e : Nat) : Nat → Nat → Option (List Nat)
  | 0, a => if a = e then some [] else none
  | fuel + 1, a =>
    if a = e then some []
    else match mem a with
      | none => none
      | some h => (walkBlocks hs mem e fuel (a + hs + h.size)).map (a :: ·)

/-- The Block Directory: the addresses of the blocks found by walking the pool
buffer from its first byte to its last. -/
def MemoryManager.blocks (L : Layout) (m : MemoryManager) : Option (List Nat) :=
  match m.m_pool with
  | none => none
  | some base => walkBlocks L.header_size m.mem (base + m.m_pool_size) m.m_pool_size base

/-- Free capacity: the sum of the payload sizes of the blocks of the free list. -/
def freeCapacity (m : MemoryManager) : Nat :=
  (m.m_free_list.map (sizeAt m.mem)).sum

/-- States reached from a successful `initialize(cap)` on a default-constructed
manager (`::operator new` returning the buffer at address `base`) by calls of
`allocate` and of `deallocate`, the latter on the null pointer or on an address
returned earlier by `allocate`.
`issued` lists every address returned so far, `live` those not yet released. -/
inductive Reachable (L : Layout) (base cap : Nat) :
    MemoryManager → List Nat → List Nat → Prop
  | init (hcap : cap < SIZE_MOD) :
      Reachable L base cap (initializePool L MemoryManager.fresh (some base) cap).state [] []
  | alloc_ok {m : MemoryManager} {issued live : List Nat} {size : Nat} {tag : Option String}
      {r : Ret (Option Nat)} {p : Nat} :
      Reachable L base cap m issued live → size < SIZE_MOD →
      allocate L m size tag = .ok r → r.value = some p →
      Reachable L base cap r.state (p :: issued) (p :: live)
  | alloc_fail {m : MemoryManager} {issued live : List Nat} {size : Nat} {tag : Option String}
      {r : Ret (Option Nat)} :
      Reachable L base cap m issued live → size < SIZE_MOD →
      allocate L m size tag = .ok r → r.value = none →
      Reachable L base cap r.state issued live
  | dealloc {m : MemoryManager} {issued live : List Nat} {p : Nat} {tag : Option String}
      {r : Ret Unit} :
      Reachable L base cap m issued live → p ∈ issued →
      deallocate L m (some p) tag = .ok r →
      Reachable L base cap r.state issued (live.erase p)
  | dealloc_null {m : MemoryManager} {issued live : List Nat} {tag : Option String}
      {r : Ret Unit} :
      Reachable L base cap m issued live →
      deallocate L m none tag = .ok r →
      Reachable L base cap r.state issued live

/-- The invariant carried by every reachable state; `bs` lists the block
addresses in address order. -/
structure Inv (L : Layout) (base cap : Nat) (m : MemoryManager) (issued live : List Nat)
    (bs : List Nat) : Prop where
  pool : m.m_pool = some base
  pool_size : m.m_pool_size = cap
  chain : Chain L.header_size m.mem bs base (base + L.header_size + wsub cap L.header_size)
  free_list : m.m_free_list = bs.filter (isFreeAt m.mem)
  offsets : ∀ b ∈ bs, L.ALIGNMENT ∣ b - base
  sizes : ∀ b ∈ bs, sizeAt m.mem b < SIZE_MOD
  issued_blocks : ∀ p ∈ issued, ∃ b ∈ bs, p = b + L.header_size
  live_blocks : ∀ p, p ∈ live ↔ ∃ b ∈ bs, p = b + L.header_size ∧ isFreeAt m.mem b = false
  live_nodup : live.Nodup


/-! ## Concrete layouts and scenarios -/

/-- The state after a call (the default-constructed manager if the call faulted). -/
def stateOf {α : Type} : Except Fault (Ret α) → MemoryManager
  | .ok r => r.state
  | .error _ => MemoryManager.fresh

/-- The pointer returned by `allocate` (null if the call faulted). -/
def valueOf : Except Fault (Ret (Option Nat)) → Option Nat
  | .ok r => r.value
  | .error _ => none

/-- A platform with a 24-byte `BlockHeader` and 8-byte `ALIGNMENT`. -/
def layout24_8 : Layout := { header_size := 24, ALIGNMENT := 8 }

/-- A pool whose free list holds three adjacent free blocks of sizes 10, 100
and 50, in address order. -/
def firstFitExample : MemoryManager :=
  { m_pool := some 1000
    m_pool_size := 232
    m_free_list := [1000, 1034, 1158]
    mem := fun a =>
      if a = 1000 then some { size := 10, is_free := true, tag := none }
      else if a = 1034 then some { size := 100, is_free := true, tag := none }
      else if a = 1158 then some { size := 50, is_free := true, tag := none }
      else none }

/-- A fresh pool of 1024 bytes at address 4096. -/
def pool1024 : MemoryManager :=
  (initializePool layout24_8 MemoryManager.fresh (some 4096) 1024).state

/-- A fresh pool of 120 bytes at address 1000: room for exactly three blocks of
16 bytes with their headers. -/
def pool120 : MemoryManager :=
  (initializePool layout24_8 MemoryManager.fresh (some 1000) 120).state

/-- The pool of 120 bytes after `A = allocate(16)`, which returns 1024. -/
def poolA : MemoryManager :=
  stateOf (allocate layout24_8 pool120 16 (some "A"))

/-- The state after `A = allocate(16)` and `B = allocate(16)`, which returns 1064. -/
def poolAB : MemoryManager :=
  stateOf (allocate layout24_8 poolA 16 (some "B"))

/-- The state after `A`, `B` and `C = allocate(16)`, which returns 1104; the
three blocks fill the pool. -/
def poolABC : MemoryManager :=
  stateOf (allocate layout24_8 poolAB 16 (some "C"))

/-- The state after `deallocate(B)`. -/
def poolAC : MemoryManager :=
  stateOf (deallocate layout24_8 poolABC (some 1064) none)

/-- The state after `deallocate(B)` and then `deallocate(A)`. -/
def poolC : MemoryManager :=
  stateOf (deallocate layout24_8 poolAC (some 1024) none)

/-- A pool initialized with capacity 0 at address 1000. -/
def poolZero : MemoryManager :=
  (initializePool layout24_8 MemoryManager.fresh (some 1000) 0).state

/-- The pool of capacity 0 after `allocate(8)`, which returns 1024. -/
def poolZeroCap : MemoryManager :=
  stateOf (allocate layout24_8 poolZero 8 none)

/-- The pool of capacity 0 after a second `allocate(8)`, which returns 1056. -/
def poolZeroCap2 : MemoryManager :=
  stateOf (allocate layout24_8 poolZeroCap 8 none)

/-- The fresh pool of 1024 bytes after `allocate(100)`, which returns 4120. -/
def pool1024Taken : MemoryManager :=
  stateOf (allocate layout24_8 pool1024 100 none)

/-- The pool of 1024 bytes after `allocate(100)` and `deallocate` of its result. -/
def pool1024Released : MemoryManager :=
  stateOf (deallocate layout24_8 pool1024Taken (some 4120) none)

/-- The statement of the no-overlap property for the live allocations of a
state: the payload ranges of two distinct live addresses are disjoint, and each
payload range lies inside the buffer `[base, base + cap)`. -/
def NoOverlap (L : Layout) (base cap : Nat) (m : MemoryManager) (live : List Nat) : Prop :=
  (∀ p ∈ live, ∀ q ∈ live, p ≠ q →
    p + sizeAt m.mem (p - L.header_size) ≤ q ∨ q + sizeAt m.mem (q - L.header_size) ≤ p) ∧
  (∀ p ∈ live, base ≤ p ∧ p + sizeAt m.mem (p - L.header_size) ≤ base + cap)

/-! ## Lifecycle vocabulary -/

/-- The uninitialized state of the specification: no buffer, capacity 0, empty
free list. -/
def Uninitialized (m : MemoryManager) : Prop :=
  m.m_pool = none ∧ m.m_pool_size = 0 ∧ m.m_free_list = []

/-- States of the manager over its whole life: reached from the
default-constructed manager by any calls of `initialize` (returning, or
abandoned by the `std::bad_alloc` of line 35), and of `allocate`, `deallocate`
and `shutdown` that return. -/
inductive Lifecycle (L : Layout) : MemoryManager → Prop
  | fresh : Lifecycle L MemoryManager.fresh
  | init {m : MemoryManager} (buffer : Option Nat) (total_size : Nat) :
      Lifecycle L m → Lifecycle L (initializePool L m buffer total_size).state
  | alloc {m : MemoryManager} {size : Nat} {tag : Option String} {r : Ret (Option Nat)} :
      Lifecycle L m → allocate L m size tag = .ok r → Lifecycle L r.state
  | dealloc {m : MemoryManager} {ptr : Option Nat} {tag : Option String} {r : Ret Unit} :
      Lifecycle L m → deallocate L m ptr tag = .ok r → Lifecycle L r.state
  | shut {m : MemoryManager} : Lifecycle L m → Lifecycle L (shutdown m)

/-- The state after `k` consecutive calls `allocate(size, tag)`. -/
def repeatAllocate (L : Layout) (size : Nat) (tag : Option String) :
    Nat → MemoryManager → MemoryManager
  | 0, m => m
  | k + 1, m => stateOf (allocate L (repeatAllocate L size tag k m) size tag)

/-- During the exhaustion of a fresh pool by equal requests: after `k` successful
calls the free list is the single block at `base + k * (header_size + asz)`,
free, with all the remaining payload. -/
def SingleFree (L : Layout) (base cap asz k : Nat) (m : MemoryManager) : Prop :=
  m.m_pool = some base ∧
  m.m_free_list = [base + k * (L.header_size + asz)] ∧
  ∃ t, m.mem (base + k * (L.header_size + asz))
    = some { size := cap - L.header_size - k * (L.header_size + asz), is_free := true, tag := t }

/-- An initialized pool in which every block of the free list is smaller than
`asz`. -/
def Exhausted (asz : Nat) (m : MemoryManager) : Prop :=
  m.m_pool ≠ none ∧ ∀ q ∈ m.m_free_list, ∃ h, m.mem q = some h ∧ h.size < asz

/-- A fresh pool of 100 bytes at address 1000: its first block has
`100 - 24 = 76` bytes of payload. -/
def pool100 : MemoryManager :=
  (initializePool layout24_8 MemoryManager.fresh (some 1000) 100).state

/-- The pool of 120 bytes with `A` allocated, after `shutdown`. -/
def poolAShut : MemoryManager := shutdown poolA

/-- The default-constructed manager after `initialize(2 ^ 64 - 1)`, a request
that `::operator new` refuses with `std::bad_alloc`. -/
def poolFailed : MemoryManager :=
  (initializePool layout24_8 MemoryManager.fresh none (2 ^ 64 - 1)).state

/-! ## `CoreUtils.h`: `Core::permute_block`

The array is the run of cells `data + 0, data + 1, ...` of a memory
`Nat → α`; the pointer `data` is an `Option Nat`. -/

namespace Core

/-- Line 38: `state = (state * 1103515245 + 12345) & 0x7FFFFFFF` in `uint32_t`. -/
def next_state (state : Nat) : Nat :=
  ((state * 1103515245 + 12345) % 2 ^ 32) &&& 0x7FFFFFFF

/-- Line 40: `std::swap(data[i], data[j])`. -/
def swap_cells {α : Type} (mem : Nat → α) (data i j : Nat) : Nat → α :=
  fun x =>
    if x = data + i then mem (data + j)
    else if x = data + j then mem (data + i)
    else mem x

/-- The loop of lines 37-41, entered with the loop variable `i` and the current
`state`. Besides the memory it returns the pairs `(i, j)` of indices it
accessed, in order. -/
def permute_loop {α : Type} (data : Nat) :
    Nat → Nat → (Nat → α) → (Nat → α) × List (Nat × Nat)
  | 0, _, mem => (mem, [])
  | i + 1, state, mem =>
    let state1 := next_state state
    let j := state1 % (i + 1 + 1)
    let r := permute_loop data i state1 (swap_cells mem data (i + 1) j)
    (r.1, (i + 1, j) :: r.2)

/-- `Core::permute_block` (lines 31-42). -/
def permute_block {α : Type} (mem : Nat → α) (data : Option Nat) (size : Nat) (key : Nat) :
    (Nat → α) × List (Nat × Nat) :=
  match data with
  | none => (mem, [])
  | some p => if size = 0 then (mem, []) else permute_loop p (size - 1) key mem

/-- An array of five elements stored at address 100. -/
def sampleArray : Nat → Nat :=
  fun x => if x = 100 then 10 else if x = 101 then 20 else if x = 102 then 30
    else if x = 103 then 40 else if x = 104 then 50 else 0

end Core

/-! ## `CryptoHash.cpp`

Bytes and 32-bit words are natural numbers; `uint32_t` results are reduced
modulo `2 ^ 32`, the bit counter modulo `2 ^ 64`. A byte array is a list. -/

/-- `INITIAL_STATE` (lines 9-12). -/
def INITIAL_STATE : List Nat :=
  [0x6a09e667, 0xbb67ae85, 0x3c6ef372, 0xa54ff53a,
   0x510e527f, 0x9b05688c, 0x1f83d9ab, 0x5be0cd19]

/-- `rotr` (lines 15-17) on a `uint32_t`. -/
def rotr (x n : Nat) : Nat :=
  (x >>> n) ||| ((x <<< (32 - n)) % 2 ^ 32)

/-- Bitwise complement of a `uint32_t`. -/
def not32 (x : Nat) : Nat := 2 ^ 32 - 1 - x % 2 ^ 32

/-- The big-endian word `i` of a block (line 99). -/
def block_word (block : List Nat) (i : Nat) : Nat :=
  ((block.getD (i * 4) 0 <<< 24) ||| (block.getD (i * 4 + 1) 0 <<< 16)
    ||| (block.getD (i * 4 + 2) 0 <<< 8) ||| block.getD (i * 4 + 3) 0) % 2 ^ 32

/-- The message schedule (lines 103-107): `n` more words appended to `w`. -/
def extend_words : Nat → List Nat → List Nat
  | 0, w => w
  | n + 1, w =>
    let i := w.length
    let w15 := w.getD (i - 15) 0
    let w2 := w.getD (i - 2) 0
    let s0 := rotr w15 7 ^^^ rotr w15 18 ^^^ (w15 >>> 3)
    let s1 := rotr w2 17 ^^^ rotr w2 19 ^^^ (w2 >>> 10)
    extend_words n (w ++ [(w.getD (i - 16) 0 + s0 + w.getD (i - 7) 0 + s1) % 2 ^ 32])

/-- One round of the compression loop (lines 115-129) on the working variables
`[a, b, c, d, e, f, g, h]` with the schedule word `wi`. -/
def round (v : List Nat) (wi : Nat) : List Nat :=
  let a := v.getD 0 0
  let b := v.getD 1 0
  let c := v.getD 2 0
  let d := v.getD 3 0
  let e := v.getD 4 0
  let f := v.getD 5 0
  let g := v.getD 6 0
  let h := v.getD 7 0
  let s1 := rotr e 6 ^^^ rotr e 11 ^^^ rotr e 25
  let ch := (e &&& f) ^^^ (not32 e &&& g)
  let temp1 := (h + s1 + ch + 0x428a2f98 + wi) % 2 ^ 32
  let s0 := rotr a 2 ^^^ rotr a 13 ^^^ rotr a 22
  let maj := (a &&& b) ^^^ (a &&& c) ^^^ (b &&& c)
  let temp2 := (s0 + maj) % 2 ^ 32
  [(temp1 + temp2) % 2 ^ 32, a, b, c, (d + temp1) % 2 ^ 32, e, f, g]

/-- `CryptoHash::process_block` (lines 96-135): the new `m_state`. -/
def process_block (m_state : List Nat) (block : List Nat) : List Nat :=
  let w := extend_words 48 ((List.range 16).map (block_word block))
  let v := w.foldl round m_state
  (List.range 8).map (fun k => (m_state.getD k 0 + v.getD k 0) % 2 ^ 32)

/-- The data members of `class CryptoHash`. -/
structure CryptoHash where
  m_state : List Nat
  m_buffer : List Nat
  m_buffer_len : Nat
  m_bit_count : Nat
deriving DecidableEq, Repr

/-- `CryptoHash::reset` (lines 32-36). -/
def CryptoHash.reset (h : CryptoHash) : CryptoHash :=
  { h with m_state := INITIAL_STATE, m_buffer_len := 0, m_bit_count := 0 }

/-- The constructor (lines 28-30); `raw` is the indeterminate content of the
64-byte `m_buffer`, which `reset` does not touch. -/
def CryptoHash.construct (raw : List Nat) : CryptoHash :=
  { m_state := INITIAL_STATE, m_buffer := raw, m_buffer_len := 0, m_bit_count := 0 }

/-- `memcpy(dst + off, src, src.length)` on a byte array. -/
def memcpy (dst : List Nat) (off : Nat) (src : List Nat) : List Nat :=
  dst.take off ++ src ++ dst.drop (off + src.length)

/-- The loop of lines 49-51 over the full blocks of `data` from index `i` on;
returns the state and the final `i`. -/
def full_blocks (data : List Nat) : Nat → Nat → List Nat → List Nat × Nat
  | 0, i, st => (st, i)
  | fuel + 1, i, st =>
    if i + 63 < data.length then
      full_blocks data fuel (i + 64) (process_block st ((data.drop i).take 64))
    else (st, i)

/-- `CryptoHash::update` (lines 38-59); a null `data` pointer is `none`. -/
def CryptoHash.update (h : CryptoHash) (data : Option (List Nat)) : CryptoHash :=
  match data with
  | none => h
  | some d =>
    let length := d.length
    let buffer_space := 64 - h.m_buffer_len
    if buffer_space ≤ length then
      let buf1 := memcpy h.m_buffer h.m_buffer_len (d.take buffer_space)
      let st1 := process_block h.m_state buf1
      let r := full_blocks d length buffer_space st1
      { m_state := r.1
        m_buffer := memcpy buf1 0 (d.drop r.2)
        m_buffer_len := length - r.2
        m_bit_count := (h.m_bit_count + length * 8) % 2 ^ 64 }
    else
      { m_state := h.m_state
        m_buffer := memcpy h.m_buffer h.m_buffer_len d
        m_buffer_len := h.m_buffer_len + length
        m_bit_count := (h.m_bit_count + length * 8) % 2 ^ 64 }

/-- The padding built by `finalize` (lines 67-79): `0x80`, zeros, and the bit
count as eight big-endian bytes. -/
def padding (m_bit_count : Nat) : List Nat :=
  let current_len_mod_64 := (m_bit_count / 8) % 64
  let pad_len := if current_len_mod_64 < 56 then 56 - current_len_mod_64
    else 120 - current_len_mod_64
  [0x80] ++ List.replicate (pad_len - 1) 0
    ++ (List.range 8).map (fun i => (m_bit_count >>> (56 - i * 8)) &&& 0xFF)

/-- The digest bytes copied from the state (lines 85-90). -/
def digest_of (m_state : List Nat) : List Nat :=
  (List.range 8).flatMap (fun i =>
    [(m_state.getD i 0 >>> 24) &&& 0xFF, (m_state.getD i 0 >>> 16) &&& 0xFF,
     (m_state.getD i 0 >>> 8) &&& 0xFF, (m_state.getD i 0 >>> 0) &&& 0xFF])

/-- `CryptoHash::finalize` (lines 65-94): the digest and the hasher afterwards. -/
def CryptoHash.finalize (h : CryptoHash) : List Nat × CryptoHash :=
  let h1 := h.update (some (padding h.m_bit_count))
  (digest_of h1.m_state, h1.reset)

/-- The buffered bytes that count: the first `m_buffer_len` bytes of `m_buffer`. -/
def CryptoHash.pending (h : CryptoHash) : List Nat := h.m_buffer.take h.m_buffer_len

/-- The buffer is a 64-byte array and holds fewer than 64 pending bytes. -/
def CryptoHash.ok (h : CryptoHash) : Prop := h.m_buffer.length = 64 ∧ h.m_buffer_len < 64

/-- Reference: run `process_block` over the leading full 64-byte blocks of a
byte stream; returns the state and the bytes left over. -/
def absorb : Nat → List Nat → List Nat → List Nat × List Nat
  | 0, st, s => (st, s)
  | fuel + 1, st, s =>
    if 64 ≤ s.length then absorb fuel (process_block st (s.take 64)) (s.drop 64)
    else (st, s)

/-! ## `ConfigParser.cpp` and `initialize_subsystems`

A `std::string` is a list of characters. `std::stoi` and `std::stoul` follow
`strtol` / `strtoul` in base 10 (`unsigned long` has the 64 bits of `size_t`);
`double` is a type parameter `D` and `std::stod` a parameter of the parser. -/

/-- A `std::string`. -/
abbrev Str := List Char

/-- The exceptions of the numeric conversions. -/
inductive StdExcept where
  | invalid_argument
  | out_of_range
deriving DecidableEq, Repr

/-- `std::isspace` in the "C" locale: space and `\t \n \v \f \r`. -/
def isspace (ch : Char) : Bool := ch.toNat = 32 || (9 ≤ ch.toNat && ch.toNat ≤ 13)

/-- `ConfigParser::trim` (lines 8-15). -/
def trim (s : Str) : Str :=
  ((s.dropWhile isspace).reverse.dropWhile isspace).reverse

/-- `s.find(c)`: the index of the first `c`, `none` for `npos`. -/
def find (s : Str) (c : Char) : Option Nat :=
  if s.indexOf c < s.length then some (s.indexOf c) else none

/-- The integer read by `strtol` / `strtoul` in base 10: leading white space,
an optional sign, then decimal digits; `none` when there is no digit. The
result is the sign and the magnitude. -/
def parse_integer (s : Str) : Option (Bool × Nat) :=
  let s1 := s.dropWhile isspace
  let signed : Bool × Str :=
    match s1 with
    | [] => (false, [])
    | c :: r => if c = '-' then (true, r) else if c = '+' then (false, r) else (false, c :: r)
  let ds := signed.2.takeWhile Char.isDigit
  if ds = [] then none
  else some (signed.1, ds.foldl (fun n c => 10 * n + (c.toNat - 48)) 0)

/-- `std::stoul(value)`. -/
def stoul (value : Str) : Except StdExcept Nat :=
  match parse_integer value with
  | none => .error .invalid_argument
  | some (neg, n) =>
    if SIZE_MOD ≤ n then .error .out_of_range
    else .ok (if neg then (SIZE_MOD - n) % SIZE_MOD else n)

/-- `std::stoi(value)` with a 32-bit `int`. -/
def stoi (value : Str) : Except StdExcept Int :=
  match parse_integer value with
  | none => .error .invalid_argument
  | some (neg, n) =>
    if neg then (if n ≤ 2 ^ 31 then .ok (-(n : Int)) else .error .out_of_range)
    else (if n < 2 ^ 31 then .ok (n : Int) else .error .out_of_range)

/-- The `std::variant<int, double, std::string>` of a plugin setting. -/
inductive PluginValue (D : Type) where
  | int_value (v : Int)
  | double_value (v : D)
  | string_value (v : Str)

/-- `struct AppConfig` (ConfigParser.h, lines 10-20). -/
structure AppConfig (D : Type) where
  is_valid : Bool
  log_file_path : Str
  log_level : Int
  worker_threads : Nat
  memory_pool_size_mb : Nat
  simulation_timestep : D
  plugin_settings : Str → Option (PluginValue D)

/-- The default member initialisers of `AppConfig`; `timestep` stands for the
`double` 0.016. -/
def AppConfig.default {D : Type} (timestep : D) : AppConfig D :=
  { is_valid := false
    log_file_path := "/var/log/app.log".toList
    log_level := 2
    worker_threads := 4
    memory_pool_size_mb := 256
    simulation_timestep := timestep
    plugin_settings := fun _ => none }

/-- The parser (`m_current_section`), the configuration it fills, and the lines
written to `std::cerr`. -/
structure ConfigParser (D : Type) where
  m_current_section : Str
  config : AppConfig D
  cerr : List Str

/-- `plugin_settings[key] = v`. -/
def assign_plugin {D : Type} (config : AppConfig D) (key : Str) (v : PluginValue D) :
    AppConfig D :=
  { config with plugin_settings := fun k => if k = key then some v else config.plugin_settings k }

/-- `ConfigParser::process_line` (lines 17-60). An exception of a conversion
in the "Core" section leaves the function. -/
def process_line {D : Type} (stod : Str → Except StdExcept D) (p : ConfigParser D)
    (line : Str) : Except StdExcept (ConfigParser D) :=
  let temp := trim line
  if temp = [] ∨ temp.head? = some '#' then .ok p
  else if temp.head? = some '[' ∧ temp.getLast? = some ']' then
    .ok { p with m_current_section := (temp.drop 1).take (temp.length - 2) }
  else
    match find temp '=' with
    | none =>
      .ok { p with cerr := p.cerr ++ ["Warning: Malformed line in config: ".toList ++ line] }
    | some delimiter_pos =>
      let key := trim (temp.take delimiter_pos)
      let value := trim (temp.drop (delimiter_pos + 1))
      if p.m_current_section = "Core".toList then
        if key = "log_file_path".toList then
          .ok { p with config := { p.config with log_file_path := value } }
        else if key = "log_level".toList then
          (stoi value).map (fun v => { p with config := { p.config with log_level := v } })
        else if key = "worker_threads".toList then
          (stoul value).map (fun v => { p with config := { p.config with worker_threads := v } })
        else if key = "memory_pool_size_mb".toList then
          (stoul value).map
            (fun v => { p with config := { p.config with memory_pool_size_mb := v } })
        else if key = "simulation_timestep".toList then
          (stod value).map
            (fun v => { p with config := { p.config with simulation_timestep := v } })
        else .ok p
      else if p.m_current_section = "Plugins".toList then
        match stod value with
        | .ok v => .ok { p with config := assign_plugin p.config key (.double_value v) }
        | .error _ =>
          match stoi value with
          | .ok v => .ok { p with config := assign_plugin p.config key (.int_value v) }
          | .error _ => .ok { p with config := assign_plugin p.config key (.string_value value) }
      else .ok p

/-- The `while (std::getline(file, line))` loop of `parse` (lines 74-76). -/
def process_lines {D : Type} (stod : Str → Except StdExcept D) :
    ConfigParser D → List Str → Except StdExcept (ConfigParser D)
  | p, [] => .ok p
  | p, line :: rest =>
    match process_line stod p line with
    | .ok p1 => process_lines stod p1 rest
    | .error e => .error e

/-- `ConfigParser::parse` (lines 62-80); `file` is `none` when the file cannot
be opened, else its lines. -/
def parse {D : Type} (stod : Str → Except StdExcept D) (timestep : D)
    (file : Option (List Str)) : Except StdExcept (ConfigParser D) :=
  match file with
  | none =>
    .ok { m_current_section := []
          config := AppConfig.default timestep
          cerr := ["Error: Could not open config file: ".toList] }
  | some lines =>
    (process_lines stod
      { m_current_section := "Core".toList, config := AppConfig.default timestep, cerr := [] }
      lines).map (fun p => { p with config := { p.config with is_valid := true } })

/-- The argument `initialize_subsystems` passes to `initialize` (main.cpp,
line 22): `config.memory_pool_size_mb * 1024 * 1024` in `size_t`. -/
def pool_bytes {D : Type} (config : AppConfig D) : Nat :=
  (config.memory_pool_size_mb * 1024 * 1024) % SIZE_MOD

/-- The key of a `key = value` line: `none` for a blank line, a comment, a
section header and a line without `=`. -/
def line_key (line : Str) : Option Str :=
  let temp := trim line
  if temp = [] ∨ temp.head? = some '#' then none
  else if temp.head? = some '[' ∧ temp.getLast? = some ']' then none
  else (find temp '=').map (fun pos => trim (temp.take pos))

/-- The value of a `key = value` line. -/
def line_value (line : Str) : Str :=
  let temp := trim line
  match find temp '=' with
  | none => []
  | some pos => trim (temp.drop (pos + 1))

/-- A `std::stod` that rejects every text, for scenarios without a `double`. -/
def stod_rejecting : Str → Except StdExcept Rat := fun _ => .error .invalid_argument

/-- A configuration file that sets the pool to 512 megabytes. -/
def sampleConfig : List Str :=
  ["# pool settings".toList, "[Core]".toList, "worker_threads = 8".toList, "".toList,
   "  memory_pool_size_mb = 512  ".toList, "[Plugins]".toList, "memory_pool_size_mb = x".toList]

/-! ## Arithmetic of the rounding -/

theorem land_clear_low (n x k : Nat) (hk : k ≤ n) (hx : x < 2 ^ n) :
    x &&& (2 ^ n - 2 ^ k) = x / 2 ^ k * 2 ^ k := by
  apply Nat.eq_of_testBit_eq
  intro i
  have e : (2:Nat) ^ n - 2 ^ k = 2 ^ k * (2 ^ (n - k) - 1) := by
    rw [Nat.mul_sub, ← pow_add, Nat.add_sub_cancel' hk, mul_one]
  rw [Nat.testBit_and, e, Nat.testBit_mul_pow_two, Nat.testBit_two_pow_sub_one,
    Nat.mul_comm, Nat.testBit_mul_pow_two, ← Nat.shiftRight_eq_div_pow, Nat.testBit_shiftRight]
  by_cases hik : k ≤ i
  · have e2 : k + (i - k) = i := by omega
    simp only [ge_iff_le, hik, decide_True, Bool.true_and, e2]
    by_cases h64 : i < n
    · have : i - k < n - k := by omega
      simp [this]
    · have : x < 2 ^ i := lt_of_lt_of_le hx (Nat.pow_le_pow_right (by decide) (by omega))
      simp [Nat.testBit_lt_two_pow this]
  · simp [hik]

theorem wsub_one_eq (M a : Nat) (h0 : 0 < a) (hM : a < M) : (a + (M - 1 % M)) % M = a - 1 := by
  have h1 : 1 % M = 1 := Nat.mod_eq_of_lt (by omega)
  have : a + (M - 1 % M) = (a - 1) + M := by rw [h1]; omega
  rw [this, Nat.add_mod_right, Nat.mod_eq_of_lt (by omega)]

theorem wadd_sub_one_eq (M s a : Nat) (h0 : 0 < a) (hM : 1 < M) :
    ((s + a) % M + (M - 1 % M)) % M = (s + a - 1) % M := by
  have h1 : 1 % M = 1 := Nat.mod_eq_of_lt (by omega)
  rw [h1, Nat.mod_add_mod]
  have : s + a + (M - 1) = (s + a - 1) + M := by omega
  rw [this, Nat.add_mod_right]

theorem wsub_of_le (a b : Nat) (hba : b ≤ a) (ha : a < SIZE_MOD) : wsub a b = a - b := by
  unfold wsub
  have hb : b % SIZE_MOD = b := Nat.mod_eq_of_lt (by omega)
  have : a + (SIZE_MOD - b % SIZE_MOD) = (a - b) + SIZE_MOD := by rw [hb]; omega
  rw [this, Nat.add_mod_right, Nat.mod_eq_of_lt (by omega)]

theorem wsub_lt (a b : Nat) : wsub a b < SIZE_MOD :=
  Nat.mod_lt _ (Nat.pow_pos (by decide))

/-- Closed form of line 56 for a power-of-two alignment: the low bits of the
wrapped sum are cleared. -/
theorem aligned_size_eq (L : Layout) (k : Nat) (hk : k < 64) (hal : L.ALIGNMENT = 2 ^ k)
    (size : Nat) :
    aligned_size L size = (size + 2 ^ k - 1) % SIZE_MOD / 2 ^ k * 2 ^ k := by
  have hpos : 0 < 2 ^ k := Nat.pow_pos (by decide)
  have hlt : 2 ^ k < SIZE_MOD := Nat.pow_lt_pow_right (by decide) hk
  have hM : 1 < SIZE_MOD := lt_of_le_of_lt hpos hlt
  have h1 : wsub (2 ^ k) 1 = 2 ^ k - 1 := wsub_one_eq SIZE_MOD _ hpos hlt
  have h2 : wnot (2 ^ k - 1) = SIZE_MOD - 2 ^ k := by
    unfold wnot
    rw [Nat.mod_eq_of_lt (by omega)]; omega
  have h3 : wsub (wadd size (2 ^ k)) 1 = (size + 2 ^ k - 1) % SIZE_MOD :=
    wadd_sub_one_eq SIZE_MOD size _ hpos hM
  unfold aligned_size
  rw [hal, h1, h2, h3]
  exact land_clear_low 64 _ k (le_of_lt hk) (Nat.mod_lt _ (Nat.pow_pos (by decide)))

theorem aligned_size_dvd (L : Layout) (hL : L.ok) (size : Nat) :
    L.ALIGNMENT ∣ aligned_size L size := by
  obtain ⟨k, hk, hal⟩ := hL.pow2
  rw [aligned_size_eq L k hk hal, hal]
  exact Dvd.intro_left _ rfl

theorem aligned_size_lt (L : Layout) (hL : L.ok) (size : Nat) :
    aligned_size L size < SIZE_MOD := by
  obtain ⟨k, hk, hal⟩ := hL.pow2
  rw [aligned_size_eq L k hk hal]
  exact lt_of_le_of_lt (Nat.div_mul_le_self _ _) (Nat.mod_lt _ (Nat.pow_pos (by decide)))

theorem aligned_size_round_up (L : Layout) (hL : L.ok) (size : Nat)
    (h : size + L.ALIGNMENT ≤ SIZE_MOD) :
    aligned_size L size = round_up size L.ALIGNMENT := by
  obtain ⟨k, hk, hal⟩ := hL.pow2
  have hpos : 0 < 2 ^ k := Nat.pow_pos (by decide)
  rw [aligned_size_eq L k hk hal, round_up, hal, Nat.mod_eq_of_lt]
  rw [hal] at h; omega

theorem le_round_up (size al : Nat) (hal : 0 < al) : size ≤ round_up size al := by
  unfold round_up
  have h1 := Nat.div_add_mod (size + al - 1) al
  have h2 := Nat.mod_lt (size + al - 1) hal
  have h3 : (size + al - 1) / al * al = al * ((size + al - 1) / al) := Nat.mul_comm _ _
  omega

theorem round_up_dvd (size al : Nat) : al ∣ round_up size al := Dvd.intro_left _ rfl

/-- A rounded size that fits a `size_t` value means that line 56 did not wrap. -/
theorem no_wrap_of_round_up_lt (L : Layout) (hL : L.ok) (size s : Nat)
    (h : round_up size L.ALIGNMENT ≤ s) (hs : s < SIZE_MOD) :
    size + L.ALIGNMENT ≤ SIZE_MOD := by
  obtain ⟨k, hk, hal⟩ := hL.pow2
  have hpos : 0 < 2 ^ k := Nat.pow_pos (by decide)
  have hle := le_round_up size L.ALIGNMENT (by rw [hal]; exact hpos)
  obtain ⟨q, hq⟩ := round_up_dvd size L.ALIGNMENT
  have hM : SIZE_MOD = 2 ^ k * 2 ^ (64 - k) := by
    have e64 : k + (64 - k) = 64 := by omega
    rw [← pow_add, e64]; rfl
  rw [hal] at hq hle ⊢
  rw [hal, hq] at h
  rw [hq] at hle
  have hq1 : q < 2 ^ (64 - k) := by
    by_contra hc
    have : 2 ^ k * 2 ^ (64 - k) ≤ 2 ^ k * q := Nat.mul_le_mul_left _ (not_lt.mp hc)
    omega
  have : 2 ^ k * (q + 1) ≤ 2 ^ k * 2 ^ (64 - k) := Nat.mul_le_mul_left _ hq1
  rw [hM]
  have e : 2 ^ k * (q + 1) = 2 ^ k * q + 2 ^ k := by ring
  omega


/-! ## Reading headers -/

theorem sizeAt_of_some {mem : Memory} {b : Nat} {h : BlockHeader} (e : mem b = some h) :
    sizeAt mem b = h.size := by
  simp [sizeAt, e]

theorem isFreeAt_of_some {mem : Memory} {b : Nat} {h : BlockHeader} (e : mem b = some h) :
    isFreeAt mem b = h.is_free := by
  simp [isFreeAt, e]

theorem mem_some_of_isFreeAt {mem : Memory} {b : Nat} (e : isFreeAt mem b = true) :
    ∃ h, mem b = some h ∧ h.is_free = true := by
  unfold isFreeAt at e
  cases hb : mem b with
  | none => rw [hb] at e; cases e
  | some h => rw [hb] at e; exact ⟨h, rfl, e⟩

theorem poke_same (mem : Memory) (a : Nat) (h : BlockHeader) : poke mem a h a = some h := by
  simp [poke]

theorem poke_other (mem : Memory) (a : Nat) (h : BlockHeader) {x : Nat} (hx : x ≠ a) :
    poke mem a h x = mem x := by
  simp [poke, hx]

/-! ## The first-fit loop -/

/-- The loop passes over entries that are too small and takes the first entry
that is free and large enough. -/
theorem allocateLoop_found (L : Layout) (m : MemoryManager) (size asz : Nat)
    (tag : Option String) (b : Nat) (post : List Nat) (h : BlockHeader)
    (hb : m.mem b = some h) (hfree : h.is_free = true) (hfit : asz ≤ h.size) :
    ∀ (pre visited : List Nat),
      (∀ q ∈ pre, ∃ hq, m.mem q = some hq ∧ hq.size < asz) →
      allocateLoop L m size asz tag visited (pre ++ b :: post)
        = .ok (takeBlock L m asz tag (visited ++ pre) b post h) := by
  intro pre
  induction pre with
  | nil =>
    intro visited _
    simp [allocateLoop, hb, hfree, hfit]
  | cons q pre ih =>
    intro visited hpre
    obtain ⟨hq, e, hlt⟩ := hpre q (List.mem_cons_self _ _)
    have hnot : ¬ asz ≤ hq.size := not_le.mpr hlt
    simp only [List.cons_append, allocateLoop, e, hnot, decide_False, Bool.and_false]
    rw [if_neg Bool.false_ne_true]
    have := ih (visited ++ [q]) (fun x hx => hpre x (List.mem_cons_of_mem _ hx))
    simpa using this

/-- When every entry is too small the loop ends without touching the state. -/
theorem allocateLoop_none (L : Layout) (m : MemoryManager) (size asz : Nat)
    (tag : Option String) :
    ∀ (l visited : List Nat),
      (∀ q ∈ l, ∃ hq, m.mem q = some hq ∧ hq.size < asz) →
      allocateLoop L m size asz tag visited l
        = .ok ⟨none, m,
            ["MemoryManager: Out of memory for allocation of " ++ toString size ++ " bytes."]⟩ := by
  intro l
  induction l with
  | nil => intro visited _; rfl
  | cons q l ih =>
    intro visited hl
    obtain ⟨hq, e, hlt⟩ := hl q (List.mem_cons_self _ _)
    have hnot : ¬ asz ≤ hq.size := not_le.mpr hlt
    simp only [allocateLoop, e, hnot, decide_False, Bool.and_false]
    rw [if_neg Bool.false_ne_true]
    exact ih _ (fun x hx => hl x (List.mem_cons_of_mem _ hx))

/-- A list of stored headers either has no entry of size at least `asz`, or
splits at its first such entry. -/
theorem exists_first_fit (mem : Memory) (asz : Nat) :
    ∀ l : List Nat,
      (∀ q ∈ l, sizeAt mem q < asz) ∨
      ∃ pre b post, l = pre ++ b :: post ∧ (∀ q ∈ pre, sizeAt mem q < asz) ∧
        asz ≤ sizeAt mem b := by
  intro l
  induction l with
  | nil => left; intro q hq; exact absurd hq (List.not_mem_nil q)
  | cons a l ih =>
    by_cases ha : asz ≤ sizeAt mem a
    · right
      exact ⟨[], a, l, rfl, fun q hq => absurd hq (List.not_mem_nil q), ha⟩
    · rcases ih with hall | ⟨pre, b, post, e, hpre, hb⟩
      · left
        intro q hq
        rcases List.mem_cons.mp hq with rfl | hq
        · exact not_le.mp ha
        · exact hall q hq
      · right
        refine ⟨a :: pre, b, post, by rw [e]; rfl, ?_, hb⟩
        intro q hq
        rcases List.mem_cons.mp hq with rfl | hq
        · exact not_le.mp ha
        · exact hpre q hq

/-- Two splittings of a list at an element that occurs in neither front part
are the same splitting. -/
theorem split_unique {α : Type} {x : α} :
    ∀ {p1 p2 s1 s2 : List α}, p1 ++ x :: s1 = p2 ++ x :: s2 → x ∉ p1 → x ∉ p2 →
      p1 = p2 ∧ s1 = s2 := by
  intro p1
  induction p1 with
  | nil =>
    intro p2 s1 s2 e _ h2
    cases p2 with
    | nil => simp at e; exact ⟨rfl, e⟩
    | cons y p2 =>
      simp at e
      exact absurd (List.mem_cons.mpr (Or.inl e.1)) h2
  | cons a p1 ih =>
    intro p2 s1 s2 e h1 h2
    cases p2 with
    | nil =>
      simp at e
      exact absurd (List.mem_cons.mpr (Or.inl e.1.symm)) h1
    | cons y p2 =>
      simp at e
      obtain ⟨e1, e2⟩ := e
      obtain ⟨r1, r2⟩ := ih e2 (fun hx => h1 (List.mem_cons_of_mem _ hx))
        (fun hx => h2 (List.mem_cons_of_mem _ hx))
      exact ⟨by rw [e1, r1], r2⟩


/-! ## Chains of blocks -/

theorem chain_append (hs : Nat) (mem : Memory) :
    ∀ (xs ys : List Nat) (a e : Nat),
      Chain hs mem (xs ++ ys) a e ↔ ∃ mid, Chain hs mem xs a mid ∧ Chain hs mem ys mid e := by
  intro xs
  induction xs with
  | nil =>
    intro ys a e
    constructor
    · intro h; exact ⟨a, rfl, h⟩
    · rintro ⟨mid, h1, h2⟩
      have h1 : a = mid := h1
      rw [h1]; exact h2
  | cons x xs ih =>
    intro ys a e
    constructor
    · rintro ⟨hx, h, hm, hc⟩
      obtain ⟨mid, c1, c2⟩ := (ih ys _ e).mp hc
      exact ⟨mid, ⟨hx, h, hm, c1⟩, c2⟩
    · rintro ⟨mid, ⟨hx, h, hm, c1⟩, c2⟩
      exact ⟨hx, h, hm, (ih ys _ e).mpr ⟨mid, c1, c2⟩⟩

/-- A chain only depends on the sizes stored at its own addresses. -/
theorem chain_congr (hs : Nat) (mem mem2 : Memory) :
    ∀ (bs : List Nat) (a e : Nat),
      (∀ b ∈ bs, ∀ h, mem b = some h → ∃ h2, mem2 b = some h2 ∧ h2.size = h.size) →
      Chain hs mem bs a e → Chain hs mem2 bs a e := by
  intro bs
  induction bs with
  | nil => intro a e _ h; exact h
  | cons x xs ih =>
    intro a e hagree hc
    obtain ⟨hx, h, hm, hc⟩ := hc
    obtain ⟨h2, hm2, hsz⟩ := hagree x (List.mem_cons_self _ _) h hm
    refine ⟨hx, h2, hm2, ?_⟩
    rw [hsz]
    exact ih _ e (fun b hb => hagree b (List.mem_cons_of_mem _ hb)) hc

theorem chain_le_end (hs : Nat) (mem : Memory) :
    ∀ (bs : List Nat) (a e : Nat), Chain hs mem bs a e → a ≤ e := by
  intro bs
  induction bs with
  | nil => intro a e h; exact le_of_eq h
  | cons x xs ih =>
    intro a e hc
    obtain ⟨_, h, _, hc⟩ := hc
    have := ih _ e hc
    omega

/-- Every block of a chain lies between the two ends of the chain. -/
theorem chain_bounds (hs : Nat) (mem : Memory) :
    ∀ (bs : List Nat) (a e : Nat), Chain hs mem bs a e →
      ∀ b ∈ bs, a ≤ b ∧ b + hs + sizeAt mem b ≤ e := by
  intro bs
  induction bs with
  | nil => intro a e _ b hb; exact absurd hb (List.not_mem_nil b)
  | cons x xs ih =>
    intro a e hc b hb
    obtain ⟨hx, h, hm, hc⟩ := hc
    rcases List.mem_cons.mp hb with rfl | hb
    · have := chain_le_end hs mem xs _ e hc
      rw [sizeAt_of_some hm, hx]
      exact ⟨le_refl _, this⟩
    · have := ih _ e hc b hb
      omega

theorem chain_mem_some (hs : Nat) (mem : Memory) :
    ∀ (bs : List Nat) (a e : Nat), Chain hs mem bs a e →
      ∀ b ∈ bs, ∃ h, mem b = some h := by
  intro bs
  induction bs with
  | nil => intro a e _ b hb; exact absurd hb (List.not_mem_nil b)
  | cons x xs ih =>
    intro a e hc b hb
    obtain ⟨_, h, hm, hc⟩ := hc
    rcases List.mem_cons.mp hb with rfl | hb
    · exact ⟨h, hm⟩
    · exact ih _ e hc b hb

/-- With a non-empty header the block addresses of a chain strictly ascend. -/
theorem chain_sorted (hs : Nat) (hpos : 0 < hs) (mem : Memory) :
    ∀ (bs : List Nat) (a e : Nat), Chain hs mem bs a e → bs.Sorted (· < ·) := by
  intro bs
  induction bs with
  | nil => intro a e _; exact List.sorted_nil
  | cons x xs ih =>
    intro a e hc
    obtain ⟨hx, h, hm, hc⟩ := hc
    refine List.sorted_cons.mpr ⟨?_, ih _ e hc⟩
    intro b hb
    have := (chain_bounds hs mem xs _ e hc b hb).1
    omega

/-- The extents of the blocks of a chain add up to the distance between its ends. -/
theorem chain_sum (hs : Nat) (mem : Memory) :
    ∀ (bs : List Nat) (a e : Nat), Chain hs mem bs a e →
      a + (bs.map (fun b => hs + sizeAt mem b)).sum = e := by
  intro bs
  induction bs with
  | nil => intro a e h; simpa using h
  | cons x xs ih =>
    intro a e hc
    obtain ⟨hx, h, hm, hc⟩ := hc
    have := ih _ e hc
    simp only [List.map_cons, List.sum_cons, sizeAt_of_some hm]
    omega

/-- Walking the arena finds exactly the blocks of a chain. -/
theorem walkBlocks_of_chain (hs : Nat) (hpos : 0 < hs) (mem : Memory) (e : Nat) :
    ∀ (bs : List Nat) (fuel a : Nat), Chain hs mem bs a e → bs.length ≤ fuel →
      walkBlocks hs mem e fuel a = some bs := by
  intro bs
  induction bs with
  | nil =>
    intro fuel a hc _
    have hc : a = e := hc
    cases fuel <;> simp [walkBlocks, hc]
  | cons x xs ih =>
    intro fuel a hc hlen
    obtain ⟨hx, h, hm, hc⟩ := hc
    have hle := chain_le_end hs mem xs _ e hc
    have hne : a ≠ e := by omega
    cases fuel with
    | zero => simp at hlen
    | succ fuel =>
      rw [hx] at hm
      simp only [walkBlocks, hne, if_false, hm]
      rw [ih fuel _ hc (by simpa using hlen), hx]
      rfl

/-- A chain has at most as many blocks as it spans bytes. -/
theorem chain_length_le (hs : Nat) (hpos : 0 < hs) (mem : Memory) :
    ∀ (bs : List Nat) (a e : Nat), Chain hs mem bs a e → a + bs.length ≤ e := by
  intro bs
  induction bs with
  | nil => intro a e h; simpa using le_of_eq h
  | cons x xs ih =>
    intro a e hc
    obtain ⟨hx, h, hm, hc⟩ := hc
    have := ih _ e hc
    simp only [List.length_cons]
    omega


/-! ## Chains and single stores -/

theorem isFreeAt_poke_other (mem : Memory) (a : Nat) (v : BlockHeader) {x : Nat} (hx : x ≠ a) :
    isFreeAt (poke mem a v) x = isFreeAt mem x := by
  simp [isFreeAt, poke, hx]

theorem sizeAt_poke_other (mem : Memory) (a : Nat) (v : BlockHeader) {x : Nat} (hx : x ≠ a) :
    sizeAt (poke mem a v) x = sizeAt mem x := by
  simp [sizeAt, poke, hx]

theorem isFreeAt_poke_same (mem : Memory) (a : Nat) (v : BlockHeader) :
    isFreeAt (poke mem a v) a = v.is_free := by
  simp [isFreeAt, poke]

theorem sizeAt_poke_same (mem : Memory) (a : Nat) (v : BlockHeader) :
    sizeAt (poke mem a v) a = v.size := by
  simp [sizeAt, poke]

theorem chain_poke_of_not_mem (hs : Nat) (mem : Memory) (x : Nat) (v : BlockHeader)
    (bs : List Nat) (a e : Nat) (hx : x ∉ bs) (hc : Chain hs mem bs a e) :
    Chain hs (poke mem x v) bs a e := by
  refine chain_congr hs mem _ bs a e ?_ hc
  intro b hb h hm
  have hne : b ≠ x := fun e => hx (e ▸ hb)
  exact ⟨h, by rw [poke_other mem x v hne]; exact hm, rfl⟩

theorem filter_poke_of_not_mem (mem : Memory) (x : Nat) (v : BlockHeader) (bs : List Nat)
    (hx : x ∉ bs) :
    bs.filter (isFreeAt (poke mem x v)) = bs.filter (isFreeAt mem) := by
  apply List.filter_congr
  intro b hb
  exact isFreeAt_poke_other mem x v (fun e => hx (e ▸ hb))

/-- A chain splits at any of its blocks into the blocks below and the blocks above. -/
theorem chain_split_at (hs : Nat) (hpos : 0 < hs) (mem : Memory) (bs : List Nat) (a e b : Nat)
    (h : BlockHeader) (hc : Chain hs mem bs a e) (hb : b ∈ bs) (hm : mem b = some h) :
    ∃ B1 B2, bs = B1 ++ b :: B2 ∧ Chain hs mem B1 a b ∧ Chain hs mem B2 (b + hs + h.size) e ∧
      (∀ x ∈ B1, x < b) ∧ (∀ x ∈ B2, b + hs + h.size ≤ x) ∧ a ≤ b := by
  obtain ⟨B1, B2, rfl⟩ := List.append_of_mem hb
  obtain ⟨mid, c1, c2⟩ := (chain_append hs mem B1 (b :: B2) a e).mp hc
  obtain ⟨hbm, h2, hm2, c2⟩ := c2
  rw [hm] at hm2
  cases hm2
  subst hbm
  refine ⟨B1, B2, rfl, c1, c2, ?_, ?_, chain_le_end hs mem B1 a b c1⟩
  · intro x hx
    have := (chain_bounds hs mem B1 a b c1 x hx).2
    omega
  · intro x hx
    exact (chain_bounds hs mem B2 _ e c2 x hx).1

theorem chain_join (hs : Nat) (mem : Memory) (B1 B2 : List Nat) (a e b : Nat) (h : BlockHeader)
    (c1 : Chain hs mem B1 a b) (hm : mem b = some h)
    (c2 : Chain hs mem B2 (b + hs + h.size) e) :
    Chain hs mem (B1 ++ b :: B2) a e :=
  (chain_append hs mem B1 (b :: B2) a e).mpr ⟨b, c1, rfl, h, hm, c2⟩

/-! ## The invariant -/

theorem inv_sorted {L : Layout} (hL : L.ok) {base cap : Nat} {m : MemoryManager}
    {issued live bs : List Nat} (hI : Inv L base cap m issued live bs) : bs.Sorted (· < ·) :=
  chain_sorted L.header_size hL.header_pos m.mem bs _ _ hI.chain

/-- In a state that satisfies the invariant the free list is well formed. -/
theorem inv_freeListWF {L : Layout} (hL : L.ok) {base cap : Nat} {m : MemoryManager}
    {issued live bs : List Nat} (hI : Inv L base cap m issued live bs) : FreeListWF m := by
  constructor
  · rw [hI.free_list]
    exact (inv_sorted hL hI).filter _
  · intro b hb
    rw [hI.free_list] at hb
    obtain ⟨hb1, hb2⟩ := List.mem_filter.mp hb
    obtain ⟨h, hm, hf⟩ := mem_some_of_isFreeAt hb2
    refine ⟨h, hm, hf, ?_⟩
    have := hI.sizes b hb1
    rwa [sizeAt_of_some hm] at this

/-- The state after `initialize` satisfies the invariant. -/
theorem inv_init (L : Layout) (base cap : Nat) :
    Inv L base cap (initializePool L MemoryManager.fresh (some base) cap).state [] [] [base] := by
  have hm : (initializePool L MemoryManager.fresh (some base) cap).state.mem base
      = some { size := wsub cap L.header_size, is_free := true, tag := some "InitialPool" } := by
    simp [initializePool, MemoryManager.fresh, poke]
  constructor
  · rfl
  · rfl
  · exact ⟨rfl, _, hm, rfl⟩
  · have : isFreeAt (initializePool L MemoryManager.fresh (some base) cap).state.mem base = true := by
      rw [isFreeAt_of_some hm]
    rw [List.filter_cons_of_pos this]
    rfl
  · intro b hb
    rw [List.mem_singleton.mp hb, Nat.sub_self]
    exact dvd_zero _
  · intro b hb
    rw [List.mem_singleton.mp hb, sizeAt_of_some hm]
    exact wsub_lt _ _
  · intro p hp; exact absurd hp (List.not_mem_nil p)
  · intro p
    constructor
    · intro hp; exact absurd hp (List.not_mem_nil p)
    · rintro ⟨b, hb, _, hf⟩
      rw [List.mem_singleton.mp hb, isFreeAt_of_some hm] at hf
      cases hf
  · exact List.nodup_nil


/-- Taking a free block of the free list (with or without a split) keeps the
invariant; the returned address joins the issued and the live addresses. -/
theorem inv_takeBlock {L : Layout} (hL : L.ok) {base cap : Nat} {m : MemoryManager}
    {issued live bs : List Nat} (hI : Inv L base cap m issued live bs)
    (asz : Nat) (tag : Option String) (pre post : List Nat) (b : Nat) (h : BlockHeader)
    (hlist : m.m_free_list = pre ++ b :: post) (hm : m.mem b = some h)
    (hfree : h.is_free = true) (hfit : asz ≤ h.size) (hdvd : L.ALIGNMENT ∣ asz) :
    ∃ bs2, Inv L base cap (takeBlock L m asz tag pre b post h).state
      ((b + L.header_size) :: issued) ((b + L.header_size) :: live) bs2 := by
  have hpos := hL.header_pos
  have hbf : b ∈ m.m_free_list := by rw [hlist]; simp
  have hbbs : b ∈ bs := by
    rw [hI.free_list] at hbf
    exact (List.mem_filter.mp hbf).1
  obtain ⟨B1, B2, hbs, c1, c2, hB1, hB2, hbase⟩ :=
    chain_split_at L.header_size hpos m.mem bs _ _ b h hI.chain hbbs hm
  have hnodup : (pre ++ b :: post).Nodup := by
    rw [← hlist]; exact (inv_freeListWF hL hI).ascending.nodup
  have hbpre : b ∉ pre := by
    intro hx
    have := (List.nodup_append.mp hnodup).2.2 hx (List.mem_cons_self _ _)
    exact this
  have hbB1 : b ∉ B1 := fun hx => lt_irrefl _ (hB1 b hx)
  have hbB2 : b ∉ B2 := fun hx => by have := hB2 b hx; omega
  have hbfree : isFreeAt m.mem b = true := by rw [isFreeAt_of_some hm]; exact hfree
  have hfl : pre ++ b :: post = B1.filter (isFreeAt m.mem) ++ b :: B2.filter (isFreeAt m.mem) := by
    rw [← hlist, hI.free_list, hbs, List.filter_append, List.filter_cons_of_pos hbfree]
  obtain ⟨hpre, hpost⟩ := split_unique hfl hbpre (fun hx => hbB1 (List.mem_filter.mp hx).1)
  have hlive_b : b + L.header_size ∉ live := by
    intro hx
    obtain ⟨b0, _, e0, hf0⟩ := (hI.live_blocks _).mp hx
    have : b0 = b := by omega
    rw [this, hbfree] at hf0
    cases hf0
  have hsz : h.size < SIZE_MOD := by
    have := hI.sizes b hbbs
    rwa [sizeAt_of_some hm] at this
  have hal : L.ALIGNMENT ∣ L.header_size := Nat.dvd_of_mod_eq_zero hL.header_aligned
  by_cases hsplit : L.header_size + L.ALIGNMENT < h.size - asz
  · -- the block is split
    have hnbB1 : b + L.header_size + asz ∉ B1 := fun hx => by have := hB1 _ hx; omega
    have hnbB2 : b + L.header_size + asz ∉ B2 := fun hx => by have := hB2 _ hx; omega
    have hnb : b + L.header_size + asz ≠ b := by omega
    have hst : (takeBlock L m asz tag pre b post h).state =
        { m with
          mem := poke (poke m.mem (b + L.header_size + asz)
            { size := h.size - asz - L.header_size, is_free := true, tag := some "SplitBlock" })
            b { size := asz, is_free := false, tag := tag }
          m_free_list := pre ++ (b + L.header_size + asz) :: post } := by
      simp [takeBlock, hsplit]
    rw [hst]
    refine ⟨B1 ++ b :: (b + L.header_size + asz) :: B2, ?_⟩
    constructor
    · exact hI.pool
    · exact hI.pool_size
    · refine chain_join _ _ B1 _ _ _ b _ ?_ (poke_same _ _ _) ?_
      · exact chain_poke_of_not_mem _ _ _ _ _ _ _ hbB1
          (chain_poke_of_not_mem _ _ _ _ _ _ _ hnbB1 c1)
      · refine ⟨rfl, { size := h.size - asz - L.header_size, is_free := true,
                       tag := some "SplitBlock" }, ?_, ?_⟩
        · show poke (poke m.mem _ _) b _ (b + L.header_size + asz) = some _
          rw [poke_other _ _ _ hnb, poke_same]
        · have e : b + L.header_size + asz + L.header_size + (h.size - asz - L.header_size)
              = b + L.header_size + h.size := by omega
          show Chain _ _ B2 (b + L.header_size + asz + L.header_size
            + (h.size - asz - L.header_size)) _
          rw [e]
          exact chain_poke_of_not_mem _ _ _ _ _ _ _ hbB2
            (chain_poke_of_not_mem _ _ _ _ _ _ _ hnbB2 c2)
    · show pre ++ (b + L.header_size + asz) :: post = List.filter _ _
      rw [List.filter_append, List.filter_cons_of_neg, List.filter_cons_of_pos,
        filter_poke_of_not_mem _ _ _ _ hbB1, filter_poke_of_not_mem _ _ _ _ hnbB1,
        filter_poke_of_not_mem _ _ _ _ hbB2, filter_poke_of_not_mem _ _ _ _ hnbB2, hpre, hpost]
      · rw [isFreeAt_poke_other _ _ _ hnb, isFreeAt_poke_same]
      · rw [isFreeAt_poke_same]; simp
    · intro x hx
      rcases List.mem_append.mp hx with hx | hx
      · exact hI.offsets x (by rw [hbs]; exact List.mem_append_left _ hx)
      · rcases List.mem_cons.mp hx with rfl | hx
        · exact hI.offsets _ hbbs
        · rcases List.mem_cons.mp hx with rfl | hx
          · have e : b + L.header_size + asz - base = (b - base) + L.header_size + asz := by omega
            rw [e]
            exact dvd_add (dvd_add (hI.offsets _ hbbs) hal) hdvd
          · exact hI.offsets x (by rw [hbs]; exact List.mem_append_right _ (List.mem_cons_of_mem _ hx))
    · intro x hx
      show sizeAt (poke (poke m.mem _ _) b _) x < SIZE_MOD
      by_cases hxb : x = b
      · rw [hxb, sizeAt_poke_same]; exact lt_of_le_of_lt hfit hsz
      · rw [sizeAt_poke_other _ _ _ hxb]
        by_cases hxn : x = b + L.header_size + asz
        · rw [hxn, sizeAt_poke_same]
          show h.size - asz - L.header_size < SIZE_MOD
          omega
        · rw [sizeAt_poke_other _ _ _ hxn]
          apply hI.sizes x
          rw [hbs]
          rcases List.mem_append.mp hx with hx | hx
          · exact List.mem_append_left _ hx
          · rcases List.mem_cons.mp hx with hx | hx
            · exact absurd hx hxb
            · rcases List.mem_cons.mp hx with hx | hx
              · exact absurd hx hxn
              · exact List.mem_append_right _ (List.mem_cons_of_mem _ hx)
    · intro p hp
      rcases List.mem_cons.mp hp with rfl | hp
      · exact ⟨b, by simp, rfl⟩
      · obtain ⟨b0, hb0, e0⟩ := hI.issued_blocks p hp
        refine ⟨b0, ?_, e0⟩
        rw [hbs] at hb0
        rcases List.mem_append.mp hb0 with hx | hx
        · exact List.mem_append_left _ hx
        · rcases List.mem_cons.mp hx with hx | hx
          · rw [hx]; simp
          · exact List.mem_append_right _ (List.mem_cons_of_mem _ (List.mem_cons_of_mem _ hx))
    · intro p
      show p ∈ (b + L.header_size) :: live ↔
        ∃ b0 ∈ B1 ++ b :: (b + L.header_size + asz) :: B2,
          p = b0 + L.header_size ∧ isFreeAt (poke (poke m.mem _ _) b _) b0 = false
      constructor
      · intro hp
        rcases List.mem_cons.mp hp with rfl | hp
        · exact ⟨b, by simp, rfl, by rw [isFreeAt_poke_same]⟩
        · obtain ⟨b0, hb0, e0, hf0⟩ := (hI.live_blocks p).mp hp
          have hb0b : b0 ≠ b := by
            intro e; rw [e, hbfree] at hf0; cases hf0
          rw [hbs] at hb0
          have hb0n : b0 ≠ b + L.header_size + asz := by
            intro e
            rcases List.mem_append.mp hb0 with hx | hx
            · exact hnbB1 (e ▸ hx)
            · rcases List.mem_cons.mp hx with hx | hx
              · exact hb0b hx
              · exact hnbB2 (e ▸ hx)
          refine ⟨b0, ?_, e0, ?_⟩
          · rcases List.mem_append.mp hb0 with hx | hx
            · exact List.mem_append_left _ hx
            · rcases List.mem_cons.mp hx with hx | hx
              · exact absurd hx hb0b
              · exact List.mem_append_right _
                  (List.mem_cons_of_mem _ (List.mem_cons_of_mem _ hx))
          · rw [isFreeAt_poke_other _ _ _ hb0b, isFreeAt_poke_other _ _ _ hb0n]; exact hf0
      · rintro ⟨b0, hb0, e0, hf0⟩
        by_cases hb0b : b0 = b
        · rw [e0, hb0b]; exact List.mem_cons_self _ _
        · rw [isFreeAt_poke_other _ _ _ hb0b] at hf0
          by_cases hb0n : b0 = b + L.header_size + asz
          · rw [hb0n, isFreeAt_poke_same] at hf0; cases hf0
          · rw [isFreeAt_poke_other _ _ _ hb0n] at hf0
            refine List.mem_cons_of_mem _ ((hI.live_blocks p).mpr ⟨b0, ?_, e0, hf0⟩)
            rw [hbs]
            rcases List.mem_append.mp hb0 with hx | hx
            · exact List.mem_append_left _ hx
            · rcases List.mem_cons.mp hx with hx | hx
              · exact absurd hx hb0b
              · rcases List.mem_cons.mp hx with hx | hx
                · exact absurd hx hb0n
                · exact List.mem_append_right _ (List.mem_cons_of_mem _ hx)
    · exact List.nodup_cons.mpr ⟨hlive_b, hI.live_nodup⟩
  · -- the block is handed out whole
    have hst : (takeBlock L m asz tag pre b post h).state =
        { m with
          mem := poke m.mem b { size := h.size, is_free := false, tag := tag }
          m_free_list := pre ++ post } := by
      simp [takeBlock, hsplit]
    rw [hst]
    refine ⟨bs, ?_⟩
    constructor
    · exact hI.pool
    · exact hI.pool_size
    · rw [hbs]
      refine chain_join _ _ B1 _ _ _ b _ ?_ (poke_same _ _ _) ?_
      · exact chain_poke_of_not_mem _ _ _ _ _ _ _ hbB1 c1
      · exact chain_poke_of_not_mem _ _ _ _ _ _ _ hbB2 c2
    · show pre ++ post = List.filter _ _
      rw [hbs, List.filter_append, List.filter_cons_of_neg,
        filter_poke_of_not_mem _ _ _ _ hbB1, filter_poke_of_not_mem _ _ _ _ hbB2, hpre, hpost]
      rw [isFreeAt_poke_same]; simp
    · exact hI.offsets
    · intro x hx
      show sizeAt (poke m.mem b _) x < SIZE_MOD
      by_cases hxb : x = b
      · rw [hxb, sizeAt_poke_same]; exact hsz
      · rw [sizeAt_poke_other _ _ _ hxb]; exact hI.sizes x hx
    · intro p hp
      rcases List.mem_cons.mp hp with rfl | hp
      · exact ⟨b, hbbs, rfl⟩
      · exact hI.issued_blocks p hp
    · intro p
      show p ∈ (b + L.header_size) :: live ↔
        ∃ b0 ∈ bs, p = b0 + L.header_size ∧ isFreeAt (poke m.mem b _) b0 = false
      constructor
      · intro hp
        rcases List.mem_cons.mp hp with rfl | hp
        · exact ⟨b, hbbs, rfl, by rw [isFreeAt_poke_same]⟩
        · obtain ⟨b0, hb0, e0, hf0⟩ := (hI.live_blocks p).mp hp
          have hb0b : b0 ≠ b := by
            intro e; rw [e, hbfree] at hf0; cases hf0
          exact ⟨b0, hb0, e0, by rw [isFreeAt_poke_other _ _ _ hb0b]; exact hf0⟩
      · rintro ⟨b0, hb0, e0, hf0⟩
        by_cases hb0b : b0 = b
        · rw [e0, hb0b]; exact List.mem_cons_self _ _
        · rw [isFreeAt_poke_other _ _ _ hb0b] at hf0
          exact List.mem_cons_of_mem _ ((hI.live_blocks p).mpr ⟨b0, hb0, e0, hf0⟩)
    · exact List.nodup_cons.mpr ⟨hlive_b, hI.live_nodup⟩


/-! ## The operations on well-formed states -/

theorem takeBlock_value (L : Layout) (m : MemoryManager) (asz : Nat) (tag : Option String)
    (pre : List Nat) (b : Nat) (post : List Nat) (h : BlockHeader) :
    (takeBlock L m asz tag pre b post h).value = some (b + L.header_size) := by
  unfold takeBlock
  by_cases hsplit : L.header_size + L.ALIGNMENT < h.size - asz
  · simp [hsplit]
  · simp [hsplit]

/-- On an initialized pool with a well-formed free list, `allocate` either finds
every free block too small and returns null without changing the state, or takes
the first free block that is large enough. -/
theorem allocate_cases (L : Layout) (m : MemoryManager) (size : Nat) (tag : Option String)
    (hp : m.m_pool ≠ none) (hwf : FreeListWF m) :
    ((∀ q ∈ m.m_free_list, sizeAt m.mem q < aligned_size L size) ∧
      allocate L m size tag = .ok ⟨none, m,
        ["MemoryManager: Out of memory for allocation of " ++ toString size ++ " bytes."]⟩) ∨
    ∃ pre b post h, m.m_free_list = pre ++ b :: post ∧ m.mem b = some h ∧ h.is_free = true ∧
      (∀ q ∈ pre, sizeAt m.mem q < aligned_size L size) ∧ aligned_size L size ≤ h.size ∧
      allocate L m size tag = .ok (takeBlock L m (aligned_size L size) tag pre b post h) := by
  have hal : allocate L m size tag
      = allocateLoop L m size (aligned_size L size) tag [] m.m_free_list := by
    unfold allocate
    cases hpool : m.m_pool with
    | none => exact absurd hpool hp
    | some _ => rfl
  have hsmall : ∀ l : List Nat, (∀ q ∈ l, q ∈ m.m_free_list) →
      (∀ q ∈ l, sizeAt m.mem q < aligned_size L size) →
      ∀ q ∈ l, ∃ hq, m.mem q = some hq ∧ hq.size < aligned_size L size := by
    intro l hsub hl q hq
    obtain ⟨h, hm, _, _⟩ := hwf.entries q (hsub q hq)
    refine ⟨h, hm, ?_⟩
    have := hl q hq
    rwa [sizeAt_of_some hm] at this
  rcases exists_first_fit m.mem (aligned_size L size) m.m_free_list with hall | hex
  · left
    refine ⟨hall, ?_⟩
    rw [hal]
    exact allocateLoop_none L m size _ tag _ [] (hsmall _ (fun _ hq => hq) hall)
  · right
    obtain ⟨pre, b, post, e, hpre, hb⟩ := hex
    obtain ⟨h, hm, hfree, _⟩ := hwf.entries b (by rw [e]; simp)
    rw [sizeAt_of_some hm] at hb
    refine ⟨pre, b, post, h, e, hm, hfree, hpre, hb, ?_⟩
    rw [hal, e]
    have := allocateLoop_found L m size _ tag b post h hm hfree hb pre []
      (hsmall pre (fun q hq => by rw [e]; exact List.mem_append_left _ hq) hpre)
    simpa using this

/-- `allocate` keeps the invariant. -/
theorem inv_allocate {L : Layout} (hL : L.ok) {base cap : Nat} {m : MemoryManager}
    {issued live bs : List Nat} (hI : Inv L base cap m issued live bs)
    (size : Nat) (tag : Option String) :
    ∃ r, allocate L m size tag = .ok r ∧
      ((r.value = none ∧ r.state = m) ∨
       ∃ b bs2, b ∈ m.m_free_list ∧ r.value = some (b + L.header_size) ∧
        Inv L base cap r.state ((b + L.header_size) :: issued) ((b + L.header_size) :: live) bs2) := by
  have hp : m.m_pool ≠ none := by rw [hI.pool]; simp
  rcases allocate_cases L m size tag hp (inv_freeListWF hL hI) with ⟨_, e⟩ | hex
  · exact ⟨_, e, Or.inl ⟨rfl, rfl⟩⟩
  · obtain ⟨pre, b, post, h, hlist, hm, hfree, _, hfit, e⟩ := hex
    refine ⟨_, e, Or.inr ⟨b, ?_⟩⟩
    obtain ⟨bs2, hI2⟩ := inv_takeBlock hL hI (aligned_size L size) tag pre post b h hlist hm hfree
      hfit (aligned_size_dvd L hL size)
    exact ⟨bs2, by rw [hlist]; simp, takeBlock_value _ _ _ _ _ _ _ _, hI2⟩

/-- `deallocate` of an address handed out earlier returns normally and keeps the
invariant; the block directory keeps its blocks. -/
theorem inv_deallocate {L : Layout} (hL : L.ok) {base cap : Nat} {m : MemoryManager}
    {issued live bs : List Nat} (hI : Inv L base cap m issued live bs)
    (p : Nat) (hp : p ∈ issued) (tag : Option String) :
    ∃ r, deallocate L m (some p) tag = .ok r ∧
      Inv L base cap r.state issued (live.erase p) bs := by
  have hpos := hL.header_pos
  obtain ⟨b, hbbs, hpb⟩ := hI.issued_blocks p hp
  have hblock : p - L.header_size = b := by omega
  obtain ⟨h, hm⟩ := chain_mem_some _ _ _ _ _ hI.chain b hbbs
  by_cases hfree : h.is_free = true
  · refine ⟨⟨(), m, ["Warning: Double free detected for tag: " ++ h.tag.getD "unknown"]⟩, ?_, ?_⟩
    · simp [deallocate, hblock, hm, hfree]
    · have hnl : p ∉ live := by
        intro hx
        obtain ⟨b0, _, e0, hf0⟩ := (hI.live_blocks p).mp hx
        have : b0 = b := by omega
        rw [this, isFreeAt_of_some hm, hfree] at hf0
        cases hf0
      rw [List.erase_of_not_mem hnl]
      exact hI
  · have hnf : h.is_free = false := by simpa using hfree
    have hbnf : isFreeAt m.mem b = false := by rw [isFreeAt_of_some hm]; exact hnf
    refine ⟨⟨(), { m with
        mem := poke m.mem b { h with is_free := true, tag := some "FreedBlock" }
        m_free_list := List.insertionSort (· ≤ ·) (m.m_free_list ++ [b]) }, []⟩, ?_, ?_⟩
    · simp [deallocate, hblock, hm, hnf]
    · obtain ⟨B1, B2, hbs, c1, c2, hB1, hB2, _⟩ :=
        chain_split_at L.header_size hpos m.mem bs _ _ b h hI.chain hbbs hm
      have hbB1 : b ∉ B1 := fun hx => lt_irrefl _ (hB1 b hx)
      have hbB2 : b ∉ B2 := fun hx => by have := hB2 b hx; omega
      constructor
      · exact hI.pool
      · exact hI.pool_size
      · rw [hbs]
        exact chain_join _ _ B1 _ _ _ b _ (chain_poke_of_not_mem _ _ _ _ _ _ _ hbB1 c1)
          (poke_same _ _ _) (chain_poke_of_not_mem _ _ _ _ _ _ _ hbB2 c2)
      · show List.insertionSort (· ≤ ·) (m.m_free_list ++ [b]) = List.filter _ bs
        have hsorted : (bs.filter (isFreeAt (poke m.mem b
            { h with is_free := true, tag := some "FreedBlock" }))).Sorted (· ≤ ·) :=
          ((inv_sorted hL hI).filter _).imp (fun hab => le_of_lt hab)
        refine List.eq_of_perm_of_sorted ?_ (List.sorted_insertionSort _ _) hsorted
        refine (List.perm_insertionSort _ _).trans ?_
        refine (List.perm_append_singleton _ _).trans ?_
        rw [hI.free_list]
        conv_rhs => rw [hbs]
        rw [List.filter_append, List.filter_cons_of_pos (by rw [isFreeAt_poke_same]),
          filter_poke_of_not_mem _ _ _ _ hbB1, filter_poke_of_not_mem _ _ _ _ hbB2]
        conv_lhs => rw [hbs]
        rw [List.filter_append, List.filter_cons_of_neg (by rw [hbnf]; simp)]
        exact List.perm_middle.symm
      · exact hI.offsets
      · intro x hx
        show sizeAt (poke m.mem b _) x < SIZE_MOD
        by_cases hxb : x = b
        · rw [hxb, sizeAt_poke_same]
          have := hI.sizes b hbbs
          rwa [sizeAt_of_some hm] at this
        · rw [sizeAt_poke_other _ _ _ hxb]; exact hI.sizes x hx
      · exact hI.issued_blocks
      · intro q
        show q ∈ live.erase p ↔
          ∃ b0 ∈ bs, q = b0 + L.header_size ∧ isFreeAt (poke m.mem b _) b0 = false
        rw [hI.live_nodup.mem_erase_iff]
        constructor
        · rintro ⟨hne, hq⟩
          obtain ⟨b0, hb0, e0, hf0⟩ := (hI.live_blocks q).mp hq
          have hb0b : b0 ≠ b := by
            intro e; apply hne; rw [e0, e, hpb]
          exact ⟨b0, hb0, e0, by rw [isFreeAt_poke_other _ _ _ hb0b]; exact hf0⟩
        · rintro ⟨b0, hb0, e0, hf0⟩
          have hb0b : b0 ≠ b := by
            intro e; rw [e, isFreeAt_poke_same] at hf0; cases hf0
          rw [isFreeAt_poke_other _ _ _ hb0b] at hf0
          refine ⟨?_, (hI.live_blocks q).mpr ⟨b0, hb0, e0, hf0⟩⟩
          intro e; apply hb0b; omega
      · exact hI.live_nodup.erase p

/-- Every reachable state satisfies the invariant. -/
theorem reachable_inv {L : Layout} (hL : L.ok) {base cap : Nat} {m : MemoryManager}
    {issued live : List Nat} (hR : Reachable L base cap m issued live) :
    ∃ bs, Inv L base cap m issued live bs := by
  induction hR with
  | init _ => exact ⟨[base], inv_init L base cap⟩
  | alloc_ok _ _ hcall hval ih =>
    obtain ⟨bs, hI⟩ := ih
    obtain ⟨r2, e2, hcase⟩ := inv_allocate hL hI _ _
    rw [hcall] at e2
    cases e2
    rcases hcase with ⟨hn, _⟩ | ⟨b, bs2, _, hv, hI2⟩
    · rw [hn] at hval; cases hval
    · rw [hv] at hval
      cases hval
      exact ⟨bs2, hI2⟩
  | alloc_fail _ _ hcall hval ih =>
    obtain ⟨bs, hI⟩ := ih
    obtain ⟨r2, e2, hcase⟩ := inv_allocate hL hI _ _
    rw [hcall] at e2
    cases e2
    rcases hcase with ⟨_, hs⟩ | ⟨b, bs2, _, hv, _⟩
    · rw [hs]; exact ⟨bs, hI⟩
    · rw [hv] at hval; cases hval
  | dealloc _ hp hcall ih =>
    obtain ⟨bs, hI⟩ := ih
    obtain ⟨r2, e2, hI2⟩ := inv_deallocate hL hI _ hp _
    rw [hcall] at e2
    cases e2
    exact ⟨bs, hI2⟩
  | dealloc_null _ hcall ih =>
    obtain ⟨bs, hI⟩ := ih
    simp only [deallocate] at hcall
    cases hcall
    exact ⟨bs, hI⟩


/-! ## Allocation: first fit, split rule, failure -/

theorem layout24_8_ok : layout24_8.ok :=
  ⟨by decide, ⟨3, by decide, rfl⟩, rfl⟩

theorem takeBlock_split (L : Layout) (m : MemoryManager) (asz : Nat) (tag : Option String)
    (pre : List Nat) (b : Nat) (post : List Nat) (h : BlockHeader)
    (hsplit : L.header_size + L.ALIGNMENT < h.size - asz) :
    (takeBlock L m asz tag pre b post h).state =
      { m with
        mem := poke (poke m.mem (b + L.header_size + asz)
          { size := h.size - asz - L.header_size, is_free := true, tag := some "SplitBlock" })
          b { size := asz, is_free := false, tag := tag }
        m_free_list := pre ++ (b + L.header_size + asz) :: post } := by
  unfold takeBlock
  rw [if_pos hsplit]

theorem takeBlock_whole (L : Layout) (m : MemoryManager) (asz : Nat) (tag : Option String)
    (pre : List Nat) (b : Nat) (post : List Nat) (h : BlockHeader)
    (hsplit : ¬ L.header_size + L.ALIGNMENT < h.size - asz) :
    (takeBlock L m asz tag pre b post h).state =
      { m with
        mem := poke m.mem b { size := h.size, is_free := false, tag := tag }
        m_free_list := pre ++ post } := by
  unfold takeBlock
  rw [if_neg hsplit]

/-- On an initialized pool with a well-formed free list `allocate` always
returns normally; it returns null exactly when every free block is smaller than
the size computed at line 56, and then the state is untouched. -/
theorem allocate_null_iff (L : Layout) (m : MemoryManager) (size : Nat) (tag : Option String)
    (hp : m.m_pool ≠ none) (hwf : FreeListWF m) :
    ∃ r, allocate L m size tag = .ok r ∧
      (r.value = none ↔ ∀ q ∈ m.m_free_list, sizeAt m.mem q < aligned_size L size) ∧
      (r.value = none → r.state = m) := by
  rcases allocate_cases L m size tag hp hwf with ⟨hall, e⟩ | ⟨pre, b, post, h, hl, hm, _, _, hfit, e⟩
  · exact ⟨_, e, ⟨fun _ => hall, fun _ => rfl⟩, fun _ => rfl⟩
  · refine ⟨_, e, ⟨?_, ?_⟩, ?_⟩
    · intro hv; rw [takeBlock_value] at hv; cases hv
    · intro hall
      have := hall b (by rw [hl]; simp)
      rw [sizeAt_of_some hm] at this
      omega
    · intro hv; rw [takeBlock_value] at hv; cases hv

/-- C1 (first fit). On an initialized pool whose free list is well formed
(strictly ascending, every entry a stored free header), if some block of the
free list has size at least `round_up size ALIGNMENT`, then line 56 computes
exactly that rounded size and `allocate` takes the first such block `b` of the
list, which is also the one at the lowest address: every earlier entry is too
small, the call returns `b + header_size` (the block address being
`base_address + offset`), the header at `b` is marked not free and carries the
tag, `b` is no longer in the free list, and the other entries keep their places
(at most one new entry takes the place of `b`). -/
theorem C1_first_fit (L : Layout) (hL : L.ok) (m : MemoryManager) (size : Nat)
    (tag : Option String) (hp : m.m_pool ≠ none) (hwf : FreeListWF m)
    (hex : ∃ q ∈ m.m_free_list, round_up size L.ALIGNMENT ≤ sizeAt m.mem q) :
    aligned_size L size = round_up size L.ALIGNMENT ∧
    ∃ pre b post hdr r,
      m.m_free_list = pre ++ b :: post ∧ m.mem b = some hdr ∧
      (∀ q ∈ pre, sizeAt m.mem q < round_up size L.ALIGNMENT) ∧
      round_up size L.ALIGNMENT ≤ hdr.size ∧
      (∀ q ∈ m.m_free_list, round_up size L.ALIGNMENT ≤ sizeAt m.mem q → b ≤ q) ∧
      allocate L m size tag = .ok r ∧
      r.value = some (b + L.header_size) ∧
      (∃ h2, r.state.mem b = some h2 ∧ h2.is_free = false ∧ h2.tag = tag) ∧
      b ∉ r.state.m_free_list ∧
      ∃ ins, ins.length ≤ 1 ∧ r.state.m_free_list = pre ++ ins ++ post := by
  obtain ⟨q0, hq0, hq0fit⟩ := hex
  obtain ⟨h0, hm0, _, hlt0⟩ := hwf.entries q0 hq0
  rw [sizeAt_of_some hm0] at hq0fit
  have hnowrap := no_wrap_of_round_up_lt L hL size h0.size hq0fit hlt0
  have hasz := aligned_size_round_up L hL size hnowrap
  refine ⟨hasz, ?_⟩
  rcases allocate_cases L m size tag hp hwf with ⟨hall, _⟩ | ⟨pre, b, post, h, hl, hm, _, hpre, hfit, e⟩
  · have := hall q0 hq0
    rw [sizeAt_of_some hm0, hasz] at this
    omega
  · rw [hasz] at hpre hfit
    have hnodup : (pre ++ b :: post).Nodup := by rw [← hl]; exact hwf.ascending.nodup
    have hsorted : (pre ++ b :: post).Sorted (· < ·) := by rw [← hl]; exact hwf.ascending
    have hbpre : b ∉ pre := fun hx =>
      (List.nodup_append.mp hnodup).2.2 hx (List.mem_cons_self _ _)
    have hbpost : b ∉ post := (List.nodup_cons.mp (List.nodup_append.mp hnodup).2.1).1
    have hafter : ∀ x ∈ post, b < x :=
      fun x hx => List.rel_of_sorted_cons (List.pairwise_append.mp hsorted).2.1 x hx
    refine ⟨pre, b, post, h, _, hl, hm, hpre, hfit, ?_, e, takeBlock_value _ _ _ _ _ _ _ _,
      ?_, ?_, ?_⟩
    · intro q hq hqfit
      rw [hl] at hq
      rcases List.mem_append.mp hq with hq | hq
      · have := hpre q hq; omega
      · rcases List.mem_cons.mp hq with hq | hq
        · exact le_of_eq hq.symm
        · exact le_of_lt (hafter q hq)
    · by_cases hsplit : L.header_size + L.ALIGNMENT < h.size - aligned_size L size
      · rw [takeBlock_split _ _ _ _ _ _ _ _ hsplit]
        exact ⟨_, poke_same _ _ _, rfl, rfl⟩
      · rw [takeBlock_whole _ _ _ _ _ _ _ _ hsplit]
        exact ⟨_, poke_same _ _ _, rfl, rfl⟩
    · have hne : b ≠ b + L.header_size + aligned_size L size := by
        have := hL.header_pos; omega
      by_cases hsplit : L.header_size + L.ALIGNMENT < h.size - aligned_size L size
      · rw [takeBlock_split _ _ _ _ _ _ _ _ hsplit]
        intro hx
        rcases List.mem_append.mp hx with hx | hx
        · exact hbpre hx
        · rcases List.mem_cons.mp hx with hx | hx
          · exact hne hx
          · exact hbpost hx
      · rw [takeBlock_whole _ _ _ _ _ _ _ _ hsplit]
        intro hx
        rcases List.mem_append.mp hx with hx | hx
        · exact hbpre hx
        · exact hbpost hx
    · by_cases hsplit : L.header_size + L.ALIGNMENT < h.size - aligned_size L size
      · refine ⟨[b + L.header_size + aligned_size L size], le_refl _, ?_⟩
        rw [takeBlock_split _ _ _ _ _ _ _ _ hsplit]
        show pre ++ _ :: post = pre ++ [_] ++ post
        rw [List.append_assoc]
        rfl
      · refine ⟨[], Nat.zero_le _, ?_⟩
        rw [takeBlock_whole _ _ _ _ _ _ _ _ hsplit]
        show pre ++ post = pre ++ [] ++ post
        rw [List.append_nil]

/-- C2 (split rule). For a successful `allocate` that hands out the block at `b`,
whose header held size `s`, with `a` the size computed at line 56: `a ≤ s`, and
if `s - a > header_size + ALIGNMENT` then afterwards the block at `b` has size
`a`, a new free block of size `s - a - header_size` is stored at
`b + header_size + a`, and it stands in the free list exactly where `b` stood;
if `s - a ≤ header_size + ALIGNMENT` the block keeps size `s`, `b` is simply
removed from the free list and no other header is written. -/
theorem C2_split_rule (L : Layout) (hL : L.ok) (m : MemoryManager) (size : Nat)
    (tag : Option String) (hp : m.m_pool ≠ none) (hwf : FreeListWF m)
    (r : Ret (Option Nat)) (b : Nat) (hdr : BlockHeader)
    (hcall : allocate L m size tag = .ok r) (hval : r.value = some (b + L.header_size))
    (hm : m.mem b = some hdr) :
    aligned_size L size ≤ hdr.size ∧
    ∃ pre post, m.m_free_list = pre ++ b :: post ∧
      (L.header_size + L.ALIGNMENT < hdr.size - aligned_size L size →
        sizeAt r.state.mem b = aligned_size L size ∧
        r.state.mem (b + L.header_size + aligned_size L size)
          = some { size := hdr.size - aligned_size L size - L.header_size, is_free := true,
                   tag := some "SplitBlock" } ∧
        r.state.m_free_list = pre ++ (b + L.header_size + aligned_size L size) :: post ∧
        ∀ x, x ≠ b → x ≠ b + L.header_size + aligned_size L size → r.state.mem x = m.mem x) ∧
      (hdr.size - aligned_size L size ≤ L.header_size + L.ALIGNMENT →
        sizeAt r.state.mem b = hdr.size ∧
        r.state.m_free_list = pre ++ post ∧
        ∀ x, x ≠ b → r.state.mem x = m.mem x) := by
  rcases allocate_cases L m size tag hp hwf with ⟨_, e⟩ | ⟨pre, b2, post, h, hl, hm2, _, _, hfit, e⟩
  · rw [hcall] at e
    cases e
    cases hval
  · rw [hcall] at e
    cases e
    rw [takeBlock_value] at hval
    have hb : b2 = b := by
      have := Option.some.inj hval; omega
    subst hb
    rw [hm2] at hm
    cases hm
    have hne : b2 + L.header_size + aligned_size L size ≠ b2 := by
      have := hL.header_pos; omega
    refine ⟨hfit, pre, post, hl, ?_, ?_⟩
    · intro hsplit
      rw [takeBlock_split _ _ _ _ _ _ _ _ hsplit]
      refine ⟨?_, ?_, rfl, ?_⟩
      · show sizeAt (poke (poke m.mem _ _) b2 _) b2 = aligned_size L size
        rw [sizeAt_poke_same]
      · show poke (poke m.mem _ _) b2 _ (b2 + L.header_size + aligned_size L size) = some _
        rw [poke_other _ _ _ hne, poke_same]
      · intro x hx1 hx2
        show poke (poke m.mem _ _) b2 _ x = m.mem x
        rw [poke_other _ _ _ hx1, poke_other _ _ _ hx2]
    · intro hno
      have hsplit : ¬ L.header_size + L.ALIGNMENT < hdr.size - aligned_size L size :=
        not_lt.mpr hno
      rw [takeBlock_whole _ _ _ _ _ _ _ _ hsplit]
      refine ⟨?_, rfl, ?_⟩
      · show sizeAt (poke m.mem b2 _) b2 = hdr.size
        rw [sizeAt_poke_same]
      · intro x hx1
        show poke m.mem b2 _ x = m.mem x
        rw [poke_other _ _ _ hx1]


theorem firstFitExample_wf : FreeListWF firstFitExample := by
  constructor
  · show List.Sorted (· < ·) [1000, 1034, 1158]
    decide
  · intro b hb
    have hb : b ∈ [1000, 1034, 1158] := hb
    rcases List.mem_cons.mp hb with rfl | hb
    · exact ⟨_, rfl, rfl, by decide⟩
    · rcases List.mem_cons.mp hb with rfl | hb
      · exact ⟨_, rfl, rfl, by decide⟩
      · rcases List.mem_cons.mp hb with rfl | hb
        · exact ⟨_, rfl, rfl, by decide⟩
        · exact absurd hb (List.not_mem_nil _)

/-- Witness for C1: free blocks of sizes 10, 100 and 50 in address order (at
1000, 1034 and 1158); a request of 20 bytes returns the payload address
`1034 + 24` of the block of size 100. -/
theorem C1_first_fit_witness :
    (∃ q ∈ firstFitExample.m_free_list,
      round_up 20 layout24_8.ALIGNMENT ≤ sizeAt firstFitExample.mem q) ∧
    (aligned_size layout24_8 20 = round_up 20 layout24_8.ALIGNMENT ∧
     ∃ pre b post hdr r,
      firstFitExample.m_free_list = pre ++ b :: post ∧ firstFitExample.mem b = some hdr ∧
      (∀ q ∈ pre, sizeAt firstFitExample.mem q < round_up 20 layout24_8.ALIGNMENT) ∧
      round_up 20 layout24_8.ALIGNMENT ≤ hdr.size ∧
      (∀ q ∈ firstFitExample.m_free_list,
        round_up 20 layout24_8.ALIGNMENT ≤ sizeAt firstFitExample.mem q → b ≤ q) ∧
      allocate layout24_8 firstFitExample 20 none = .ok r ∧
      r.value = some (b + layout24_8.header_size) ∧
      (∃ h2, r.state.mem b = some h2 ∧ h2.is_free = false ∧ h2.tag = none) ∧
      b ∉ r.state.m_free_list ∧
      ∃ ins, ins.length ≤ 1 ∧ r.state.m_free_list = pre ++ ins ++ post) ∧
    valueOf (allocate layout24_8 firstFitExample 20 none) = some (1034 + 24) ∧
    sizeAt firstFitExample.mem 1034 = 100 :=
  ⟨⟨1034, by decide, by decide⟩,
   C1_first_fit layout24_8 layout24_8_ok firstFitExample 20 none (by decide)
     firstFitExample_wf ⟨1034, by decide, by decide⟩,
   by decide, by decide⟩


/-- Witness for C2: in the example pool a request of 20 bytes takes the block of
size 100 at 1034 and splits it (`100 - 24 > 24 + 8`): the block shrinks to 24
bytes and a free block of 52 bytes appears at 1082, in the place of 1034 in the
free list. -/
theorem C2_split_rule_witness :
    valueOf (allocate layout24_8 firstFitExample 20 none)
      = some (1034 + layout24_8.header_size) ∧
    firstFitExample.mem 1034 = some { size := 100, is_free := true, tag := none } ∧
    aligned_size layout24_8 20 ≤ 100 ∧
    ∃ pre post, firstFitExample.m_free_list = pre ++ 1034 :: post ∧
      (layout24_8.header_size + layout24_8.ALIGNMENT < 100 - aligned_size layout24_8 20 →
        sizeAt (stateOf (allocate layout24_8 firstFitExample 20 none)).mem 1034
          = aligned_size layout24_8 20 ∧
        (stateOf (allocate layout24_8 firstFitExample 20 none)).mem
            (1034 + layout24_8.header_size + aligned_size layout24_8 20)
          = some { size := 100 - aligned_size layout24_8 20 - layout24_8.header_size,
                   is_free := true, tag := some "SplitBlock" } ∧
        (stateOf (allocate layout24_8 firstFitExample 20 none)).m_free_list
          = pre ++ (1034 + layout24_8.header_size + aligned_size layout24_8 20) :: post ∧
        ∀ x, x ≠ 1034 → x ≠ 1034 + layout24_8.header_size + aligned_size layout24_8 20 →
          (stateOf (allocate layout24_8 firstFitExample 20 none)).mem x
            = firstFitExample.mem x) ∧
      (100 - aligned_size layout24_8 20 ≤ layout24_8.header_size + layout24_8.ALIGNMENT →
        sizeAt (stateOf (allocate layout24_8 firstFitExample 20 none)).mem 1034 = 100 ∧
        (stateOf (allocate layout24_8 firstFitExample 20 none)).m_free_list = pre ++ post ∧
        ∀ x, x ≠ 1034 →
          (stateOf (allocate layout24_8 firstFitExample 20 none)).mem x
            = firstFitExample.mem x) :=
  ⟨rfl, rfl,
   C2_split_rule layout24_8 layout24_8_ok firstFitExample 20 none (by decide)
     firstFitExample_wf _ 1034 { size := 100, is_free := true, tag := none } rfl rfl rfl⟩

/-- C3 evaluated at the request size `2 ^ 64 - 1` on a fresh pool of 1024 bytes
(24-byte header, 8-byte alignment). The only free block has size 1000, far below
`round_up (2 ^ 64 - 1) 8 = 2 ^ 64`, so no block fits; yet the sum of line 56
wraps, `aligned_size` is 0, and `allocate` does not take its out-of-memory path
(lines 87-89): it writes nothing to `std::cerr`, returns the non-null address
4120 and shrinks the block at 4096 to size 0. The smaller request `2 ^ 64 - 8`,
which line 56 rounds without wrapping, is refused on the same pool with the
state unchanged. -/
theorem C3_overflowing_request_is_served :
    pool1024.m_pool = some 4096 ∧ pool1024.m_free_list = [4096] ∧
    sizeAt pool1024.mem 4096 = 1000 ∧
    round_up (2 ^ 64 - 1) layout24_8.ALIGNMENT = 2 ^ 64 ∧
    (∀ q ∈ pool1024.m_free_list,
      sizeAt pool1024.mem q < round_up (2 ^ 64 - 1) layout24_8.ALIGNMENT) ∧
    aligned_size layout24_8 (2 ^ 64 - 1) = 0 ∧
    (∃ r, allocate layout24_8 pool1024 (2 ^ 64 - 1) none = .ok r ∧
      r.value = some 4120 ∧ r.cerr = [] ∧ sizeAt r.state.mem 4096 = 0 ∧
      r.state.m_free_list = [4120]) ∧
    aligned_size layout24_8 (2 ^ 64 - 8) = 2 ^ 64 - 8 ∧
    ∃ r, allocate layout24_8 pool1024 (2 ^ 64 - 8) none = .ok r ∧
      r.value = none ∧ r.state = pool1024 ∧
      r.cerr = ["MemoryManager: Out of memory for allocation of 18446744073709551608 bytes."] :=
  ⟨rfl, rfl, by decide, by decide, by decide, by decide,
   ⟨_, rfl, rfl, rfl, by decide, by decide⟩, by decide, ⟨_, rfl, rfl, rfl, by decide⟩⟩


/-! ## Properties of reachable states -/

theorem reachable_cap_lt {L : Layout} {base cap : Nat} {m : MemoryManager}
    {issued live : List Nat} (hR : Reachable L base cap m issued live) : cap < SIZE_MOD := by
  induction hR with
  | init hcap => exact hcap
  | alloc_ok _ _ _ _ ih => exact ih
  | alloc_fail _ _ _ _ ih => exact ih
  | dealloc _ _ _ ih => exact ih
  | dealloc_null _ _ ih => exact ih

/-- In a chain the block at position `i` ends where the block at position
`i + 1` starts, and the last block ends at the end of the chain. -/
theorem chain_next (hs : Nat) (mem : Memory) :
    ∀ (bs : List Nat) (a e : Nat), Chain hs mem bs a e →
      ∀ (i b : Nat), bs[i]? = some b →
        ∃ h, mem b = some h ∧ b + hs + h.size = (bs[i + 1]?).getD e := by
  intro bs
  induction bs with
  | nil => intro a e _ i b hb; simp at hb
  | cons x xs ih =>
    intro a e hc i b hb
    obtain ⟨hx, h, hm, hc⟩ := hc
    cases i with
    | zero =>
      simp only [List.getElem?_cons_zero, Option.some.injEq] at hb
      subst hb
      refine ⟨h, hm, ?_⟩
      cases xs with
      | nil =>
        have hc : a + hs + h.size = e := hc
        simp [hx, hc]
      | cons y ys =>
        obtain ⟨hy, _⟩ := hc
        simp [hx, hy]
    | succ i =>
      simp only [List.getElem?_cons_succ] at hb
      obtain ⟨h2, hm2, e2⟩ := ih _ e hc i b hb
      exact ⟨h2, hm2, by simpa using e2⟩

/-- Two different blocks of a chain do not overlap: the lower one ends at or
before the start of the higher one. -/
theorem chain_separated (hs : Nat) (hpos : 0 < hs) (mem : Memory) (bs : List Nat) (a e : Nat)
    (hc : Chain hs mem bs a e) (b1 b2 : Nat) (h1 : b1 ∈ bs) (h2 : b2 ∈ bs) (hlt : b1 < b2) :
    b1 + hs + sizeAt mem b1 ≤ b2 := by
  obtain ⟨h, hm⟩ := chain_mem_some hs mem bs a e hc b1 h1
  obtain ⟨B1, B2, hbs, _, _, hB1, hB2, _⟩ := chain_split_at hs hpos mem bs a e b1 h hc h1 hm
  rw [hbs] at h2
  rw [sizeAt_of_some hm]
  rcases List.mem_append.mp h2 with hx | hx
  · have := hB1 b2 hx; omega
  · rcases List.mem_cons.mp hx with hx | hx
    · omega
    · exact hB2 b2 hx

/-- For a capacity of at least one header the chain of the invariant ends at
the end of the buffer. -/
theorem inv_chain_end {L : Layout} {base cap : Nat} (hcap : L.header_size ≤ cap)
    (hlt : cap < SIZE_MOD) :
    base + L.header_size + wsub cap L.header_size = base + cap := by
  rw [wsub_of_le cap L.header_size hcap hlt]; omega

/-- C4 (coverage). In every state reached from `initialize(cap)` with
`cap ≥ header_size` by calls of `allocate` and `deallocate` (the latter on
addresses returned before), walking the arena yields a block directory `bs`
that tiles the buffer: the first block is at the buffer start (offset 0), each
block stores a header and ends exactly where the next block starts, the last
one ends at `base + cap`, and the extents `header_size + size` add up to `cap`. -/
theorem C4_coverage (L : Layout) (hL : L.ok) (base cap : Nat) (hcap : L.header_size ≤ cap)
    (m : MemoryManager) (issued live : List Nat) (hR : Reachable L base cap m issued live) :
    ∃ bs, m.blocks L = some bs ∧ bs.head? = some base ∧
      (∀ (i b : Nat), bs[i]? = some b →
        ∃ h, m.mem b = some h ∧
          b + L.header_size + h.size = (bs[i + 1]?).getD (base + cap)) ∧
      (bs.map (fun b => L.header_size + sizeAt m.mem b)).sum = cap := by
  obtain ⟨bs, hI⟩ := reachable_inv hL hR
  have hpos := hL.header_pos
  have hchain : Chain L.header_size m.mem bs base (base + cap) := by
    have := hI.chain
    rwa [inv_chain_end hcap (reachable_cap_lt hR)] at this
  refine ⟨bs, ?_, ?_, chain_next _ _ bs _ _ hchain, ?_⟩
  · unfold MemoryManager.blocks
    rw [hI.pool, hI.pool_size]
    have hlen := chain_length_le _ hpos _ bs _ _ hchain
    exact walkBlocks_of_chain _ hpos _ _ bs cap base hchain (by omega)
  · cases bs with
    | nil =>
      have : base = base + cap := hchain
      omega
    | cons x xs =>
      obtain ⟨hx, _⟩ := hchain
      rw [hx]; rfl
  · have := chain_sum _ _ bs _ _ hchain
    omega

/-- C5 (no overlap), for pools of at least one header: in every state reached
from `initialize(cap)` with `cap ≥ header_size`, the payload ranges
`[p, p + size)` of two distinct live allocations are disjoint and each lies
inside the buffer `[base, base + cap)`. -/
theorem C5_no_overlap (L : Layout) (hL : L.ok) (base cap : Nat) (hcap : L.header_size ≤ cap)
    (m : MemoryManager) (issued live : List Nat) (hR : Reachable L base cap m issued live) :
    NoOverlap L base cap m live := by
  obtain ⟨bs, hI⟩ := reachable_inv hL hR
  have hpos := hL.header_pos
  have hchain : Chain L.header_size m.mem bs base (base + cap) := by
    have := hI.chain
    rwa [inv_chain_end hcap (reachable_cap_lt hR)] at this
  constructor
  · intro p hp q hq hne
    obtain ⟨bp, hbp, ep, _⟩ := (hI.live_blocks p).mp hp
    obtain ⟨bq, hbq, eq, _⟩ := (hI.live_blocks q).mp hq
    have e1 : p - L.header_size = bp := by omega
    have e2 : q - L.header_size = bq := by omega
    rw [e1, e2]
    rcases Nat.lt_or_gt_of_ne (show bp ≠ bq by omega) with hlt | hgt
    · left
      have := chain_separated _ hpos _ bs _ _ hchain bp bq hbp hbq hlt
      omega
    · right
      have := chain_separated _ hpos _ bs _ _ hchain bq bp hbq hbp hgt
      omega
  · intro p hp
    obtain ⟨bp, hbp, ep, _⟩ := (hI.live_blocks p).mp hp
    have e1 : p - L.header_size = bp := by omega
    rw [e1]
    have := chain_bounds _ _ bs _ _ hchain bp hbp
    omega

/-- C6 (alignment). With `header_size` a multiple of `ALIGNMENT` and the buffer
address a multiple of `ALIGNMENT`, in every reachable state, for every capacity:
every address returned so far is a multiple of `ALIGNMENT`, every block of the
free list sits at an offset that is a multiple of `ALIGNMENT`, and every further
`allocate` returns normally with a null pointer or a multiple of `ALIGNMENT`. -/
theorem C6_alignment (L : Layout) (hL : L.ok) (base cap : Nat)
    (hbase : base % L.ALIGNMENT = 0)
    (m : MemoryManager) (issued live : List Nat) (hR : Reachable L base cap m issued live) :
    (∀ p ∈ issued, p % L.ALIGNMENT = 0) ∧
    (∀ b ∈ m.m_free_list, base ≤ b ∧ (b - base) % L.ALIGNMENT = 0) ∧
    (∀ (size : Nat) (tag : Option String), ∃ r, allocate L m size tag = .ok r ∧
      ∀ p, r.value = some p → p % L.ALIGNMENT = 0) := by
  obtain ⟨bs, hI⟩ := reachable_inv hL hR
  have hal : L.ALIGNMENT ∣ L.header_size := Nat.dvd_of_mod_eq_zero hL.header_aligned
  have hb0 : L.ALIGNMENT ∣ base := Nat.dvd_of_mod_eq_zero hbase
  have key : ∀ b ∈ bs, (b + L.header_size) % L.ALIGNMENT = 0 := by
    intro b hb
    have h1 := hI.offsets b hb
    have h2 := (chain_bounds _ _ bs _ _ hI.chain b hb).1
    have e : b + L.header_size = (b - base) + base + L.header_size := by omega
    rw [e]
    exact Nat.mod_eq_zero_of_dvd (dvd_add (dvd_add h1 hb0) hal)
  have hfl : ∀ b ∈ m.m_free_list, b ∈ bs := by
    intro b hb
    rw [hI.free_list] at hb
    exact (List.mem_filter.mp hb).1
  refine ⟨?_, ?_, ?_⟩
  · intro p hp
    obtain ⟨b, hb, e⟩ := hI.issued_blocks p hp
    rw [e]; exact key b hb
  · intro b hb
    exact ⟨(chain_bounds _ _ bs _ _ hI.chain b (hfl b hb)).1,
      Nat.mod_eq_zero_of_dvd (hI.offsets b (hfl b hb))⟩
  · intro size tag
    obtain ⟨r, e, hcase⟩ := inv_allocate hL hI size tag
    refine ⟨r, e, ?_⟩
    intro p hp
    rcases hcase with ⟨hn, _⟩ | ⟨b, _, hb, hv, _⟩
    · rw [hn] at hp; cases hp
    · rw [hv] at hp
      cases hp
      exact key b (hfl b hb)

/-- C7 (double free). In every reachable state, for every address `p` returned
by `allocate`: `deallocate(p)` returns normally, and a second `deallocate(p)`
right after it writes the double-free warning to `std::cerr` and returns the
very state the first call left (same headers, same free list in the same order). -/
theorem C7_double_free (L : Layout) (hL : L.ok) (base cap : Nat)
    (m : MemoryManager) (issued live : List Nat) (hR : Reachable L base cap m issued live)
    (p : Nat) (hp : p ∈ issued) (tag1 tag2 : Option String) :
    ∃ r1 hdr, deallocate L m (some p) tag1 = .ok r1 ∧
      r1.state.mem (p - L.header_size) = some hdr ∧
      deallocate L r1.state (some p) tag2 = .ok ⟨(), r1.state,
        ["Warning: Double free detected for tag: " ++ hdr.tag.getD "unknown"]⟩ := by
  obtain ⟨bs, hI⟩ := reachable_inv hL hR
  obtain ⟨r1, e1, hI1⟩ := inv_deallocate hL hI p hp tag1
  obtain ⟨b, hbbs, hpb⟩ := hI1.issued_blocks p hp
  have hblock : p - L.header_size = b := by omega
  have hfree : isFreeAt r1.state.mem b = true := by
    by_contra hc
    have hf : isFreeAt r1.state.mem b = false := by simpa using hc
    have hmem : p ∈ live.erase p := (hI1.live_blocks p).mpr ⟨b, hbbs, hpb, hf⟩
    exact ((hI.live_nodup.mem_erase_iff).mp hmem).1 rfl
  obtain ⟨hdr, hm, hf⟩ := mem_some_of_isFreeAt hfree
  refine ⟨r1, hdr, e1, by rw [hblock]; exact hm, ?_⟩
  unfold deallocate
  simp only [hblock, hm, hf, if_true]


/-! ## Concrete runs -/

theorem reach_pool120 : Reachable layout24_8 1000 120 pool120 [] [] :=
  Reachable.init (by decide)

theorem reach_poolA : Reachable layout24_8 1000 120 poolA [1024] [1024] :=
  Reachable.alloc_ok reach_pool120 (by decide)
    (rfl : allocate layout24_8 pool120 16 (some "A") = .ok _) rfl

theorem reach_poolAB : Reachable layout24_8 1000 120 poolAB [1064, 1024] [1064, 1024] :=
  Reachable.alloc_ok reach_poolA (by decide)
    (rfl : allocate layout24_8 poolA 16 (some "B") = .ok _) rfl

theorem reach_poolABC :
    Reachable layout24_8 1000 120 poolABC [1104, 1064, 1024] [1104, 1064, 1024] :=
  Reachable.alloc_ok reach_poolAB (by decide)
    (rfl : allocate layout24_8 poolAB 16 (some "C") = .ok _) rfl

theorem reach_poolAC :
    Reachable layout24_8 1000 120 poolAC [1104, 1064, 1024] [1104, 1024] :=
  Reachable.dealloc reach_poolABC (by decide)
    (rfl : deallocate layout24_8 poolABC (some 1064) none = .ok _)

theorem reach_poolC :
    Reachable layout24_8 1000 120 poolC [1104, 1064, 1024] [1104] :=
  Reachable.dealloc reach_poolAC (by decide)
    (rfl : deallocate layout24_8 poolAC (some 1024) none = .ok _)

theorem reach_poolZeroCap :
    Reachable layout24_8 1000 0 poolZeroCap [1024] [1024] :=
  Reachable.alloc_ok (Reachable.init (by decide)) (by decide)
    (rfl : allocate layout24_8 poolZero 8 none = .ok _) rfl


theorem reach_poolZeroCap2 :
    Reachable layout24_8 1000 0 poolZeroCap2 [1056, 1024] [1056, 1024] :=
  Reachable.alloc_ok reach_poolZeroCap (by decide)
    (rfl : allocate layout24_8 poolZeroCap 8 none = .ok _) rfl

/-! ## Witnesses and concrete evaluations -/

/-- Witness for C4: the pool of 120 bytes after three allocations and two
releases is tiled by the blocks at 1000, 1040 and 1080. -/
theorem C4_coverage_witness :
    layout24_8.header_size ≤ 120 ∧
    Reachable layout24_8 1000 120 poolC [1104, 1064, 1024] [1104] ∧
    (∃ bs, poolC.blocks layout24_8 = some bs ∧ bs.head? = some 1000 ∧
      (∀ (i b : Nat), bs[i]? = some b →
        ∃ h, poolC.mem b = some h ∧
          b + layout24_8.header_size + h.size = (bs[i + 1]?).getD (1000 + 120)) ∧
      (bs.map (fun b => layout24_8.header_size + sizeAt poolC.mem b)).sum = 120) ∧
    poolC.blocks layout24_8 = some [1000, 1040, 1080] :=
  ⟨by decide, reach_poolC,
   C4_coverage layout24_8 layout24_8_ok 1000 120 (by decide) poolC _ _ reach_poolC,
   by decide⟩

/-- Witness for C5 (amended): three live allocations in the pool of 120 bytes. -/
theorem C5_no_overlap_witness :
    layout24_8.header_size ≤ 120 ∧
    Reachable layout24_8 1000 120 poolABC [1104, 1064, 1024] [1104, 1064, 1024] ∧
    NoOverlap layout24_8 1000 120 poolABC [1104, 1064, 1024] :=
  ⟨by decide, reach_poolABC,
   C5_no_overlap layout24_8 layout24_8_ok 1000 120 (by decide) poolABC _ _ reach_poolABC⟩

/-- Counterexample to C5 as stated: after `initialize(0)` the header size wraps
to `2 ^ 64 - 24`; two calls `allocate(8)` return 1024 and 1056, two distinct live
allocations whose payload ranges `[1024, 1032)` and `[1056, 1064)` both lie
outside the buffer `[1000, 1000 + 0)`. -/
theorem C5_zero_capacity_counterexample :
    Reachable layout24_8 1000 0 poolZeroCap2 [1056, 1024] [1056, 1024] ∧
    sizeAt poolZeroCap2.mem (1024 - layout24_8.header_size) = 8 ∧
    sizeAt poolZeroCap2.mem (1056 - layout24_8.header_size) = 8 ∧
    ¬ (1024 + sizeAt poolZeroCap2.mem (1024 - layout24_8.header_size) ≤ 1000 + 0) ∧
    ¬ (1056 + sizeAt poolZeroCap2.mem (1056 - layout24_8.header_size) ≤ 1000 + 0) ∧
    ¬ NoOverlap layout24_8 1000 0 poolZeroCap2 [1056, 1024] :=
  ⟨reach_poolZeroCap2, by decide, by decide, by decide, by decide,
   fun h => absurd (h.2 1024 (by decide)).2 (by decide)⟩

/-- Witness for C6: the buffer at address 1000 with 8-byte alignment. -/
theorem C6_alignment_witness :
    1000 % layout24_8.ALIGNMENT = 0 ∧
    Reachable layout24_8 1000 120 poolC [1104, 1064, 1024] [1104] ∧
    ((∀ p ∈ [1104, 1064, 1024], p % layout24_8.ALIGNMENT = 0) ∧
     (∀ b ∈ poolC.m_free_list, 1000 ≤ b ∧ (b - 1000) % layout24_8.ALIGNMENT = 0) ∧
     (∀ (size : Nat) (tag : Option String), ∃ r, allocate layout24_8 poolC size tag = .ok r ∧
        ∀ p, r.value = some p → p % layout24_8.ALIGNMENT = 0)) :=
  ⟨by decide, reach_poolC,
   C6_alignment layout24_8 layout24_8_ok 1000 120 (by decide) poolC _ _ reach_poolC⟩

/-- Witness for C7: releasing `B` (address 1064) twice in the full pool. -/
theorem C7_double_free_witness :
    Reachable layout24_8 1000 120 poolABC [1104, 1064, 1024] [1104, 1064, 1024] ∧
    1064 ∈ [1104, 1064, 1024] ∧
    ∃ r1 hdr, deallocate layout24_8 poolABC (some 1064) none = .ok r1 ∧
      r1.state.mem (1064 - layout24_8.header_size) = some hdr ∧
      deallocate layout24_8 r1.state (some 1064) none = .ok ⟨(), r1.state,
        ["Warning: Double free detected for tag: " ++ hdr.tag.getD "unknown"]⟩ :=
  ⟨reach_poolABC, by decide,
   C7_double_free layout24_8 layout24_8_ok 1000 120 poolABC _ _ reach_poolABC 1064
     (by decide) none none⟩

/-- C8 evaluated (24-byte header, 8-byte alignment, pool of 120 bytes): with `A`
at 1000 allocated and the block `B` right behind it (`1000 + 24 + 16 = 1040`)
free and in the free list, `deallocate(A)` leaves the size of `A` at 16 instead of
`16 + 24 + 16 = 56`, leaves `B` in the free list, and the free list then holds
the two physically adjacent blocks 1000 and 1040. -/
theorem C8_freed_block_is_not_merged :
    poolAC.mem 1000 = some { size := 16, is_free := false, tag := some "A" } ∧
    poolAC.mem (1000 + layout24_8.header_size + 16)
      = some { size := 16, is_free := true, tag := some "FreedBlock" } ∧
    poolAC.m_free_list = [1040] ∧
    (∃ r, deallocate layout24_8 poolAC (some 1024) none = .ok r ∧
      r.state.m_free_list = poolC.m_free_list ∧ r.state.mem 1000 = poolC.mem 1000) ∧
    poolC.mem 1000 = some { size := 16, is_free := true, tag := some "FreedBlock" } ∧
    poolC.m_free_list = [1000, 1040] ∧
    1000 + layout24_8.header_size + sizeAt poolC.mem 1000 = 1040 :=
  ⟨by decide, by decide, by decide, ⟨_, rfl, rfl, rfl⟩, by decide, by decide, by decide⟩

/-- C9 evaluated for `n = 16` (24-byte header, 8-byte alignment, pool of
`3 * (24 + 16) = 120` bytes): the three allocations of 16 bytes return 1024,
1064 and 1104 and exhaust the pool; after `deallocate(B)` and `deallocate(A)` the
request `allocate(2 * 16 + 24)` returns null, because the free list holds two
blocks of 16 bytes instead of one block of 56. -/
theorem C9_recovery_request_fails :
    16 % layout24_8.ALIGNMENT = 0 ∧ layout24_8.ALIGNMENT < 16 ∧
    pool120.m_pool_size = 3 * (layout24_8.header_size + 16) ∧
    valueOf (allocate layout24_8 pool120 16 (some "A")) = some 1024 ∧
    valueOf (allocate layout24_8 poolA 16 (some "B")) = some 1064 ∧
    valueOf (allocate layout24_8 poolAB 16 (some "C")) = some 1104 ∧
    poolABC.m_free_list = [] ∧
    poolC.m_free_list.map (sizeAt poolC.mem) = [16, 16] ∧
    ∃ r, allocate layout24_8 poolC (2 * 16 + layout24_8.header_size) none = .ok r ∧
      r.value = none :=
  ⟨by decide, by decide, by decide, by decide, by decide, by decide, by decide, by decide,
   _, rfl, rfl⟩

/-- C10 evaluated (24-byte header, 8-byte alignment): on a fresh pool of 1024
bytes the free capacity is 1000 and the free list is the one block of size 1000;
`allocate(100)` returns 4120 and splits the block; after `deallocate(4120)` the
free capacity is `104 + 872 = 976 < 1000` and the free list holds two blocks. -/
theorem C10_round_trip_loses_a_header :
    freeCapacity pool1024 = 1000 ∧
    pool1024.m_free_list.map (fun b => (b, sizeAt pool1024.mem b)) = [(4096, 1000)] ∧
    valueOf (allocate layout24_8 pool1024 100 none) = some 4120 ∧
    (∃ r, deallocate layout24_8 pool1024Taken (some 4120) none = .ok r ∧
      r.state.m_free_list = pool1024Released.m_free_list) ∧
    freeCapacity pool1024Released = 976 ∧
    pool1024Released.m_free_list.map (fun b => (b, sizeAt pool1024Released.mem b))
      = [(4096, 104), (4224, 872)] :=
  ⟨by decide, by decide, by decide, ⟨_, rfl, rfl⟩, by decide, by decide⟩


/-- Every reachable state is an initialized pool with a well-formed free list. -/
theorem reachable_freeListWF {L : Layout} (hL : L.ok) {base cap : Nat} {m : MemoryManager}
    {issued live : List Nat} (hR : Reachable L base cap m issued live) :
    m.m_pool = some base ∧ FreeListWF m := by
  obtain ⟨bs, hI⟩ := reachable_inv hL hR
  exact ⟨hI.pool, inv_freeListWF hL hI⟩

/-- Out of memory, for request sizes that line 56 rounds without wrapping.
On an initialized pool with a well-formed free list `allocate` returns normally;
whenever it returns null the whole state (free list and every header) is exactly
as before the call; and if `size + ALIGNMENT ≤ 2 ^ 64` it returns null if and only
if no block of the free list has size at least `round_up size ALIGNMENT`. -/
theorem out_of_memory_without_wrap (L : Layout) (hL : L.ok) (m : MemoryManager) (size : Nat)
    (tag : Option String) (hp : m.m_pool ≠ none) (hwf : FreeListWF m) :
    ∃ r, allocate L m size tag = .ok r ∧
      (r.value = none → r.state = m) ∧
      (size + L.ALIGNMENT ≤ SIZE_MOD →
        (r.value = none ↔
          ∀ q ∈ m.m_free_list, sizeAt m.mem q < round_up size L.ALIGNMENT)) := by
  obtain ⟨r, e, hiff, hst⟩ := allocate_null_iff L m size tag hp hwf
  refine ⟨r, e, hst, ?_⟩
  intro hsize
  rw [← aligned_size_round_up L hL size hsize]
  exact hiff

/-- The full pool of 120 bytes refuses a request of 16 bytes and stays as it
is. -/
theorem out_of_memory_without_wrap_example :
    poolABC.m_pool ≠ none ∧ FreeListWF poolABC ∧
    (∃ r, allocate layout24_8 poolABC 16 none = .ok r ∧
      (r.value = none → r.state = poolABC) ∧
      (16 + layout24_8.ALIGNMENT ≤ SIZE_MOD →
        (r.value = none ↔
          ∀ q ∈ poolABC.m_free_list,
            sizeAt poolABC.mem q < round_up 16 layout24_8.ALIGNMENT))) ∧
    valueOf (allocate layout24_8 poolABC 16 none) = none :=
  ⟨by decide, (reachable_freeListWF layout24_8_ok reach_poolABC).2,
   out_of_memory_without_wrap layout24_8 layout24_8_ok poolABC 16 none (by decide)
     (reachable_freeListWF layout24_8_ok reach_poolABC).2,
   by decide⟩


/-! ## Lifecycle: initialize, shutdown, missing pool -/

theorem takeBlock_pool (L : Layout) (m : MemoryManager) (asz : Nat) (tag : Option String)
    (pre : List Nat) (b : Nat) (post : List Nat) (h : BlockHeader) :
    (takeBlock L m asz tag pre b post h).state.m_pool = m.m_pool ∧
    (takeBlock L m asz tag pre b post h).state.m_pool_size = m.m_pool_size := by
  by_cases hsplit : L.header_size + L.ALIGNMENT < h.size - asz
  · rw [takeBlock_split _ _ _ _ _ _ _ _ hsplit]; exact ⟨rfl, rfl⟩
  · rw [takeBlock_whole _ _ _ _ _ _ _ _ hsplit]; exact ⟨rfl, rfl⟩

/-- The loop of `allocate` never throws, and it leaves `m_pool` and
`m_pool_size` alone. -/
theorem allocateLoop_pool (L : Layout) (m : MemoryManager) (size asz : Nat)
    (tag : Option String) :
    ∀ (l visited : List Nat),
      (∀ what, allocateLoop L m size asz tag visited l ≠ .error (.runtime_error what)) ∧
      (∀ r, allocateLoop L m size asz tag visited l = .ok r →
        r.state.m_pool = m.m_pool ∧ r.state.m_pool_size = m.m_pool_size) := by
  intro l
  induction l with
  | nil =>
    intro visited
    refine ⟨fun what h => (by cases h), fun r h => ?_⟩
    simp only [allocateLoop] at h
    cases h
    exact ⟨rfl, rfl⟩
  | cons b rest ih =>
    intro visited
    cases hb : m.mem b with
    | none =>
      refine ⟨fun what h => ?_, fun r h => ?_⟩
      · simp only [allocateLoop, hb] at h; cases h
      · simp only [allocateLoop, hb] at h; cases h
    | some hdr =>
      by_cases hc : (hdr.is_free && decide (asz ≤ hdr.size)) = true
      · refine ⟨fun what h => ?_, fun r h => ?_⟩
        · simp only [allocateLoop, hb, hc, if_true] at h; cases h
        · simp only [allocateLoop, hb, hc, if_true] at h
          cases h
          exact takeBlock_pool _ _ _ _ _ _ _ _
      · refine ⟨fun what h => ?_, fun r h => ?_⟩
        · simp only [allocateLoop, hb, hc, if_false] at h
          exact (ih (visited ++ [b])).1 what h
        · simp only [allocateLoop, hb, hc, if_false] at h
          exact (ih (visited ++ [b])).2 r h

theorem allocate_pool (L : Layout) (m : MemoryManager) (size : Nat) (tag : Option String)
    (r : Ret (Option Nat)) (h : allocate L m size tag = .ok r) :
    m.m_pool ≠ none ∧ r.state.m_pool = m.m_pool ∧ r.state.m_pool_size = m.m_pool_size := by
  unfold allocate at h
  cases hp : m.m_pool with
  | none => rw [hp] at h; cases h
  | some base =>
    rw [hp] at h
    have := (allocateLoop_pool L m size _ tag m.m_free_list []).2 r h
    rw [hp] at this
    exact ⟨by simp, this⟩

theorem shutdown_pool (m : MemoryManager) : (shutdown m).m_pool = none := by
  unfold shutdown
  cases hp : m.m_pool with
  | none => exact hp
  | some _ => rfl

/-- Over the whole life of the manager, a state without buffer has an empty
free list and no readable header. (Its stored capacity need not be 0: an
`initialize` abandoned by `std::bad_alloc` leaves the requested size there.) -/
theorem lifecycle_none {L : Layout} {m : MemoryManager} (hl : Lifecycle L m)
    (hp : m.m_pool = none) : m.m_free_list = [] ∧ m.mem = fun _ => none := by
  induction hl with
  | fresh => exact ⟨rfl, rfl⟩
  | @init m0 buffer total_size _ ih =>
    unfold initializePool at hp ⊢
    cases hp0 : m0.m_pool with
    | none =>
      rw [hp0] at hp
      cases buffer with
      | none => exact ih hp0
      | some b => cases hp
    | some b =>
      rw [hp0] at hp
      have hp1 : m0.m_pool = none := hp
      rw [hp0] at hp1
      cases hp1
  | @alloc m0 size tag r _ hcall ih =>
    obtain ⟨hne, hsame, _⟩ := allocate_pool _ _ _ _ _ hcall
    rw [hsame] at hp
    exact absurd hp hne
  | @dealloc m0 ptr tag r _ hcall ih =>
    cases ptr with
    | none =>
      simp only [deallocate] at hcall
      cases hcall
      exact ih hp
    | some p =>
      simp only [deallocate] at hcall
      cases hb : m0.mem (p - L.header_size) with
      | none => rw [hb] at hcall; cases hcall
      | some hdr =>
        rw [hb] at hcall
        by_cases hf : hdr.is_free = true
        · simp only [hf, if_true] at hcall
          cases hcall
          exact ih hp
        · simp only [hf, if_false] at hcall
          cases hcall
          have h0 : m0.mem = fun _ => none := (ih hp).2
          rw [h0] at hb
          cases hb
  | @shut m0 _ ih =>
    unfold shutdown at hp ⊢
    cases hp0 : m0.m_pool with
    | none => exact ih hp0
    | some b => exact ⟨rfl, rfl⟩

/-- On a manager without buffer and with an empty free list, `initialize` whose
`::operator new` returns `buffer` writes the first block and nothing else. -/
theorem initializePool_some (L : Layout) (m : MemoryManager) (buffer cap : Nat)
    (hp : m.m_pool = none) (hfl : m.m_free_list = []) :
    initializePool L m (some buffer) cap = ⟨.ok (),
      { m_pool := some buffer, m_pool_size := cap, m_free_list := [buffer],
        mem := poke (fun _ => none) buffer
          { size := wsub cap L.header_size, is_free := true, tag := some "InitialPool" } },
      []⟩ := by
  unfold initializePool
  rw [hp, hfl]
  rfl

/-- The block directory of a buffer of `cap ≥ header_size` bytes that holds the
one header of size `cap - header_size` at its start. -/
theorem blocks_single (L : Layout) (hL : L.ok) (buffer cap : Nat) (fl : List Nat)
    (hlo : L.header_size ≤ cap) :
    MemoryManager.blocks L
      { m_pool := some buffer, m_pool_size := cap, m_free_list := fl,
        mem := poke (fun _ => none) buffer
          { size := cap - L.header_size, is_free := true, tag := some "InitialPool" } }
      = some [buffer] := by
  have hpos := hL.header_pos
  have hc : Chain L.header_size (poke (fun _ => none) buffer
      { size := cap - L.header_size, is_free := true, tag := some "InitialPool" })
      [buffer] buffer (buffer + cap) := by
    refine ⟨rfl, _, poke_same _ _ _, ?_⟩
    show buffer + L.header_size + (cap - L.header_size) = buffer + cap
    omega
  exact walkBlocks_of_chain _ hpos _ _ [buffer] cap buffer hc (by simp; omega)

theorem lifecycle_pool120 : Lifecycle layout24_8 pool120 :=
  Lifecycle.init (some 1000) 120 Lifecycle.fresh

theorem lifecycle_poolA : Lifecycle layout24_8 poolA :=
  Lifecycle.alloc lifecycle_pool120 (rfl : allocate layout24_8 pool120 16 (some "A") = .ok _)

/-- C12 (initialize), for capacities of at least one header and a buffer that
`::operator new` grants. On an uninitialized pool, `initialize(cap)` with
`header_size ≤ cap < 2 ^ 64` whose `::operator new` returns `buffer` returns
normally, writes no warning and yields an initialized pool of capacity `cap`
whose block directory is the one block at the buffer start (offset 0), free, of
size `cap - header_size`, so that `header_size + size = cap`; no other header is
stored and the free list is exactly that block. When `::operator new` throws
`std::bad_alloc`, the exception leaves `initialize`: the pool has no buffer, no
header is written, the free list stays empty, and only the stored capacity has
become `cap`. -/
theorem C12_initialize (L : Layout) (hL : L.ok) (m : MemoryManager) (buffer cap : Nat)
    (hun : Uninitialized m) (hlo : L.header_size ≤ cap) (hhi : cap < SIZE_MOD) :
    ((initializePool L m (some buffer) cap).value = .ok () ∧
     (initializePool L m (some buffer) cap).cerr = [] ∧
     (initializePool L m (some buffer) cap).state.m_pool = some buffer ∧
     (initializePool L m (some buffer) cap).state.m_pool_size = cap ∧
     (initializePool L m (some buffer) cap).state.blocks L = some [buffer] ∧
     (initializePool L m (some buffer) cap).state.mem buffer
       = some { size := cap - L.header_size, is_free := true, tag := some "InitialPool" } ∧
     L.header_size + (cap - L.header_size) = cap ∧
     (∀ x, x ≠ buffer → (initializePool L m (some buffer) cap).state.mem x = none) ∧
     (initializePool L m (some buffer) cap).state.m_free_list = [buffer]) ∧
    ((initializePool L m none cap).value = .error .bad_alloc ∧
     (initializePool L m none cap).cerr = [] ∧
     (initializePool L m none cap).state.m_pool = none ∧
     (initializePool L m none cap).state.m_pool_size = cap ∧
     (initializePool L m none cap).state.m_free_list = [] ∧
     (initializePool L m none cap).state.mem = m.mem) := by
  obtain ⟨hp, _, hfl⟩ := hun
  constructor
  · rw [initializePool_some L m buffer cap hp hfl, wsub_of_le cap L.header_size hlo hhi]
    refine ⟨rfl, rfl, rfl, rfl, blocks_single L hL buffer cap [buffer] hlo,
      poke_same (fun _ => none) buffer _, (by omega), ?_, rfl⟩
    intro x hx
    exact poke_other (fun _ => none) buffer _ hx
  · unfold initializePool
    rw [hp]
    exact ⟨rfl, rfl, rfl, rfl, hfl, rfl⟩

/-- Witness for C12 (amended): `initialize(120)` on the default-constructed
manager, with a 24-byte header, granted at address 1000 or refused. -/
theorem C12_initialize_witness :
    Uninitialized MemoryManager.fresh ∧ layout24_8.header_size ≤ 120 ∧ 120 < SIZE_MOD ∧
    (((initializePool layout24_8 MemoryManager.fresh (some 1000) 120).value = .ok () ∧
      (initializePool layout24_8 MemoryManager.fresh (some 1000) 120).cerr = [] ∧
      (initializePool layout24_8 MemoryManager.fresh (some 1000) 120).state.m_pool
        = some 1000 ∧
      (initializePool layout24_8 MemoryManager.fresh (some 1000) 120).state.m_pool_size
        = 120 ∧
      (initializePool layout24_8 MemoryManager.fresh (some 1000) 120).state.blocks layout24_8
        = some [1000] ∧
      (initializePool layout24_8 MemoryManager.fresh (some 1000) 120).state.mem 1000
        = some { size := 120 - layout24_8.header_size, is_free := true,
                 tag := some "InitialPool" } ∧
      layout24_8.header_size + (120 - layout24_8.header_size) = 120 ∧
      (∀ x, x ≠ 1000 →
        (initializePool layout24_8 MemoryManager.fresh (some 1000) 120).state.mem x = none) ∧
      (initializePool layout24_8 MemoryManager.fresh (some 1000) 120).state.m_free_list
        = [1000]) ∧
     ((initializePool layout24_8 MemoryManager.fresh none 120).value = .error .bad_alloc ∧
      (initializePool layout24_8 MemoryManager.fresh none 120).cerr = [] ∧
      (initializePool layout24_8 MemoryManager.fresh none 120).state.m_pool = none ∧
      (initializePool layout24_8 MemoryManager.fresh none 120).state.m_pool_size = 120 ∧
      (initializePool layout24_8 MemoryManager.fresh none 120).state.m_free_list = [] ∧
      (initializePool layout24_8 MemoryManager.fresh none 120).state.mem
        = MemoryManager.fresh.mem)) :=
  ⟨⟨rfl, rfl, rfl⟩, by decide, by decide,
   C12_initialize layout24_8 layout24_8_ok MemoryManager.fresh 1000 120 ⟨rfl, rfl, rfl⟩
     (by decide) (by decide)⟩

/-- Counterexample to C12 as stated. `initialize(0)` on the default-constructed
manager (24-byte header) stores a first block of size `2 ^ 64 - 24`, so
`header_size + size` is `2 ^ 64`, not the capacity 0, and the block reaches far
beyond the empty buffer; walking the buffer `[1000, 1000 + 0)` finds no block.
And `initialize(2 ^ 64 - 1)`, which `::operator new` refuses, ends with
`std::bad_alloc` and a manager that has no buffer and no block. -/
theorem C12_zero_capacity_counterexample :
    Uninitialized MemoryManager.fresh ∧
    (initializePool layout24_8 MemoryManager.fresh (some 1000) 0).state.m_pool_size = 0 ∧
    (initializePool layout24_8 MemoryManager.fresh (some 1000) 0).state.mem 1000
      = some { size := 2 ^ 64 - 24, is_free := true, tag := some "InitialPool" } ∧
    (initializePool layout24_8 MemoryManager.fresh (some 1000) 0).state.m_free_list = [1000] ∧
    layout24_8.header_size + (2 ^ 64 - 24) ≠ 0 ∧
    (2 : Nat) ^ 64 - 24 ≠ 0 - layout24_8.header_size ∧
    (initializePool layout24_8 MemoryManager.fresh (some 1000) 0).state.blocks layout24_8
      = some [] ∧
    (initializePool layout24_8 MemoryManager.fresh none (2 ^ 64 - 1)).value
      = .error .bad_alloc ∧
    poolFailed.m_pool = none ∧ poolFailed.m_free_list = [] ∧
    poolFailed.blocks layout24_8 = none :=
  ⟨⟨rfl, rfl, rfl⟩, rfl, by decide, rfl, by decide, by decide, by decide, rfl, rfl, rfl,
   by decide⟩

/-- C13 (already initialized). On an initialized pool `initialize` with any
arguments writes the warning and returns normally with the state it was given:
buffer, capacity, every header and the free list are as before. The return of
line 31 comes before `::operator new`, so its outcome `buffer` plays no part. -/
theorem C13_already_initialized (L : Layout) (m : MemoryManager) (old : Nat)
    (buffer : Option Nat) (cap : Nat) (h : m.m_pool = some old) :
    initializePool L m buffer cap
      = ⟨.ok (), m, ["Warning: MemoryManager already initialized."]⟩ := by
  unfold initializePool
  rw [h]

/-- Witness for C13: a second `initialize` on the pool of 120 bytes with `A`
allocated. -/
theorem C13_already_initialized_witness :
    poolA.m_pool = some 1000 ∧
    initializePool layout24_8 poolA (some 5000) 64
      = ⟨.ok (), poolA, ["Warning: MemoryManager already initialized."]⟩ :=
  ⟨rfl, C13_already_initialized layout24_8 poolA 1000 (some 5000) 64 rfl⟩

/-- C14 (not initialized, allocate). On a manager without buffer, in particular
the default-constructed one and any manager after `shutdown`, `allocate` throws
the `runtime_error` for every size and tag: no address is returned and, the call
being abandoned before any write, no state is changed. On an initialized pool
`allocate` never throws a `runtime_error`. -/
theorem C14_not_initialized (L : Layout) :
    (∀ (m : MemoryManager) (size : Nat) (tag : Option String), m.m_pool = none →
      allocate L m size tag = .error (.runtime_error "MemoryManager not initialized.")) ∧
    (∀ (size : Nat) (tag : Option String),
      allocate L MemoryManager.fresh size tag
        = .error (.runtime_error "MemoryManager not initialized.")) ∧
    (∀ (m : MemoryManager) (size : Nat) (tag : Option String),
      allocate L (shutdown m) size tag
        = .error (.runtime_error "MemoryManager not initialized.")) ∧
    (∀ (m : MemoryManager) (size : Nat) (tag : Option String) (what : String),
      m.m_pool ≠ none → allocate L m size tag ≠ .error (.runtime_error what)) := by
  have h1 : ∀ (m : MemoryManager) (size : Nat) (tag : Option String), m.m_pool = none →
      allocate L m size tag = .error (.runtime_error "MemoryManager not initialized.") := by
    intro m size tag hp
    unfold allocate
    rw [hp]
  refine ⟨h1, fun size tag => h1 _ size tag rfl,
    fun m size tag => h1 _ size tag (shutdown_pool m), ?_⟩
  intro m size tag what hp
  unfold allocate
  cases hpool : m.m_pool with
  | none => exact absurd hpool hp
  | some base => exact (allocateLoop_pool L m size _ tag m.m_free_list []).1 what

/-- Witness for C14: the shut-down pool refuses, the pool of 120 bytes does not
throw. -/
theorem C14_not_initialized_witness :
    poolAShut.m_pool = none ∧
    allocate layout24_8 poolAShut 16 none
      = .error (.runtime_error "MemoryManager not initialized.") ∧
    pool120.m_pool ≠ none ∧
    allocate layout24_8 pool120 16 none
      ≠ .error (.runtime_error "MemoryManager not initialized.") :=
  ⟨rfl, (C14_not_initialized layout24_8).1 poolAShut 16 none rfl, by decide,
   (C14_not_initialized layout24_8).2.2.2 pool120 16 none _ (by decide)⟩

/-- C15 (shutdown), amended. For every state in the life of the manager,
`shutdown` yields a state with no buffer, an empty free list and no readable
header; if the state had a buffer, the result is the uninitialized state with
capacity 0 (the default-constructed state); applied to a state without buffer
`shutdown` changes nothing, so the stored capacity of such a state stays as it
is; two shutdowns equal one; and `initialize(cap)` after `shutdown`, when
`::operator new` returns `buffer`, returns normally, writes no warning and
creates a pool of capacity `cap` whose only header is the first block at the
buffer start and whose free list is that block, the block directory being
that single block of size `cap - header_size` when `header_size ≤ cap < 2 ^ 64`. -/
theorem C15_shutdown (L : Layout) (hL : L.ok) (m : MemoryManager) (hl : Lifecycle L m) :
    (shutdown m).m_pool = none ∧ (shutdown m).m_free_list = [] ∧
    (shutdown m).mem = (fun _ => none) ∧
    (m.m_pool ≠ none → Uninitialized (shutdown m) ∧ shutdown m = MemoryManager.fresh) ∧
    (m.m_pool = none → shutdown m = m) ∧
    shutdown (shutdown m) = shutdown m ∧
    ∀ (buffer cap : Nat),
      (initializePool L (shutdown m) (some buffer) cap).value = .ok () ∧
      (initializePool L (shutdown m) (some buffer) cap).cerr = [] ∧
      (initializePool L (shutdown m) (some buffer) cap).state.m_pool = some buffer ∧
      (initializePool L (shutdown m) (some buffer) cap).state.m_pool_size = cap ∧
      (initializePool L (shutdown m) (some buffer) cap).state.m_free_list = [buffer] ∧
      (initializePool L (shutdown m) (some buffer) cap).state.mem buffer
        = some { size := wsub cap L.header_size, is_free := true,
                 tag := some "InitialPool" } ∧
      (∀ x, x ≠ buffer →
        (initializePool L (shutdown m) (some buffer) cap).state.mem x = none) ∧
      (L.header_size ≤ cap → cap < SIZE_MOD →
        wsub cap L.header_size = cap - L.header_size ∧
        (initializePool L (shutdown m) (some buffer) cap).state.blocks L = some [buffer]) := by
  have hnone := lifecycle_none (Lifecycle.shut hl) (shutdown_pool m)
  have hidem : shutdown (shutdown m) = shutdown m := by
    unfold shutdown
    cases hp : m.m_pool with
    | none => simp only [hp]
    | some b => rfl
  refine ⟨shutdown_pool m, hnone.1, hnone.2, ?_, ?_, hidem, ?_⟩
  · intro hp
    have hfresh : shutdown m = MemoryManager.fresh := by
      unfold shutdown
      cases hp0 : m.m_pool with
      | none => exact absurd hp0 hp
      | some b => rfl
    rw [hfresh]
    exact ⟨⟨rfl, rfl, rfl⟩, rfl⟩
  · intro hp
    unfold shutdown
    rw [hp]
  · intro buffer cap
    rw [initializePool_some L (shutdown m) buffer cap (shutdown_pool m) hnone.1]
    refine ⟨rfl, rfl, rfl, rfl, rfl, poke_same (fun _ => none) buffer _, ?_, ?_⟩
    · intro x hx
      exact poke_other (fun _ => none) buffer _ hx
    · intro hlo hhi
      have hw := wsub_of_le cap L.header_size hlo hhi
      refine ⟨hw, ?_⟩
      rw [hw]
      exact blocks_single L hL buffer cap [buffer] hlo

/-- Witness for C15 (amended): shutting down the pool of 120 bytes with `A`
allocated gives the default-constructed state, and a new `initialize(64)`
granted at address 5000 builds the single block of 40 bytes. -/
theorem C15_shutdown_witness :
    Lifecycle layout24_8 poolA ∧ poolA.m_pool ≠ none ∧
    shutdown poolA = MemoryManager.fresh ∧
    shutdown (shutdown poolA) = shutdown poolA ∧
    (initializePool layout24_8 (shutdown poolA) (some 5000) 64).state.m_free_list = [5000] ∧
    (initializePool layout24_8 (shutdown poolA) (some 5000) 64).state.mem 5000
      = some { size := 40, is_free := true, tag := some "InitialPool" } ∧
    (initializePool layout24_8 (shutdown poolA) (some 5000) 64).state.blocks layout24_8
      = some [5000] :=
  ⟨lifecycle_poolA, by decide,
   ((C15_shutdown layout24_8 layout24_8_ok poolA lifecycle_poolA).2.2.2.1 (by decide)).2,
   (C15_shutdown layout24_8 layout24_8_ok poolA lifecycle_poolA).2.2.2.2.2.1,
   ((C15_shutdown layout24_8 layout24_8_ok poolA lifecycle_poolA).2.2.2.2.2.2 5000 64).2.2.2.2.1,
   by decide,
   (((C15_shutdown layout24_8 layout24_8_ok poolA lifecycle_poolA).2.2.2.2.2.2
      5000 64).2.2.2.2.2.2.2 (by decide) (by decide)).2⟩

/-- Counterexample to C15 as stated: `initialize(2 ^ 64 - 1)` on the
default-constructed manager is abandoned by the `std::bad_alloc` of line 35
after line 34 has stored the size; the manager has no buffer, so `shutdown`
(line 120) does nothing, and the state it yields has capacity `2 ^ 64 - 1`, not
0: it is not the uninitialized state. -/
theorem C15_failed_initialize_counterexample :
    (initializePool layout24_8 MemoryManager.fresh none (2 ^ 64 - 1)).value
      = .error .bad_alloc ∧
    Lifecycle layout24_8 poolFailed ∧
    poolFailed.m_pool = none ∧
    shutdown poolFailed = poolFailed ∧
    (shutdown poolFailed).m_pool_size = 2 ^ 64 - 1 ∧
    ¬ Uninitialized (shutdown poolFailed) ∧
    shutdown poolFailed ≠ MemoryManager.fresh :=
  ⟨rfl, Lifecycle.init none (2 ^ 64 - 1) Lifecycle.fresh, rfl, rfl, rfl,
   (fun h => absurd h.2.1 (by decide)),
   (fun h => absurd (congrArg MemoryManager.m_pool_size h) (by decide))⟩

/-- C16 evaluated: `deallocate` has no test of `m_pool`. On the
default-constructed manager, and on the pool of 120 bytes shut down while `A`
(address 1024) was allocated, `deallocate` of a non-null address goes on to read
the header in front of the address, memory that holds no header of a pool
(undefined behaviour), where `allocate` on the same state throws the
`runtime_error`. -/
theorem C16_deallocate_reads_without_pool :
    (∀ (L : Layout) (p : Nat) (tag : Option String),
      deallocate L MemoryManager.fresh (some p) tag = .error .undefined_behavior) ∧
    poolAShut.m_pool = none ∧
    deallocate layout24_8 poolAShut (some 1024) (some "A") = .error .undefined_behavior ∧
    deallocate layout24_8 poolAShut (some 1024) (some "A")
      ≠ .error (.runtime_error "MemoryManager not initialized.") ∧
    allocate layout24_8 poolAShut 16 (some "A")
      = .error (.runtime_error "MemoryManager not initialized.") :=
  ⟨fun _ _ _ => rfl, rfl, rfl, (fun h => by cases h), rfl⟩


/-! ## Tags -/

/-- Which entry the loop of `allocate` takes does not depend on the tag: for all
tags alike the loop faults, or returns null, or takes one and the same entry. -/
theorem allocateLoop_shape (L : Layout) (m : MemoryManager) (size asz : Nat) :
    ∀ (l visited : List Nat),
      (∃ e, ∀ tag, allocateLoop L m size asz tag visited l = .error e) ∨
      (∀ tag, allocateLoop L m size asz tag visited l = .ok ⟨none, m,
        ["MemoryManager: Out of memory for allocation of " ++ toString size ++ " bytes."]⟩) ∨
      (∃ vis b rest h, ∀ tag,
        allocateLoop L m size asz tag visited l = .ok (takeBlock L m asz tag vis b rest h)) := by
  intro l
  induction l with
  | nil => intro visited; exact Or.inr (Or.inl (fun _ => rfl))
  | cons b rest ih =>
    intro visited
    cases hb : m.mem b with
    | none =>
      left
      exact ⟨.undefined_behavior, fun tag => by simp only [allocateLoop, hb]⟩
    | some hdr =>
      by_cases hc : (hdr.is_free && decide (asz ≤ hdr.size)) = true
      · right; right
        exact ⟨visited, b, rest, hdr, fun tag => by simp only [allocateLoop, hb, hc, if_true]⟩
      · rcases ih (visited ++ [b]) with ⟨e, he⟩ | hn | ⟨vis, b2, rest2, h2, ht⟩
        · left
          exact ⟨e, fun tag => by simp only [allocateLoop, hb, hc, if_false]; exact he tag⟩
        · right; left
          intro tag
          simp only [allocateLoop, hb, hc, if_false]
          exact hn tag
        · right; right
          exact ⟨vis, b2, rest2, h2, fun tag => by
            simp only [allocateLoop, hb, hc, if_false]; exact ht tag⟩

/-- The tag only reaches the header of the block that the loop takes. -/
theorem allocateLoop_tag (L : Layout) (m : MemoryManager) (size asz : Nat)
    (t1 t2 : Option String) (l : List Nat) :
    (∃ e, allocateLoop L m size asz t1 [] l = .error e ∧
      allocateLoop L m size asz t2 [] l = .error e) ∨
    (∃ r, allocateLoop L m size asz t1 [] l = .ok r ∧
      allocateLoop L m size asz t2 [] l = .ok r ∧ r.value = none) ∨
    (∃ r1 r2 b h1 h2, allocateLoop L m size asz t1 [] l = .ok r1 ∧
      allocateLoop L m size asz t2 [] l = .ok r2 ∧
      r1.value = some (b + L.header_size) ∧ r2.value = some (b + L.header_size) ∧
      r1.cerr = r2.cerr ∧
      r1.state.m_pool = r2.state.m_pool ∧ r1.state.m_pool_size = r2.state.m_pool_size ∧
      r1.state.m_free_list = r2.state.m_free_list ∧
      (∀ x, x ≠ b → r1.state.mem x = r2.state.mem x) ∧
      r1.state.mem b = some h1 ∧ r2.state.mem b = some h2 ∧
      h1.size = h2.size ∧ h1.is_free = h2.is_free ∧ h1.tag = t1 ∧ h2.tag = t2) := by
  rcases allocateLoop_shape L m size asz l [] with ⟨e, he⟩ | hn | ⟨vis, b, rest, h, ht⟩
  · exact Or.inl ⟨e, he t1, he t2⟩
  · exact Or.inr (Or.inl ⟨_, hn t1, hn t2, rfl⟩)
  · right; right
    by_cases hsplit : L.header_size + L.ALIGNMENT < h.size - asz
    · refine ⟨_, _, b, { size := asz, is_free := false, tag := t1 },
        { size := asz, is_free := false, tag := t2 }, ht t1, ht t2,
        takeBlock_value _ _ _ _ _ _ _ _, takeBlock_value _ _ _ _ _ _ _ _, ?_, ?_⟩
      · unfold takeBlock
        rw [if_pos hsplit, if_pos hsplit]
      · rw [takeBlock_split _ _ _ t1 _ _ _ _ hsplit, takeBlock_split _ _ _ t2 _ _ _ _ hsplit]
        refine ⟨rfl, rfl, rfl, ?_, poke_same _ _ _, poke_same _ _ _, rfl, rfl, rfl, rfl⟩
        intro x hx
        show poke (poke m.mem _ _) b _ x = poke (poke m.mem _ _) b _ x
        rw [poke_other _ _ _ hx, poke_other _ _ _ hx]
    · refine ⟨_, _, b, { size := h.size, is_free := false, tag := t1 },
        { size := h.size, is_free := false, tag := t2 }, ht t1, ht t2,
        takeBlock_value _ _ _ _ _ _ _ _, takeBlock_value _ _ _ _ _ _ _ _, ?_, ?_⟩
      · unfold takeBlock
        rw [if_neg hsplit, if_neg hsplit]
      · rw [takeBlock_whole _ _ _ t1 _ _ _ _ hsplit, takeBlock_whole _ _ _ t2 _ _ _ _ hsplit]
        refine ⟨rfl, rfl, rfl, ?_, poke_same _ _ _, poke_same _ _ _, rfl, rfl, rfl, rfl⟩
        intro x hx
        show poke m.mem b _ x = poke m.mem b _ x
        rw [poke_other _ _ _ hx, poke_other _ _ _ hx]

/-- C18 (tag independence). For every state, size and tags `t1`, `t2`: the two
calls `allocate(size, t1)` and `allocate(size, t2)` fail alike, or both return
null with the same state, or both return the same address `b + header_size`
with the same free list and the same headers everywhere except that the header
of the chosen block `b` carries `t1` in one state and `t2` in the other (same
size, same `is_free`). `deallocate` does not look at its tag argument at all. -/
theorem C18_tag_independence (L : Layout) (m : MemoryManager) (size : Nat)
    (t1 t2 : Option String) :
    ((∃ e, allocate L m size t1 = .error e ∧ allocate L m size t2 = .error e) ∨
     (∃ r, allocate L m size t1 = .ok r ∧ allocate L m size t2 = .ok r ∧ r.value = none) ∨
     (∃ r1 r2 b h1 h2, allocate L m size t1 = .ok r1 ∧ allocate L m size t2 = .ok r2 ∧
        r1.value = some (b + L.header_size) ∧ r2.value = some (b + L.header_size) ∧
        r1.cerr = r2.cerr ∧
        r1.state.m_pool = r2.state.m_pool ∧ r1.state.m_pool_size = r2.state.m_pool_size ∧
        r1.state.m_free_list = r2.state.m_free_list ∧
        (∀ x, x ≠ b → r1.state.mem x = r2.state.mem x) ∧
        r1.state.mem b = some h1 ∧ r2.state.mem b = some h2 ∧
        h1.size = h2.size ∧ h1.is_free = h2.is_free ∧ h1.tag = t1 ∧ h2.tag = t2)) ∧
    (∀ ptr, deallocate L m ptr t1 = deallocate L m ptr t2) := by
  refine ⟨?_, fun ptr => rfl⟩
  unfold allocate
  cases hp : m.m_pool with
  | none => exact Or.inl ⟨_, rfl, rfl⟩
  | some base => exact allocateLoop_tag L m size _ t1 t2 m.m_free_list


/-! ## Free-list invariants -/

/-- C19 (free-list membership). In every reachable state (failed allocations
and double frees included) there is the list `bs` of the blocks that follow each
other from the buffer start, which is what walking the arena returns when the
capacity is at least one header, such that a block of `bs` has `is_free = true`
if and only if it is in the free list, and every entry of the free list is a
block of `bs`, is marked free, and occurs in the free list exactly once. -/
theorem C19_free_list_membership (L : Layout) (hL : L.ok) (base cap : Nat)
    (m : MemoryManager) (issued live : List Nat) (hR : Reachable L base cap m issued live) :
    ∃ bs, Chain L.header_size m.mem bs base (base + L.header_size + wsub cap L.header_size) ∧
      (L.header_size ≤ cap → m.blocks L = some bs) ∧
      (∀ b ∈ bs, (isFreeAt m.mem b = true ↔ b ∈ m.m_free_list)) ∧
      (∀ b ∈ m.m_free_list,
        b ∈ bs ∧ isFreeAt m.mem b = true ∧ m.m_free_list.count b = 1) := by
  obtain ⟨bs, hI⟩ := reachable_inv hL hR
  have hpos := hL.header_pos
  have hnodup : m.m_free_list.Nodup := (inv_freeListWF hL hI).ascending.nodup
  refine ⟨bs, hI.chain, ?_, ?_, ?_⟩
  · intro hcap
    have hchain : Chain L.header_size m.mem bs base (base + cap) := by
      have := hI.chain
      rwa [inv_chain_end hcap (reachable_cap_lt hR)] at this
    unfold MemoryManager.blocks
    rw [hI.pool, hI.pool_size]
    have hlen := chain_length_le _ hpos _ bs _ _ hchain
    exact walkBlocks_of_chain _ hpos _ _ bs cap base hchain (by omega)
  · intro b hb
    rw [hI.free_list, List.mem_filter]
    exact ⟨fun h => ⟨hb, h⟩, fun h => h.2⟩
  · intro b hb
    have hb2 := hb
    rw [hI.free_list, List.mem_filter] at hb2
    exact ⟨hb2.1, hb2.2, List.count_eq_one_of_mem hnodup hb⟩

/-- Appending an address to an ascending list and sorting puts the address at
its place in the order. -/
theorem insertionSort_append_singleton (l : List Nat) (b : Nat) (hl : l.Sorted (· ≤ ·)) :
    List.insertionSort (· ≤ ·) (l ++ [b]) = List.orderedInsert (· ≤ ·) b l := by
  refine List.eq_of_perm_of_sorted ?_ (List.sorted_insertionSort _ _) (hl.orderedInsert b l)
  refine (List.perm_insertionSort _ _).trans ?_
  refine (List.perm_append_singleton _ _).trans ?_
  exact (List.perm_orderedInsert _ _ _).symm

/-- C20 (free-list order). In every reachable state the free list is strictly
ascending by address. The list made by `initialize` is; every `allocate` on a
reachable state returns with a strictly ascending list (with or without split);
every `deallocate` of an issued address returns with a strictly ascending list,
and when the address is live the new list is the old one with the freed block
inserted at its place in the address order. -/
theorem C20_free_list_order (L : Layout) (hL : L.ok) (base cap : Nat)
    (m : MemoryManager) (issued live : List Nat) (hR : Reachable L base cap m issued live) :
    m.m_free_list.Sorted (· < ·) ∧
    ((initializePool L MemoryManager.fresh (some base) cap).state.m_free_list).Sorted (· < ·) ∧
    (∀ (size : Nat) (tag : Option String), ∃ r, allocate L m size tag = .ok r ∧
      r.state.m_free_list.Sorted (· < ·)) ∧
    (∀ p ∈ issued, ∀ (tag : Option String), ∃ r, deallocate L m (some p) tag = .ok r ∧
      r.state.m_free_list.Sorted (· < ·) ∧
      (p ∈ live → r.state.m_free_list
        = List.orderedInsert (· ≤ ·) (p - L.header_size) m.m_free_list)) := by
  obtain ⟨bs, hI⟩ := reachable_inv hL hR
  have hsorted := (inv_freeListWF hL hI).ascending
  refine ⟨hsorted, ?_, ?_, ?_⟩
  · exact (inv_freeListWF hL (inv_init L base cap)).ascending
  · intro size tag
    obtain ⟨r, e, hcase⟩ := inv_allocate hL hI size tag
    refine ⟨r, e, ?_⟩
    rcases hcase with ⟨_, hs⟩ | ⟨b, bs2, _, _, hI2⟩
    · rw [hs]; exact hsorted
    · exact (inv_freeListWF hL hI2).ascending
  · intro p hp tag
    obtain ⟨r, e, hI2⟩ := inv_deallocate hL hI p hp tag
    refine ⟨r, e, (inv_freeListWF hL hI2).ascending, ?_⟩
    intro hlive
    obtain ⟨b, hb, hpb, hnf⟩ := (hI.live_blocks p).mp hlive
    have hblock : p - L.header_size = b := by omega
    obtain ⟨h, hm⟩ := chain_mem_some _ _ _ _ _ hI.chain b hb
    have hf : h.is_free = false := by rw [isFreeAt_of_some hm] at hnf; exact hnf
    have e2 : deallocate L m (some p) tag = .ok ⟨(), { m with
        mem := poke m.mem b { h with is_free := true, tag := some "FreedBlock" }
        m_free_list := List.insertionSort (· ≤ ·) (m.m_free_list ++ [b]) }, []⟩ := by
      simp [deallocate, hblock, hm, hf]
    rw [e] at e2
    cases e2
    rw [hblock]
    exact insertionSort_append_singleton _ _ (hsorted.imp (fun hab => le_of_lt hab))

/-- Witness for C19: the pool of 120 bytes after three allocations and the
release of `B`; the blocks are 1000, 1040, 1080 and the free list is `[1040]`. -/
theorem C19_free_list_membership_witness :
    Reachable layout24_8 1000 120 poolAC [1104, 1064, 1024] [1104, 1024] ∧
    (∃ bs, Chain layout24_8.header_size poolAC.mem bs 1000
        (1000 + layout24_8.header_size + wsub 120 layout24_8.header_size) ∧
      (layout24_8.header_size ≤ 120 → poolAC.blocks layout24_8 = some bs) ∧
      (∀ b ∈ bs, (isFreeAt poolAC.mem b = true ↔ b ∈ poolAC.m_free_list)) ∧
      (∀ b ∈ poolAC.m_free_list,
        b ∈ bs ∧ isFreeAt poolAC.mem b = true ∧ poolAC.m_free_list.count b = 1)) ∧
    poolAC.blocks layout24_8 = some [1000, 1040, 1080] ∧ poolAC.m_free_list = [1040] :=
  ⟨reach_poolAC,
   C19_free_list_membership layout24_8 layout24_8_ok 1000 120 poolAC _ _ reach_poolAC,
   by decide, by decide⟩

/-- Witness for C20: in the pool of 120 bytes with `B` released, releasing `A`
(address 1024, block 1000) turns the free list `[1040]` into `[1000, 1040]`. -/
theorem C20_free_list_order_witness :
    Reachable layout24_8 1000 120 poolAC [1104, 1064, 1024] [1104, 1024] ∧
    (poolAC.m_free_list.Sorted (· < ·) ∧
     ((initializePool layout24_8 MemoryManager.fresh (some 1000) 120).state.m_free_list).Sorted
       (· < ·) ∧
     (∀ (size : Nat) (tag : Option String), ∃ r, allocate layout24_8 poolAC size tag = .ok r ∧
       r.state.m_free_list.Sorted (· < ·)) ∧
     (∀ p ∈ [1104, 1064, 1024], ∀ (tag : Option String),
       ∃ r, deallocate layout24_8 poolAC (some p) tag = .ok r ∧
       r.state.m_free_list.Sorted (· < ·) ∧
       (p ∈ [1104, 1024] → r.state.m_free_list
         = List.orderedInsert (· ≤ ·) (p - layout24_8.header_size) poolAC.m_free_list))) ∧
    poolC.m_free_list = [1000, 1040] :=
  ⟨reach_poolAC,
   C20_free_list_order layout24_8 layout24_8_ok 1000 120 poolAC _ _ reach_poolAC,
   by decide⟩


/-! ## Exhaustion by equal requests -/

theorem allocate_eq_loop (L : Layout) (m : MemoryManager) (size asz : Nat)
    (tag : Option String) (hasz : aligned_size L size = asz) (hp : m.m_pool ≠ none) :
    allocate L m size tag = allocateLoop L m size asz tag [] m.m_free_list := by
  unfold allocate
  cases hpool : m.m_pool with
  | none => exact absurd hpool hp
  | some _ => rw [hasz]

/-- On an exhausted pool `allocate` returns null and leaves the state as it is. -/
theorem exhausted_step (L : Layout) (m : MemoryManager) (size asz : Nat)
    (tag : Option String) (hasz : aligned_size L size = asz) (hex : Exhausted asz m) :
    allocate L m size tag = .ok ⟨none, m,
      ["MemoryManager: Out of memory for allocation of " ++ toString size ++ " bytes."]⟩ := by
  rw [allocate_eq_loop L m size asz tag hasz hex.1]
  exact allocateLoop_none L m size asz tag _ [] hex.2

/-- While the single free block is large enough, `allocate` succeeds; it leaves
a single free block again if another request fits, and an exhausted pool if not. -/
theorem single_step (L : Layout) (hL : L.ok) (base cap size asz k : Nat) (m : MemoryManager)
    (tag : Option String) (hasz : aligned_size L size = asz) (hal : L.ALIGNMENT < asz)
    (hs : SingleFree L base cap asz k m) (hfit : (k + 1) * (L.header_size + asz) ≤ cap) :
    ∃ r p, allocate L m size tag = .ok r ∧ r.value = some p ∧
      ((k + 2) * (L.header_size + asz) ≤ cap → SingleFree L base cap asz (k + 1) r.state) ∧
      (cap < (k + 2) * (L.header_size + asz) → Exhausted asz r.state) := by
  obtain ⟨hp, hfl, t, hm⟩ := hs
  have hpos := hL.header_pos
  have e1 : (k + 1) * (L.header_size + asz) = k * (L.header_size + asz) + (L.header_size + asz) :=
    Nat.succ_mul _ _
  have e2 : (k + 2) * (L.header_size + asz)
      = k * (L.header_size + asz) + (L.header_size + asz) + (L.header_size + asz) := by
    rw [show k + 2 = (k + 1) + 1 from rfl, Nat.succ_mul, e1]
  generalize hK : k * (L.header_size + asz) = K at *
  have hpne : m.m_pool ≠ none := by rw [hp]; simp
  have hcall : allocate L m size tag = .ok (takeBlock L m asz tag [] (base + K) []
      { size := cap - L.header_size - K, is_free := true, tag := t }) := by
    rw [allocate_eq_loop L m size asz tag hasz hpne, hfl]
    exact allocateLoop_found L m size asz tag (base + K) [] _ hm rfl
      (by show asz ≤ cap - L.header_size - K; omega)
      [] [] (fun q hq => absurd hq (List.not_mem_nil q))
  rw [e1] at hfit
  refine ⟨_, _, hcall, takeBlock_value _ _ _ _ _ _ _ _, ?_, ?_⟩
  · intro hnext
    rw [e2] at hnext
    unfold SingleFree
    rw [e1]
    have hsplit : L.header_size + L.ALIGNMENT
        < ({ size := cap - L.header_size - K, is_free := true, tag := t } : BlockHeader).size
          - asz := by
      show L.header_size + L.ALIGNMENT < cap - L.header_size - K - asz
      omega
    rw [takeBlock_split _ _ _ _ _ _ _ _ hsplit]
    have hne : base + K + L.header_size + asz ≠ base + K := by omega
    refine ⟨hp, ?_, some "SplitBlock", ?_⟩
    · show [] ++ (base + K + L.header_size + asz) :: [] = [base + (K + (L.header_size + asz))]
      rw [List.nil_append]
      congr 1
      omega
    · show poke (poke m.mem _ _) (base + K) _ (base + (K + (L.header_size + asz))) = some _
      have e3 : base + (K + (L.header_size + asz)) = base + K + L.header_size + asz := by omega
      rw [e3, poke_other _ _ _ hne, poke_same]
      congr 2
      show cap - L.header_size - K - asz - L.header_size
        = cap - L.header_size - (K + (L.header_size + asz))
      omega
  · intro hlast
    rw [e2] at hlast
    by_cases hsplit : L.header_size + L.ALIGNMENT
        < ({ size := cap - L.header_size - K, is_free := true, tag := t } : BlockHeader).size
          - asz
    · rw [takeBlock_split _ _ _ _ _ _ _ _ hsplit]
      have hne : base + K + L.header_size + asz ≠ base + K := by omega
      refine ⟨hpne, ?_⟩
      intro q hq
      have hq : q ∈ [] ++ (base + K + L.header_size + asz) :: [] := hq
      rw [List.nil_append, List.mem_singleton] at hq
      refine ⟨BlockHeader.mk (cap - L.header_size - K - asz - L.header_size) true
        (some "SplitBlock"), ?_, ?_⟩
      · show poke (poke m.mem _ _) (base + K) _ q = some _
        rw [hq, poke_other _ _ _ hne, poke_same]
      · show cap - L.header_size - K - asz - L.header_size < asz
        have hsplit2 : L.header_size + L.ALIGNMENT < cap - L.header_size - K - asz := hsplit
        omega
    · rw [takeBlock_whole _ _ _ _ _ _ _ _ hsplit]
      refine ⟨hpne, ?_⟩
      intro q hq
      exact absurd hq (List.not_mem_nil q)


/-- The states passed through while a fresh pool is drained by equal requests:
a single free block as long as another request fits, an exhausted pool after. -/
theorem exhaustion_states (L : Layout) (hL : L.ok) (base cap size asz : Nat)
    (tag : Option String) (hasz : aligned_size L size = asz) (hal : L.ALIGNMENT < asz)
    (hlo : L.header_size ≤ cap) (hhi : cap < SIZE_MOD) :
    ∀ k,
      ((k + 1) * (L.header_size + asz) ≤ cap →
        SingleFree L base cap asz k
          (repeatAllocate L size tag k (initializePool L MemoryManager.fresh (some base) cap).state)) ∧
      (cap < (k + 1) * (L.header_size + asz) →
        Exhausted asz
          (repeatAllocate L size tag k (initializePool L MemoryManager.fresh (some base) cap).state)) := by
  have hm0 : (initializePool L MemoryManager.fresh (some base) cap).state.mem base
      = some { size := cap - L.header_size, is_free := true, tag := some "InitialPool" } := by
    show poke (fun _ => none) base _ base = some _
    rw [poke_same, wsub_of_le cap L.header_size hlo hhi]
  intro k
  induction k with
  | zero =>
    constructor
    · intro _
      refine ⟨rfl, ?_, some "InitialPool", ?_⟩
      · show [] ++ [base] = [base + 0 * (L.header_size + asz)]
        rw [Nat.zero_mul, Nat.add_zero]; rfl
      · show (initializePool L MemoryManager.fresh (some base) cap).state.mem
            (base + 0 * (L.header_size + asz)) = some _
        rw [Nat.zero_mul, Nat.add_zero, Nat.sub_zero]
        exact hm0
    · intro hsmall
      refine ⟨by show some base ≠ none; simp, ?_⟩
      intro q hq
      have hq : q ∈ [] ++ [base] := hq
      rw [List.nil_append, List.mem_singleton] at hq
      rw [hq]
      refine ⟨_, hm0, ?_⟩
      show cap - L.header_size < asz
      omega
  | succ k ih =>
    have e1 : (k + 1 + 1) * (L.header_size + asz)
        = (k + 1) * (L.header_size + asz) + (L.header_size + asz) := Nat.succ_mul _ _
    by_cases hfit : (k + 1) * (L.header_size + asz) ≤ cap
    · obtain ⟨r, p, hcall, _, hnext, hlast⟩ :=
        single_step L hL base cap size asz k _ tag hasz hal (ih.1 hfit) hfit
      have hst : repeatAllocate L size tag (k + 1)
          (initializePool L MemoryManager.fresh (some base) cap).state = r.state := by
        show stateOf (allocate L _ size tag) = r.state
        rw [hcall]; rfl
      rw [hst]
      exact ⟨hnext, hlast⟩
    · have hex := ih.2 (not_le.mp hfit)
      have hcall := exhausted_step L _ size asz tag hasz hex
      have hst : repeatAllocate L size tag (k + 1)
          (initializePool L MemoryManager.fresh (some base) cap).state
          = repeatAllocate L size tag k
              (initializePool L MemoryManager.fresh (some base) cap).state := by
        show stateOf (allocate L _ size tag) = _
        rw [hcall]; rfl
      rw [hst]
      constructor
      · intro h; omega
      · intro _; exact hex

/-- C11 (exhaustion). For every platform with a header of at most 1024 bytes and
an alignment below 100: after `initialize(1024)` on the default-constructed
manager, the `k`-th repeated `allocate(100)` (counting from 0) returns an address
for every `k` below `1024 / (header_size + round_up 100 ALIGNMENT)`, and every
later call returns null and leaves the state as it is. -/
theorem C11_exhaustion (L : Layout) (hL : L.ok) (hhs : L.header_size ≤ 1024)
    (hal : L.ALIGNMENT < 100) (base : Nat) (tag : Option String) :
    (∀ k, k < 1024 / (L.header_size + round_up 100 L.ALIGNMENT) →
      ∃ r p, allocate L (repeatAllocate L 100 tag k
          (initializePool L MemoryManager.fresh (some base) 1024).state) 100 tag = .ok r ∧
        r.value = some p) ∧
    (∀ k, 1024 / (L.header_size + round_up 100 L.ALIGNMENT) ≤ k →
      ∃ r, allocate L (repeatAllocate L 100 tag k
          (initializePool L MemoryManager.fresh (some base) 1024).state) 100 tag = .ok r ∧
        r.value = none ∧
        r.state = repeatAllocate L 100 tag k
          (initializePool L MemoryManager.fresh (some base) 1024).state) := by
  obtain ⟨j, hj, hpow⟩ := hL.pow2
  have halpos : 0 < L.ALIGNMENT := by rw [hpow]; exact Nat.pow_pos (by decide)
  have hnowrap : 100 + L.ALIGNMENT ≤ SIZE_MOD := by
    have : (200 : Nat) ≤ SIZE_MOD := by decide
    omega
  have hasz : aligned_size L 100 = round_up 100 L.ALIGNMENT :=
    aligned_size_round_up L hL 100 hnowrap
  have hge := le_round_up 100 L.ALIGNMENT halpos
  have hal2 : L.ALIGNMENT < round_up 100 L.ALIGNMENT := by omega
  have hupos : 0 < L.header_size + round_up 100 L.ALIGNMENT := by omega
  have hstates := exhaustion_states L hL base 1024 100 (round_up 100 L.ALIGNMENT) tag hasz hal2
    hhs (by decide)
  constructor
  · intro k hk
    have hfit : (k + 1) * (L.header_size + round_up 100 L.ALIGNMENT) ≤ 1024 :=
      (Nat.le_div_iff_mul_le hupos).mp hk
    obtain ⟨r, p, hcall, hv, _, _⟩ :=
      single_step L hL base 1024 100 _ k _ tag hasz hal2 ((hstates k).1 hfit) hfit
    exact ⟨r, p, hcall, hv⟩
  · intro k hk
    have hnofit : 1024 < (k + 1) * (L.header_size + round_up 100 L.ALIGNMENT) := by
      by_contra hc
      have := (Nat.le_div_iff_mul_le hupos).mpr (not_lt.mp hc)
      omega
    exact ⟨_, exhausted_step L _ 100 _ tag hasz ((hstates k).2 hnofit), rfl, rfl⟩

/-- Witness for C11: with a 24-byte header and 8-byte alignment the count is
`1024 / (24 + 104) = 8`; the eighth call (number 7) returns an address, the
ninth returns null. -/
theorem C11_exhaustion_witness :
    layout24_8.header_size ≤ 1024 ∧ layout24_8.ALIGNMENT < 100 ∧
    1024 / (layout24_8.header_size + round_up 100 layout24_8.ALIGNMENT) = 8 ∧
    ((∀ k, k < 1024 / (layout24_8.header_size + round_up 100 layout24_8.ALIGNMENT) →
      ∃ r p, allocate layout24_8 (repeatAllocate layout24_8 100 none k
          (initializePool layout24_8 MemoryManager.fresh (some 4096) 1024).state) 100 none = .ok r ∧
        r.value = some p) ∧
     (∀ k, 1024 / (layout24_8.header_size + round_up 100 layout24_8.ALIGNMENT) ≤ k →
      ∃ r, allocate layout24_8 (repeatAllocate layout24_8 100 none k
          (initializePool layout24_8 MemoryManager.fresh (some 4096) 1024).state) 100 none = .ok r ∧
        r.value = none ∧
        r.state = repeatAllocate layout24_8 100 none k
          (initializePool layout24_8 MemoryManager.fresh (some 4096) 1024).state)) ∧
    valueOf (allocate layout24_8 (repeatAllocate layout24_8 100 none 7 pool1024) 100 none)
      = some 5016 ∧
    valueOf (allocate layout24_8 (repeatAllocate layout24_8 100 none 8 pool1024) 100 none)
      = none :=
  ⟨by decide, by decide, by decide,
   C11_exhaustion layout24_8 layout24_8_ok (by decide) (by decide) 4096 none,
   by decide, by decide⟩


/-- Witness for C18: on the fresh pool of 120 bytes, `allocate(16, "A")` and
`allocate(16, "B")` both return 1024 and leave the free list `[1040]`; the header
at 1000 carries "A" in one state and "B" in the other. -/
theorem C18_tag_independence_witness :
    (((∃ e, allocate layout24_8 pool120 16 (some "A") = .error e ∧
          allocate layout24_8 pool120 16 (some "B") = .error e) ∨
      (∃ r, allocate layout24_8 pool120 16 (some "A") = .ok r ∧
          allocate layout24_8 pool120 16 (some "B") = .ok r ∧ r.value = none) ∨
      (∃ r1 r2 b h1 h2, allocate layout24_8 pool120 16 (some "A") = .ok r1 ∧
          allocate layout24_8 pool120 16 (some "B") = .ok r2 ∧
          r1.value = some (b + layout24_8.header_size) ∧
          r2.value = some (b + layout24_8.header_size) ∧
          r1.cerr = r2.cerr ∧
          r1.state.m_pool = r2.state.m_pool ∧
          r1.state.m_pool_size = r2.state.m_pool_size ∧
          r1.state.m_free_list = r2.state.m_free_list ∧
          (∀ x, x ≠ b → r1.state.mem x = r2.state.mem x) ∧
          r1.state.mem b = some h1 ∧ r2.state.mem b = some h2 ∧
          h1.size = h2.size ∧ h1.is_free = h2.is_free ∧
          h1.tag = some "A" ∧ h2.tag = some "B")) ∧
     (∀ ptr, deallocate layout24_8 pool120 ptr (some "A")
        = deallocate layout24_8 pool120 ptr (some "B"))) ∧
    valueOf (allocate layout24_8 pool120 16 (some "A")) = some 1024 ∧
    valueOf (allocate layout24_8 pool120 16 (some "B")) = some 1024 ∧
    (stateOf (allocate layout24_8 pool120 16 (some "A"))).mem 1000
      = some { size := 16, is_free := false, tag := some "A" } ∧
    (stateOf (allocate layout24_8 pool120 16 (some "B"))).mem 1000
      = some { size := 16, is_free := false, tag := some "B" } :=
  ⟨C18_tag_independence layout24_8 pool120 16 (some "A") (some "B"),
   by decide, by decide, by decide, by decide⟩


/-! ## Sizes, rounding, null release -/

theorem wsub_dvd (L : Layout) (hL : L.ok) (cap : Nat) (hcap : L.ALIGNMENT ∣ cap) :
    L.ALIGNMENT ∣ wsub cap L.header_size := by
  obtain ⟨k, hk, hal⟩ := hL.pow2
  have hM : L.ALIGNMENT ∣ SIZE_MOD := by
    rw [hal]
    exact pow_dvd_pow 2 (le_of_lt hk)
  have hhs : L.ALIGNMENT ∣ L.header_size := Nat.dvd_of_mod_eq_zero hL.header_aligned
  have h1 : L.ALIGNMENT ∣ L.header_size % SIZE_MOD := (Nat.dvd_mod_iff hM).mpr hhs
  have h2 : L.ALIGNMENT ∣ SIZE_MOD - L.header_size % SIZE_MOD := Nat.dvd_sub' hM h1
  unfold wsub
  exact (Nat.dvd_mod_iff hM).mpr (dvd_add hcap h2)

/-- Taking a block writes only sizes that are multiples of `ALIGNMENT`, when the
sizes stored before are and the request was rounded to a multiple. -/
theorem takeBlock_sizes (L : Layout) (hL : L.ok) (m : MemoryManager) (asz : Nat)
    (tag : Option String) (pre : List Nat) (b : Nat) (post : List Nat) (h : BlockHeader)
    (hm : m.mem b = some h) (hdvd : L.ALIGNMENT ∣ asz)
    (hall : ∀ x hx, m.mem x = some hx → L.ALIGNMENT ∣ hx.size) :
    ∀ x hx, (takeBlock L m asz tag pre b post h).state.mem x = some hx →
      L.ALIGNMENT ∣ hx.size := by
  have hhs : L.ALIGNMENT ∣ L.header_size := Nat.dvd_of_mod_eq_zero hL.header_aligned
  have hh := hall b h hm
  intro x hx hmx
  by_cases hsplit : L.header_size + L.ALIGNMENT < h.size - asz
  · rw [takeBlock_split _ _ _ _ _ _ _ _ hsplit] at hmx
    have hmx : poke (poke m.mem (b + L.header_size + asz)
        (BlockHeader.mk (h.size - asz - L.header_size) true (some "SplitBlock")))
        b (BlockHeader.mk asz false tag) x = some hx := hmx
    by_cases hxb : x = b
    · rw [hxb, poke_same] at hmx
      cases hmx
      exact hdvd
    · rw [poke_other _ _ _ hxb] at hmx
      by_cases hxn : x = b + L.header_size + asz
      · rw [hxn, poke_same] at hmx
        cases hmx
        exact Nat.dvd_sub' (Nat.dvd_sub' hh hdvd) hhs
      · rw [poke_other _ _ _ hxn] at hmx
        exact hall x hx hmx
  · rw [takeBlock_whole _ _ _ _ _ _ _ _ hsplit] at hmx
    have hmx : poke m.mem b (BlockHeader.mk h.size false tag) x = some hx := hmx
    by_cases hxb : x = b
    · rw [hxb, poke_same] at hmx
      cases hmx
      exact hh
    · rw [poke_other _ _ _ hxb] at hmx
      exact hall x hx hmx

/-- With a capacity that is a multiple of `ALIGNMENT`, every header stored in a
reachable state has a size that is a multiple of `ALIGNMENT`. -/
theorem reachable_sizes_aligned {L : Layout} (hL : L.ok) {base cap : Nat}
    (hcap : L.ALIGNMENT ∣ cap) {m : MemoryManager} {issued live : List Nat}
    (hR : Reachable L base cap m issued live) :
    ∀ x hx, m.mem x = some hx → L.ALIGNMENT ∣ hx.size := by
  have halloc : ∀ (m0 : MemoryManager) (iss lv : List Nat) (size : Nat) (tag : Option String)
      (r : Ret (Option Nat)), Reachable L base cap m0 iss lv →
      (∀ x hx, m0.mem x = some hx → L.ALIGNMENT ∣ hx.size) →
      allocate L m0 size tag = .ok r →
      ∀ x hx, r.state.mem x = some hx → L.ALIGNMENT ∣ hx.size := by
    intro m0 iss lv size tag r hR0 hall hcall
    obtain ⟨hp, hwf⟩ := reachable_freeListWF hL hR0
    rcases allocate_cases L m0 size tag (by rw [hp]; simp) hwf with
      ⟨_, e⟩ | ⟨pre, b, post, h, _, hm, _, _, _, e⟩
    · rw [hcall] at e
      cases e
      exact hall
    · rw [hcall] at e
      cases e
      exact takeBlock_sizes L hL m0 _ tag pre b post h hm (aligned_size_dvd L hL size) hall
  induction hR with
  | init _ =>
    intro x hx hmx
    have hmx : poke (fun _ => none) base
        (BlockHeader.mk (wsub cap L.header_size) true (some "InitialPool")) x = some hx := hmx
    by_cases hxb : x = base
    · rw [hxb, poke_same] at hmx
      cases hmx
      exact wsub_dvd L hL cap hcap
    · rw [poke_other _ _ _ hxb] at hmx
      cases hmx
  | alloc_ok hprev _ hcall _ ih => exact halloc _ _ _ _ _ _ hprev ih hcall
  | alloc_fail hprev _ hcall _ ih => exact halloc _ _ _ _ _ _ hprev ih hcall
  | @dealloc m0 iss lv p tag r hprev _ hcall ih =>
    simp only [deallocate] at hcall
    cases hb : m0.mem (p - L.header_size) with
    | none => rw [hb] at hcall; cases hcall
    | some hdr =>
      rw [hb] at hcall
      by_cases hf : hdr.is_free = true
      · simp only [hf, if_true] at hcall
        cases hcall
        exact ih
      · simp only [hf, if_false] at hcall
        cases hcall
        intro x hx hmx
        have hmx : poke m0.mem (p - L.header_size)
            (BlockHeader.mk hdr.size true (some "FreedBlock")) x = some hx := hmx
        by_cases hxb : x = p - L.header_size
        · rw [hxb, poke_same] at hmx
          cases hmx
          exact ih _ hdr hb
        · rw [poke_other _ _ _ hxb] at hmx
          exact ih x hx hmx
  | dealloc_null _ hcall ih =>
    simp only [deallocate] at hcall
    cases hcall
    exact ih


/-- C21 (size alignment), for capacities that are multiples of `ALIGNMENT`. In
every state reached from `initialize(cap)` with `cap` a multiple of `ALIGNMENT`,
the size field of every stored header is a multiple of `ALIGNMENT`: of every
block found by walking the arena and of every block of the free list, be it the
initial block, a block made by a split, allocated or free. -/
theorem C21_size_alignment (L : Layout) (hL : L.ok) (base cap : Nat)
    (hcap : cap % L.ALIGNMENT = 0)
    (m : MemoryManager) (issued live : List Nat) (hR : Reachable L base cap m issued live) :
    (∀ x hx, m.mem x = some hx → hx.size % L.ALIGNMENT = 0) ∧
    (∀ bs, m.blocks L = some bs → ∀ b ∈ bs, sizeAt m.mem b % L.ALIGNMENT = 0) ∧
    (∀ b ∈ m.m_free_list, sizeAt m.mem b % L.ALIGNMENT = 0) := by
  have hall := reachable_sizes_aligned hL (Nat.dvd_of_mod_eq_zero hcap) hR
  have hsz : ∀ b, sizeAt m.mem b % L.ALIGNMENT = 0 := by
    intro b
    cases hb : m.mem b with
    | none => simp [sizeAt, hb]
    | some h =>
      rw [sizeAt_of_some hb]
      exact Nat.mod_eq_zero_of_dvd (hall b h hb)
  exact ⟨fun x hx hmx => Nat.mod_eq_zero_of_dvd (hall x hx hmx), fun _ _ b _ => hsz b,
    fun b _ => hsz b⟩

/-- Witness for C21 (amended): the pool of 120 bytes (a multiple of 8) after
three allocations and two releases. -/
theorem C21_size_alignment_witness :
    120 % layout24_8.ALIGNMENT = 0 ∧
    Reachable layout24_8 1000 120 poolC [1104, 1064, 1024] [1104] ∧
    ((∀ x hx, poolC.mem x = some hx → hx.size % layout24_8.ALIGNMENT = 0) ∧
     (∀ bs, poolC.blocks layout24_8 = some bs →
        ∀ b ∈ bs, sizeAt poolC.mem b % layout24_8.ALIGNMENT = 0) ∧
     (∀ b ∈ poolC.m_free_list, sizeAt poolC.mem b % layout24_8.ALIGNMENT = 0)) :=
  ⟨by decide, reach_poolC,
   C21_size_alignment layout24_8 layout24_8_ok 1000 120 (by decide) poolC _ _ reach_poolC⟩

/-- Counterexample to C21 as stated: `initialize(100)` with a 24-byte header and
8-byte alignment yields a reachable state whose only block has size
`100 - 24 = 76`, which is not a multiple of 8. -/
theorem C21_unaligned_capacity_counterexample :
    Reachable layout24_8 1000 100 pool100 [] [] ∧
    pool100.blocks layout24_8 = some [1000] ∧
    pool100.mem 1000 = some { size := 76, is_free := true, tag := some "InitialPool" } ∧
    76 % layout24_8.ALIGNMENT ≠ 0 :=
  ⟨Reachable.init (by decide), by decide, by decide, by decide⟩

/-- The rounding of line 56 for sizes it rounds without wrapping. If
`size + ALIGNMENT ≤ 2 ^ 64`, the value computed at line 56 is
`round_up size ALIGNMENT`, which is a multiple of `ALIGNMENT`, is at least
`size`, and is the least such multiple; and the block that a successful
`allocate(size)` hands out has a size field of at least `size`. -/
theorem round_up_without_wrap (L : Layout) (hL : L.ok) (size : Nat)
    (hsize : size + L.ALIGNMENT ≤ SIZE_MOD) :
    aligned_size L size = round_up size L.ALIGNMENT ∧
    L.ALIGNMENT ∣ round_up size L.ALIGNMENT ∧
    size ≤ round_up size L.ALIGNMENT ∧
    (∀ n, L.ALIGNMENT ∣ n → size ≤ n → round_up size L.ALIGNMENT ≤ n) ∧
    (∀ (m : MemoryManager) (tag : Option String) (r : Ret (Option Nat)) (b : Nat),
      m.m_pool ≠ none → FreeListWF m → allocate L m size tag = .ok r →
      r.value = some (b + L.header_size) → size ≤ sizeAt r.state.mem b) := by
  obtain ⟨k, hk, hal⟩ := hL.pow2
  have halpos : 0 < L.ALIGNMENT := by rw [hal]; exact Nat.pow_pos (by decide)
  have hasz := aligned_size_round_up L hL size hsize
  have hle := le_round_up size L.ALIGNMENT halpos
  refine ⟨hasz, round_up_dvd _ _, hle, ?_, ?_⟩
  · intro n hn hsn
    obtain ⟨q, rfl⟩ := hn
    unfold round_up
    have hq : (size + L.ALIGNMENT - 1) / L.ALIGNMENT ≤ q := by
      apply Nat.le_of_lt_succ
      rw [Nat.div_lt_iff_lt_mul halpos]
      have h1 := Nat.succ_mul q L.ALIGNMENT
      have h2 := Nat.mul_comm q L.ALIGNMENT
      omega
    calc (size + L.ALIGNMENT - 1) / L.ALIGNMENT * L.ALIGNMENT
        ≤ q * L.ALIGNMENT := Nat.mul_le_mul_right _ hq
      _ = L.ALIGNMENT * q := Nat.mul_comm _ _
  · intro m tag r b hp hwf hcall hval
    have hle2 : size ≤ aligned_size L size := by rw [hasz]; exact hle
    generalize aligned_size L size = asz at hle2
    rcases allocate_cases L m size tag hp hwf with
      ⟨_, e⟩ | ⟨pre, b2, post, h, _, _, _, _, hfit, e⟩
    · rw [hcall] at e
      cases e
      cases hval
    · rw [hcall] at e
      cases e
      rw [takeBlock_value] at hval
      have hb : b2 = b := by
        have := Option.some.inj hval; omega
      subst hb
      have hfit2 : size ≤ h.size := by
        have := aligned_size_round_up L hL size hsize
        omega
      by_cases hsplit : L.header_size + L.ALIGNMENT < h.size - aligned_size L size
      · rw [takeBlock_split _ _ _ _ _ _ _ _ hsplit]
        show size ≤ sizeAt (poke (poke m.mem _ _) b2 _) b2
        rw [sizeAt_poke_same]
        show size ≤ aligned_size L size
        rw [hasz]; exact hle
      · rw [takeBlock_whole _ _ _ _ _ _ _ _ hsplit]
        show size ≤ sizeAt (poke m.mem b2 _) b2
        rw [sizeAt_poke_same]
        exact hfit2

/-- Example: a request of 100 bytes with 8-byte alignment is
rounded to 104, and the block handed out by the fresh pool of 1024 bytes has
104 bytes. -/
theorem round_up_without_wrap_example :
    100 + layout24_8.ALIGNMENT ≤ SIZE_MOD ∧
    (aligned_size layout24_8 100 = round_up 100 layout24_8.ALIGNMENT ∧
     layout24_8.ALIGNMENT ∣ round_up 100 layout24_8.ALIGNMENT ∧
     100 ≤ round_up 100 layout24_8.ALIGNMENT ∧
     (∀ n, layout24_8.ALIGNMENT ∣ n → 100 ≤ n → round_up 100 layout24_8.ALIGNMENT ≤ n) ∧
     (∀ (m : MemoryManager) (tag : Option String) (r : Ret (Option Nat)) (b : Nat),
       m.m_pool ≠ none → FreeListWF m → allocate layout24_8 m 100 tag = .ok r →
       r.value = some (b + layout24_8.header_size) → 100 ≤ sizeAt r.state.mem b)) ∧
    round_up 100 layout24_8.ALIGNMENT = 104 ∧
    sizeAt pool1024Taken.mem 4096 = 104 :=
  ⟨by decide, round_up_without_wrap layout24_8 layout24_8_ok 100 (by decide), by decide,
   by decide⟩

/-- C22 evaluated at the request size `2 ^ 64 - 1`, a `size_t` value, with
8-byte alignment: `round_up (2 ^ 64 - 1) 8` is `2 ^ 64`, but the sum of line 56
(comment: "Align requested size") wraps and `aligned_size` is 0, which is below
the request; and on the fresh pool of 1024 bytes `allocate(2 ^ 64 - 1)` succeeds
with a block whose size field is 0, far below the requested size. The request
`2 ^ 64 - 8` on the same line is rounded to itself. -/
theorem C22_rounding_wraps :
    2 ^ 64 - 1 < SIZE_MOD ∧
    aligned_size layout24_8 (2 ^ 64 - 1) = 0 ∧
    round_up (2 ^ 64 - 1) layout24_8.ALIGNMENT = 2 ^ 64 ∧
    aligned_size layout24_8 (2 ^ 64 - 1) ≠ round_up (2 ^ 64 - 1) layout24_8.ALIGNMENT ∧
    ¬ (2 ^ 64 - 1 ≤ aligned_size layout24_8 (2 ^ 64 - 1)) ∧
    valueOf (allocate layout24_8 pool1024 (2 ^ 64 - 1) none) = some (4096 + 24) ∧
    sizeAt (stateOf (allocate layout24_8 pool1024 (2 ^ 64 - 1) none)).mem 4096 = 0 ∧
    ¬ (2 ^ 64 - 1 ≤ sizeAt (stateOf (allocate layout24_8 pool1024 (2 ^ 64 - 1) none)).mem 4096) ∧
    aligned_size layout24_8 (2 ^ 64 - 8) = round_up (2 ^ 64 - 8) layout24_8.ALIGNMENT :=
  ⟨by decide, by decide, by decide, by decide, by decide, by decide, by decide, by decide,
   by decide⟩

/-- C24 (null release). In every state, initialized or not, and for every tag,
`deallocate(nullptr)` returns at line 93: it returns normally, writes nothing to
`std::cerr`, and gives back the very state it was called on (every header and
the free list untouched). In particular, releasing the null result of a failed
`allocate` leaves the state that `allocate` left. -/
theorem C24_deallocate_null (L : Layout) (m : MemoryManager) (tag : Option String) :
    deallocate L m none tag = .ok ⟨(), m, []⟩ ∧
    (∀ (m0 : MemoryManager) (size : Nat) (tag0 : Option String) (r : Ret (Option Nat)),
      allocate L m0 size tag0 = .ok r → r.value = none →
      deallocate L r.state r.value tag = .ok ⟨(), r.state, []⟩ ∧
      (stateOf (deallocate L r.state r.value tag)).mem = r.state.mem ∧
      (stateOf (deallocate L r.state r.value tag)).m_free_list = r.state.m_free_list) := by
  refine ⟨rfl, ?_⟩
  intro m0 size tag0 r _ hnull
  rw [hnull]
  exact ⟨rfl, rfl, rfl⟩

/-- Witness for C24: the exhausted pool of 120 bytes refuses a request of 16
bytes, and releasing the null result changes nothing; the same holds on a
manager that was never initialized. -/
theorem C24_deallocate_null_witness :
    valueOf (allocate layout24_8 poolABC 16 none) = none ∧
    deallocate layout24_8 (stateOf (allocate layout24_8 poolABC 16 none))
        (valueOf (allocate layout24_8 poolABC 16 none)) none
      = .ok ⟨(), stateOf (allocate layout24_8 poolABC 16 none), []⟩ ∧
    stateOf (allocate layout24_8 poolABC 16 none) = poolABC ∧
    deallocate layout24_8 MemoryManager.fresh none none = .ok ⟨(), MemoryManager.fresh, []⟩ :=
  ⟨rfl,
   ((C24_deallocate_null layout24_8 poolABC none).2 poolABC 16 none
      ⟨none, stateOf (allocate layout24_8 poolABC 16 none), _⟩ rfl rfl).1,
   rfl,
   (C24_deallocate_null layout24_8 MemoryManager.fresh none).1⟩


/-! ## `permute_block` -/

theorem swap_cells_eq {α : Type} (mem : Nat → α) (p i j x : Nat) :
    Core.swap_cells mem p i j (p + x) = mem (p + Equiv.swap i j x) := by
  unfold Core.swap_cells
  rw [Equiv.swap_apply_def]
  by_cases h1 : x = i
  · simp [h1]
  · by_cases h2 : x = j
    · subst h2
      simp [h1]
    · simp [h1, h2]

theorem swap_cells_outside {α : Type} (mem : Nat → α) (p i j y : Nat)
    (hi : y ≠ p + i) (hj : y ≠ p + j) : Core.swap_cells mem p i j y = mem y := by
  simp [Core.swap_cells, hi, hj]

/-- Swapping two cells of the first `n` cells permutes their contents. -/
theorem swap_cells_perm {α : Type} (mem : Nat → α) (p n i j : Nat) (hi : i < n) (hj : j < n) :
    ((List.range n).map (fun x => Core.swap_cells mem p i j (p + x))).Perm
      ((List.range n).map (fun x => mem (p + x))) := by
  have h1 : (fun x => Core.swap_cells mem p i j (p + x))
      = (fun x => mem (p + x)) ∘ (Equiv.swap i j) := by
    funext x
    exact swap_cells_eq mem p i j x
  rw [h1, ← List.map_map]
  apply List.Perm.map
  have hnd : ((List.range n).map (Equiv.swap i j)).Nodup :=
    (List.nodup_range n).map (Equiv.swap i j).injective
  rw [List.perm_ext_iff_of_nodup hnd (List.nodup_range n)]
  intro a
  simp only [List.mem_map, List.mem_range]
  constructor
  · rintro ⟨x, hx, rfl⟩
    rw [Equiv.swap_apply_def]
    split_ifs <;> omega
  · intro ha
    refine ⟨Equiv.swap i j a, ?_, Equiv.swap_apply_self i j a⟩
    rw [Equiv.swap_apply_def]
    split_ifs <;> omega

/-- The loop entered at `i` touches only the cells `data + 0 .. data + i`. -/
theorem permute_loop_frame {α : Type} (p : Nat) :
    ∀ (i state : Nat) (mem : Nat → α) (y : Nat), (y < p ∨ p + i < y) →
      (Core.permute_loop p i state mem).1 y = mem y := by
  intro i
  induction i with
  | zero => intro state mem y _; rfl
  | succ i ih =>
    intro state mem y hy
    show (Core.permute_loop p i _ (Core.swap_cells mem p (i + 1) _)).1 y = mem y
    have hj : Core.next_state state % (i + 1 + 1) < i + 1 + 1 := Nat.mod_lt _ (by omega)
    rw [ih _ _ y (by omega)]
    exact swap_cells_outside mem p _ _ y (by omega) (by omega)

/-- Every index pair listed by the loop entered at `i` is within `0 .. i`. -/
theorem permute_loop_indices {α : Type} (p : Nat) :
    ∀ (i state : Nat) (mem : Nat → α), ∀ ij ∈ (Core.permute_loop p i state mem).2,
      ij.1 ≤ i ∧ ij.2 ≤ i := by
  intro i
  induction i with
  | zero => intro state mem ij hij; exact absurd hij (List.not_mem_nil ij)
  | succ i ih =>
    intro state mem ij hij
    have hij : ij ∈ (i + 1, Core.next_state state % (i + 1 + 1))
        :: (Core.permute_loop p i _ (Core.swap_cells mem p (i + 1) _)).2 := hij
    have hj : Core.next_state state % (i + 1 + 1) < i + 1 + 1 := Nat.mod_lt _ (by omega)
    rcases List.mem_cons.mp hij with rfl | hij
    · exact ⟨le_refl _, by show Core.next_state state % (i + 1 + 1) ≤ i + 1; omega⟩
    · have := ih _ _ ij hij
      omega

/-- The loop entered at `i` permutes the contents of the cells `0 .. i`. -/
theorem permute_loop_perm {α : Type} (p : Nat) :
    ∀ (i state : Nat) (mem : Nat → α),
      ((List.range (i + 1)).map (fun x => (Core.permute_loop p i state mem).1 (p + x))).Perm
        ((List.range (i + 1)).map (fun x => mem (p + x))) := by
  intro i
  induction i with
  | zero => intro state mem; exact List.Perm.refl _
  | succ i ih =>
    intro state mem
    have hj : Core.next_state state % (i + 1 + 1) < i + 1 + 1 := Nat.mod_lt _ (by omega)
    show ((List.range (i + 1 + 1)).map (fun x =>
        (Core.permute_loop p i (Core.next_state state) (Core.swap_cells mem p (i + 1)
          (Core.next_state state % (i + 1 + 1)))).1 (p + x))).Perm _
    refine List.Perm.trans ?_ (swap_cells_perm mem p (i + 1 + 1) (i + 1)
      (Core.next_state state % (i + 1 + 1)) (by omega) hj)
    rw [List.range_succ (i + 1), List.map_append, List.map_append]
    refine List.Perm.append (ih _ _) ?_
    simp only [List.map_cons, List.map_nil]
    rw [permute_loop_frame p i _ _ (p + (i + 1)) (by omega)]

/-- The loop entered at `i` reads nothing but the cells `0 .. i`, the state and
`i`: on memories that agree there it lists the same indices and leaves the same
contents. -/
theorem permute_loop_agree {α : Type} (p : Nat) :
    ∀ (i state : Nat) (mem mem2 : Nat → α), (∀ x, x ≤ i → mem2 (p + x) = mem (p + x)) →
      (Core.permute_loop p i state mem2).2 = (Core.permute_loop p i state mem).2 ∧
      ∀ x, x ≤ i → (Core.permute_loop p i state mem2).1 (p + x)
        = (Core.permute_loop p i state mem).1 (p + x) := by
  intro i
  induction i with
  | zero =>
    intro state mem mem2 h
    exact ⟨rfl, fun x hx => h x hx⟩
  | succ i ih =>
    intro state mem mem2 h
    have hj : Core.next_state state % (i + 1 + 1) < i + 1 + 1 := Nat.mod_lt _ (by omega)
    have hsw : ∀ x, x ≤ i + 1 →
        Core.swap_cells mem2 p (i + 1) (Core.next_state state % (i + 1 + 1)) (p + x)
          = Core.swap_cells mem p (i + 1) (Core.next_state state % (i + 1 + 1)) (p + x) := by
      intro x hx
      rw [swap_cells_eq, swap_cells_eq]
      apply h
      rw [Equiv.swap_apply_def]
      split_ifs <;> omega
    obtain ⟨h1, h2⟩ := ih (Core.next_state state) _ _ (fun x hx => hsw x (by omega))
    constructor
    · show (_ :: _) = (_ :: _)
      rw [h1]
    · intro x hx
      show (Core.permute_loop p i _ (Core.swap_cells mem2 p (i + 1) _)).1 (p + x)
        = (Core.permute_loop p i _ (Core.swap_cells mem p (i + 1) _)).1 (p + x)
      by_cases hxi : x ≤ i
      · exact h2 x hxi
      · have hx1 : x = i + 1 := by omega
        rw [hx1, permute_loop_frame p i _ _ (p + (i + 1)) (by omega),
          permute_loop_frame p i _ _ (p + (i + 1)) (by omega)]
        exact hsw (i + 1) (le_refl _)


/-- C25 (`permute_block` permutes). For every memory, array address `p`, `size`
and `key`: the `size` cells of the array hold after the call a permutation
(the same multiset) of what they held before; every index pair `(i, j)` the
loop reads and writes is below `size`; no cell outside the array is changed; the
indices accessed and the resulting array contents depend on nothing but the
array contents, `size` and `key`; and a null pointer or `size = 0` leaves the
memory as it is, with no access at all. -/
theorem C25_permute_block {α : Type} (mem : Nat → α) (p size key : Nat) :
    ((List.range size).map (fun x => (Core.permute_block mem (some p) size key).1 (p + x))).Perm
      ((List.range size).map (fun x => mem (p + x))) ∧
    (∀ ij ∈ (Core.permute_block mem (some p) size key).2, ij.1 < size ∧ ij.2 < size) ∧
    (∀ y, (y < p ∨ p + size ≤ y) → (Core.permute_block mem (some p) size key).1 y = mem y) ∧
    (∀ mem2 : Nat → α, (∀ x, x < size → mem2 (p + x) = mem (p + x)) →
      (Core.permute_block mem2 (some p) size key).2
        = (Core.permute_block mem (some p) size key).2 ∧
      ∀ x, x < size → (Core.permute_block mem2 (some p) size key).1 (p + x)
        = (Core.permute_block mem (some p) size key).1 (p + x)) ∧
    Core.permute_block mem none size key = (mem, []) ∧
    Core.permute_block mem (some p) 0 key = (mem, []) := by
  cases size with
  | zero =>
    refine ⟨List.Perm.refl _, ?_, fun _ _ => rfl, ?_, rfl, rfl⟩
    · intro ij hij
      exact absurd hij (List.not_mem_nil ij)
    · intro mem2 _
      exact ⟨rfl, fun x hx => absurd hx (Nat.not_lt_zero x)⟩
  | succ n =>
    have e : ∀ m0 : Nat → α, Core.permute_block m0 (some p) (n + 1) key
        = Core.permute_loop p n key m0 := fun _ => rfl
    rw [e mem]
    refine ⟨permute_loop_perm p n key mem, ?_, ?_, ?_, rfl, rfl⟩
    · intro ij hij
      have := permute_loop_indices p n key mem ij hij
      omega
    · intro y hy
      exact permute_loop_frame p n key mem y (by omega)
    · intro mem2 h
      rw [e mem2]
      obtain ⟨h1, h2⟩ := permute_loop_agree p n key mem mem2 (fun x hx => h x (by omega))
      exact ⟨h1, fun x hx => h2 x (by omega)⟩

/-- Witness for C25: the array `[10, 20, 30, 40, 50]` at address 100 with key 42
becomes `[20, 40, 50, 10, 30]`; the loop swaps the index pairs (4,2), (3,0),
(2,2), (1,0). -/
theorem C25_permute_block_witness :
    (((List.range 5).map
        (fun x => (Core.permute_block Core.sampleArray (some 100) 5 42).1 (100 + x))).Perm
      ((List.range 5).map (fun x => Core.sampleArray (100 + x))) ∧
     (∀ ij ∈ (Core.permute_block Core.sampleArray (some 100) 5 42).2, ij.1 < 5 ∧ ij.2 < 5) ∧
     (∀ y, (y < 100 ∨ 100 + 5 ≤ y) →
       (Core.permute_block Core.sampleArray (some 100) 5 42).1 y = Core.sampleArray y) ∧
     (∀ mem2 : Nat → Nat, (∀ x, x < 5 → mem2 (100 + x) = Core.sampleArray (100 + x)) →
       (Core.permute_block mem2 (some 100) 5 42).2
         = (Core.permute_block Core.sampleArray (some 100) 5 42).2 ∧
       ∀ x, x < 5 → (Core.permute_block mem2 (some 100) 5 42).1 (100 + x)
         = (Core.permute_block Core.sampleArray (some 100) 5 42).1 (100 + x)) ∧
     Core.permute_block Core.sampleArray none 5 42 = (Core.sampleArray, []) ∧
     Core.permute_block Core.sampleArray (some 100) 0 42 = (Core.sampleArray, [])) ∧
    (List.range 5).map (fun x => Core.sampleArray (100 + x)) = [10, 20, 30, 40, 50] ∧
    (List.range 5).map
      (fun x => (Core.permute_block Core.sampleArray (some 100) 5 42).1 (100 + x))
      = [20, 40, 50, 10, 30] ∧
    (Core.permute_block Core.sampleArray (some 100) 5 42).2 = [(4, 2), (3, 0), (2, 2), (1, 0)] :=
  ⟨C25_permute_block Core.sampleArray 100 5 42, by decide, by decide, by decide⟩


/-! ## The block hasher -/

theorem absorb_fuel (f1 : Nat) : ∀ (f2 : Nat) (st s : List Nat), s.length ≤ f1 → s.length ≤ f2 →
    absorb f1 st s = absorb f2 st s := by
  induction f1 with
  | zero =>
    intro f2 st s h1 h2
    have hs : s.length = 0 := by omega
    cases f2 with
    | zero => rfl
    | succ f2 => simp [absorb, hs]
  | succ f1 ih =>
    intro f2 st s h1 h2
    cases f2 with
    | zero =>
      have hs : s.length = 0 := by omega
      simp [absorb, hs]
    | succ f2 =>
      simp only [absorb]
      split
      · apply ih
        · simp; omega
        · simp; omega
      · rfl

theorem absorb_short (fuel : Nat) (st s : List Nat) (h : s.length < 64) :
    absorb fuel st s = (st, s) := by
  cases fuel with
  | zero => rfl
  | succ f => simp [absorb]; intro h2; omega

theorem absorb_rest_lt (fuel : Nat) : ∀ (st s : List Nat), s.length ≤ fuel →
    (absorb fuel st s).2.length < 64 := by
  induction fuel with
  | zero => intro st s h; simp [absorb]; omega
  | succ f ih =>
    intro st s h
    simp only [absorb]
    split
    · apply ih; simp; omega
    · simp; omega

theorem absorb_step (fuel : Nat) (st s : List Nat) (h : 64 ≤ s.length) (hf : s.length ≤ fuel) :
    absorb fuel st s = absorb (s.drop 64).length (process_block st (s.take 64)) (s.drop 64) := by
  cases fuel with
  | zero => omega
  | succ f =>
    simp only [absorb, if_pos h]
    apply absorb_fuel
    · simp; omega
    · exact le_refl _

theorem absorb_append (n : Nat) : ∀ (st s t : List Nat), s.length ≤ n →
    absorb (s ++ t).length st (s ++ t) =
      absorb ((absorb s.length st s).2 ++ t).length (absorb s.length st s).1
        ((absorb s.length st s).2 ++ t) := by
  induction n with
  | zero =>
    intro st s t h
    have hs : s = [] := List.length_eq_zero.mp (by omega)
    subst hs
    simp [absorb]
  | succ n ih =>
    intro st s t h
    by_cases h64 : 64 ≤ s.length
    · have h64b : 64 ≤ (s ++ t).length := by simp; omega
      rw [absorb_step _ st (s ++ t) h64b (le_refl _), absorb_step _ st s h64 (le_refl _)]
      have e1 : (s ++ t).take 64 = s.take 64 := by
        rw [List.take_append_of_le_length h64]
      have e2 : (s ++ t).drop 64 = s.drop 64 ++ t := by
        rw [List.drop_append_of_le_length h64]
      rw [e1, e2]
      apply ih
      simp; omega
    · have hlt : s.length < 64 := by omega
      rw [absorb_short _ st s hlt]


theorem full_blocks_absorb (d : List Nat) (fuel : Nat) : ∀ (i : Nat) (st : List Nat),
    i ≤ d.length →
    (full_blocks d fuel i st).1 = (absorb fuel st (d.drop i)).1 ∧
    d.drop (full_blocks d fuel i st).2 = (absorb fuel st (d.drop i)).2 ∧
    (full_blocks d fuel i st).2 ≤ d.length := by
  induction fuel with
  | zero => intro i st h; simp [full_blocks, absorb, h]
  | succ f ih =>
    intro i st h
    simp only [full_blocks, absorb]
    by_cases hc : i + 63 < d.length
    · have hc2 : 64 ≤ (d.drop i).length := by simp; omega
      rw [if_pos hc, if_pos hc2]
      have e : (d.drop i).drop 64 = d.drop (i + 64) := by
        rw [List.drop_drop]
      rw [e]
      exact ih (i + 64) _ (by omega)
    · have hc2 : ¬ 64 ≤ (d.drop i).length := by simp; omega
      rw [if_neg hc, if_neg hc2]
      exact ⟨rfl, rfl, h⟩

theorem memcpy_length (dst : List Nat) (off : Nat) (src : List Nat)
    (h : off + src.length ≤ dst.length) : (memcpy dst off src).length = dst.length := by
  simp [memcpy]
  omega

theorem memcpy_take (dst : List Nat) (off : Nat) (src : List Nat) (h : off ≤ dst.length) :
    (memcpy dst off src).take (off + src.length) = dst.take off ++ src := by
  have hl : (dst.take off ++ src).length = off + src.length := by simp [h]
  unfold memcpy
  rw [← hl, List.take_left]

theorem update_spec (h : CryptoHash) (d : List Nat) (hok : h.ok) :
    (h.update (some d)).m_state
      = (absorb (h.pending ++ d).length h.m_state (h.pending ++ d)).1 ∧
    (h.update (some d)).pending
      = (absorb (h.pending ++ d).length h.m_state (h.pending ++ d)).2 ∧
    (h.update (some d)).ok ∧
    (h.update (some d)).m_bit_count = (h.m_bit_count + d.length * 8) % 2 ^ 64 := by
  obtain ⟨hlen, hlt⟩ := hok
  have hpl : h.pending.length = h.m_buffer_len := by
    simp [CryptoHash.pending]; omega
  by_cases hc : 64 - h.m_buffer_len ≤ d.length
  · have hbuf1 : memcpy h.m_buffer h.m_buffer_len (d.take (64 - h.m_buffer_len))
        = (h.pending ++ d).take 64 := by
      have e := memcpy_take h.m_buffer h.m_buffer_len (d.take (64 - h.m_buffer_len)) (by omega)
      have hl : (memcpy h.m_buffer h.m_buffer_len (d.take (64 - h.m_buffer_len))).length = 64 := by
        rw [memcpy_length _ _ _ (by simp; omega)]; exact hlen
      have e2 : h.m_buffer_len + (d.take (64 - h.m_buffer_len)).length = 64 := by
        simp; omega
      have e3 : (h.pending ++ d).take 64 = h.m_buffer.take h.m_buffer_len
          ++ d.take (64 - h.m_buffer_len) := by
        rw [List.take_append_eq_append_take, hpl]
        congr 1
        exact List.take_of_length_le (by omega)
      rw [e3, ← e, e2]
      exact (List.take_of_length_le (le_of_eq hl)).symm
    have hdrop : (h.pending ++ d).drop 64 = d.drop (64 - h.m_buffer_len) := by
      rw [List.drop_append_eq_append_drop, hpl]
      rw [List.drop_of_length_le (by omega)]
      simp
    have h64 : 64 ≤ (h.pending ++ d).length := by simp [hpl]; omega
    rw [absorb_step _ _ _ h64 (le_refl _), hdrop, ← hbuf1]
    obtain ⟨f1, f2, f3⟩ := full_blocks_absorb d d.length (64 - h.m_buffer_len)
      (process_block h.m_state (memcpy h.m_buffer h.m_buffer_len (d.take (64 - h.m_buffer_len)))) hc
    have hfuel := absorb_fuel d.length (d.drop (64 - h.m_buffer_len)).length
      (process_block h.m_state (memcpy h.m_buffer h.m_buffer_len (d.take (64 - h.m_buffer_len))))
      (d.drop (64 - h.m_buffer_len)) (by simp) (le_refl _)
    rw [hfuel] at f1 f2
    have hrest := absorb_rest_lt (d.drop (64 - h.m_buffer_len)).length
      (process_block h.m_state (memcpy h.m_buffer h.m_buffer_len (d.take (64 - h.m_buffer_len))))
      (d.drop (64 - h.m_buffer_len)) (le_refl _)
    rw [← f2] at hrest
    have hrl : (d.drop (full_blocks d d.length (64 - h.m_buffer_len)
      (process_block h.m_state (memcpy h.m_buffer h.m_buffer_len
        (d.take (64 - h.m_buffer_len))))).2).length = d.length - (full_blocks d d.length
          (64 - h.m_buffer_len) (process_block h.m_state (memcpy h.m_buffer h.m_buffer_len
            (d.take (64 - h.m_buffer_len))))).2 := by simp
    have hl1 : (memcpy h.m_buffer h.m_buffer_len (d.take (64 - h.m_buffer_len))).length = 64 := by
      rw [memcpy_length _ _ _ (by simp; omega)]; exact hlen
    simp only [CryptoHash.update, if_pos hc, CryptoHash.pending, CryptoHash.ok]
    refine ⟨f1, ?_, ⟨?_, ?_⟩, ?_⟩
    · rw [← f2]
      have e := memcpy_take (memcpy h.m_buffer h.m_buffer_len (d.take (64 - h.m_buffer_len))) 0
        (d.drop (full_blocks d d.length (64 - h.m_buffer_len)
          (process_block h.m_state (memcpy h.m_buffer h.m_buffer_len
            (d.take (64 - h.m_buffer_len))))).2) (Nat.zero_le _)
      rw [Nat.zero_add, hrl] at e
      rw [e]; simp
    · rw [memcpy_length _ _ _ (by rw [hl1]; omega)]; exact hl1
    · omega
    · first | rfl | trivial
  · have hs : (h.pending ++ d).length < 64 := by simp [hpl]; omega
    rw [absorb_short _ _ _ hs]
    simp only [CryptoHash.update, if_neg hc, CryptoHash.pending, CryptoHash.ok]
    refine ⟨?_, ?_, ⟨?_, ?_⟩, ?_⟩
    · first | rfl | trivial
    · exact memcpy_take _ _ _ (by omega)
    · rw [memcpy_length _ _ _ (by omega)]; exact hlen
    · omega
    · first | rfl | trivial


theorem digest_of_length (st : List Nat) : (digest_of st).length = 32 := rfl

theorem construct_ok (raw : List Nat) (h : raw.length = 64) : (CryptoHash.construct raw).ok :=
  ⟨h, by simp [CryptoHash.construct]⟩

theorem update_chunks (h : CryptoHash) (a b : List Nat) (hok : h.ok) :
    ((h.update (some a)).update (some b)).m_state = (h.update (some (a ++ b))).m_state ∧
    ((h.update (some a)).update (some b)).pending = (h.update (some (a ++ b))).pending ∧
    ((h.update (some a)).update (some b)).m_bit_count
      = (h.update (some (a ++ b))).m_bit_count := by
  obtain ⟨a1, a2, a3, a4⟩ := update_spec h a hok
  obtain ⟨b1, b2, _, b4⟩ := update_spec (h.update (some a)) b a3
  obtain ⟨c1, c2, _, c4⟩ := update_spec h (a ++ b) hok
  have happ := absorb_append (h.pending ++ a).length h.m_state (h.pending ++ a) b (le_refl _)
  rw [List.append_assoc] at happ
  rw [b1, b2, b4, c1, c2, c4, a1, a2, a4, happ]
  refine ⟨rfl, rfl, ?_⟩
  simp only [List.length_append]
  omega

theorem update_congr (h1 h2 : CryptoHash) (d : List Nat) (ok1 : h1.ok) (ok2 : h2.ok)
    (hs : h1.m_state = h2.m_state) (hp : h1.pending = h2.pending) :
    (h1.update (some d)).m_state = (h2.update (some d)).m_state ∧
    (h1.update (some d)).pending = (h2.update (some d)).pending := by
  obtain ⟨a1, a2, _, _⟩ := update_spec h1 d ok1
  obtain ⟨b1, b2, _, _⟩ := update_spec h2 d ok2
  rw [a1, a2, b1, b2, hs, hp]
  exact ⟨rfl, rfl⟩

theorem finalize_congr (h1 h2 : CryptoHash) (ok1 : h1.ok) (ok2 : h2.ok)
    (hs : h1.m_state = h2.m_state) (hp : h1.pending = h2.pending)
    (hb : h1.m_bit_count = h2.m_bit_count) : h1.finalize.1 = h2.finalize.1 := by
  simp only [CryptoHash.finalize, hb]
  rw [(update_congr h1 h2 _ ok1 ok2 hs hp).1]


/-- C26: a fresh hasher fed `a ++ b` in one `update` call and a fresh hasher
fed `a` and then `b` return the same digest from `finalize`, whatever the
indeterminate buffer contents `raw1`, `raw2` of the two objects; the digest has
32 bytes; after every call (the `update` inside `finalize` included)
`m_buffer_len` is below 64; `finalize` leaves the hasher in the state of a
freshly constructed one; and below `2 ^ 61` bytes the bit counter is exactly
eight times the byte count. -/
theorem C26_chunking (raw1 raw2 a b : List Nat)
    (h1 : raw1.length = 64) (h2 : raw2.length = 64) :
    (((CryptoHash.construct raw1).update (some a)).update (some b)).finalize.1
      = ((CryptoHash.construct raw2).update (some (a ++ b))).finalize.1 ∧
    (((CryptoHash.construct raw1).update (some a)).update (some b)).finalize.1.length = 32 ∧
    (CryptoHash.construct raw1).m_buffer_len < 64 ∧
    ((CryptoHash.construct raw1).update (some a)).m_buffer_len < 64 ∧
    (((CryptoHash.construct raw1).update (some a)).update (some b)).m_buffer_len < 64 ∧
    ((CryptoHash.construct raw2).update (some (a ++ b))).m_buffer_len < 64 ∧
    ((((CryptoHash.construct raw1).update (some a)).update (some b)).update
      (some (padding (((CryptoHash.construct raw1).update (some a)).update
        (some b)).m_bit_count))).m_buffer_len < 64 ∧
    (∃ raw : List Nat, raw.length = 64 ∧
      (((CryptoHash.construct raw1).update (some a)).update (some b)).finalize.2
        = CryptoHash.construct raw) ∧
    ((a ++ b).length < 2 ^ 61 →
      (((CryptoHash.construct raw1).update (some a)).update (some b)).m_bit_count
        = 8 * (a ++ b).length) := by
  have ok1 := construct_ok raw1 h1
  have ok2 := construct_ok raw2 h2
  obtain ⟨_, _, oka, ba⟩ := update_spec _ a ok1
  obtain ⟨_, _, okab, bab⟩ := update_spec _ b oka
  obtain ⟨_, _, okw, _⟩ := update_spec _ (a ++ b) ok2
  obtain ⟨_, _, okp, _⟩ := update_spec _
    (padding (((CryptoHash.construct raw1).update (some a)).update (some b)).m_bit_count) okab
  obtain ⟨c1, c2, c3⟩ := update_chunks _ a b ok1
  obtain ⟨w1, w2, _, w4⟩ := update_spec _ (a ++ b) ok1
  obtain ⟨v1, v2, _, v4⟩ := update_spec _ (a ++ b) ok2
  refine ⟨?_, digest_of_length _, ok1.2, oka.2, okab.2, okw.2, okp.2, ⟨_, okp.1, rfl⟩, ?_⟩
  · apply finalize_congr _ _ okab okw
    · rw [c1, w1, v1]; rfl
    · rw [c2, w2, v2]; rfl
    · rw [c3, w4, v4]; rfl
  · intro hlt
    rw [c3, w4]
    have e : (CryptoHash.construct raw1).m_bit_count = 0 := rfl
    have e2 : (2 : Nat) ^ 61 = 2305843009213693952 := by norm_num
    have e3 : (2 : Nat) ^ 64 = 18446744073709551616 := by norm_num
    rw [e, e3]
    rw [e2] at hlt
    omega

set_option maxRecDepth 100000 in
theorem C26_chunking_witness :
    (List.replicate 64 0).length = 64 ∧ (List.replicate 64 255).length = 64 ∧
    (((CryptoHash.construct (List.replicate 64 0)).update (some [97])).update
      (some [98, 99])).finalize.1
      = ((CryptoHash.construct (List.replicate 64 255)).update
          (some ([97] ++ [98, 99]))).finalize.1 ∧
    ((CryptoHash.construct (List.replicate 64 255)).update
        (some ([97] ++ [98, 99]))).finalize.1
      = [82, 169, 207, 237, 143, 240, 145, 94, 76, 124, 253, 31, 212, 225, 27, 214,
         30, 216, 10, 144, 198, 3, 26, 7, 74, 76, 181, 182, 46, 92, 156, 242] :=
  ⟨rfl, rfl, (C26_chunking (List.replicate 64 0) (List.replicate 64 255) [97] [98, 99]
    rfl rfl).1, by rfl⟩


/-! ## The configured capacity -/

theorem stoul_lt (value : Str) (n : Nat) (h : stoul value = .ok n) : n < SIZE_MOD := by
  unfold stoul at h
  split at h
  · cases h
  · rename_i neg m _
    split at h
    · cases h
    · rename_i hm
      injection h with h
      subst h
      split
      · exact Nat.mod_lt _ (by unfold SIZE_MOD; positivity)
      · omega

theorem except_map_ok {ε α β : Type} (f : α → β) (x : Except ε α) (b : β)
    (h : x.map f = .ok b) : ∃ a, x = .ok a ∧ f a = b := by
  cases x with
  | error e => cases h
  | ok a => exact ⟨a, rfl, by injection h⟩

theorem process_line_mb {D : Type} (stod : Str → Except StdExcept D) (p p1 : ConfigParser D)
    (line : Str) (h : process_line stod p line = .ok p1) :
    p1.config.memory_pool_size_mb = p.config.memory_pool_size_mb ∨
    (line_key line = some "memory_pool_size_mb".toList ∧
      stoul (line_value line) = .ok p1.config.memory_pool_size_mb) := by
  unfold process_line at h
  simp only at h
  by_cases c1 : trim line = [] ∨ (trim line).head? = some '#'
  · rw [if_pos c1] at h
    injection h with h; subst h; exact Or.inl rfl
  rw [if_neg c1] at h
  by_cases c2 : (trim line).head? = some '[' ∧ (trim line).getLast? = some ']'
  · rw [if_pos c2] at h
    injection h with h; subst h; exact Or.inl rfl
  rw [if_neg c2] at h
  cases hf : find (trim line) '=' with
  | none =>
    rw [hf] at h
    injection h with h; subst h; exact Or.inl rfl
  | some pos =>
    rw [hf] at h
    simp only at h
    have hk : line_key line = some (trim ((trim line).take pos)) := by
      unfold line_key
      simp only [if_neg c1, if_neg c2, hf, Option.map_some']
    have hv : line_value line = trim ((trim line).drop (pos + 1)) := by
      unfold line_value
      simp only [hf]
    by_cases s1 : p.m_current_section = "Core".toList
    · rw [if_pos s1] at h
      split_ifs at h with k1 k2 k3 k4 k5
      · injection h with h; subst h; exact Or.inl rfl
      · obtain ⟨a, _, ha⟩ := except_map_ok _ _ _ h
        subst ha; exact Or.inl rfl
      · obtain ⟨a, _, ha⟩ := except_map_ok _ _ _ h
        subst ha; exact Or.inl rfl
      · obtain ⟨a, ha1, ha⟩ := except_map_ok _ _ _ h
        subst ha
        refine Or.inr ⟨?_, ?_⟩
        · rw [hk, k4]
        · rw [hv]; exact ha1
      · obtain ⟨a, _, ha⟩ := except_map_ok _ _ _ h
        subst ha; exact Or.inl rfl
      · injection h with h; subst h; exact Or.inl rfl
    · rw [if_neg s1] at h
      split_ifs at h with s2
      · split at h
        · injection h with h; subst h; exact Or.inl rfl
        · split at h
          · injection h with h; subst h; exact Or.inl rfl
          · injection h with h; subst h; exact Or.inl rfl
      · injection h with h; subst h; exact Or.inl rfl

theorem process_lines_mb {D : Type} (stod : Str → Except StdExcept D) (lines : List Str) :
    ∀ (p p1 : ConfigParser D), process_lines stod p lines = .ok p1 →
    p1.config.memory_pool_size_mb = p.config.memory_pool_size_mb ∨
    ∃ l ∈ lines, line_key l = some "memory_pool_size_mb".toList ∧
      stoul (line_value l) = .ok p1.config.memory_pool_size_mb := by
  induction lines with
  | nil =>
    intro p p1 h
    simp only [process_lines] at h
    injection h with h; subst h; exact Or.inl rfl
  | cons line rest ih =>
    intro p p1 h
    simp only [process_lines] at h
    cases hq : process_line stod p line with
    | error e => rw [hq] at h; cases h
    | ok q =>
      rw [hq] at h
      simp only at h
      rcases ih q p1 h with e | ⟨l, hl, hk, hv⟩
      · rcases process_line_mb stod p q line hq with e2 | ⟨hk, hv⟩
        · exact Or.inl (e.trans e2)
        · exact Or.inr ⟨line, List.mem_cons_self _ _, hk, by rw [e]; exact hv⟩
      · exact Or.inr ⟨l, List.mem_cons_of_mem _ hl, hk, hv⟩


/-- C23 (amended): when `process_line` has processed a sequence of lines from a
default `AppConfig` without an exception, `memory_pool_size_mb` is 256 or the
`std::stoul` value of a line that names the key; so it is 256 when no line
names the key, and it is at least 1 when no such line carries a value that
`std::stoul` reads as 0. It is a `size_t`, and `initialize_subsystems` passes
`memory_pool_size_mb * 1024 * 1024` reduced modulo `2 ^ 64`, which is the exact
product when `memory_pool_size_mb < 2 ^ 44` (268435456 for the default). -/
theorem C23_configured_capacity {D : Type} (stod : Str → Except StdExcept D) (timestep : D)
    (section0 : Str) (lines : List Str) (p : ConfigParser D)
    (h : process_lines stod ⟨section0, AppConfig.default timestep, []⟩ lines = .ok p) :
    (p.config.memory_pool_size_mb = 256 ∨
      ∃ l ∈ lines, line_key l = some "memory_pool_size_mb".toList ∧
        stoul (line_value l) = .ok p.config.memory_pool_size_mb) ∧
    ((∀ l ∈ lines, line_key l ≠ some "memory_pool_size_mb".toList) →
      p.config.memory_pool_size_mb = 256) ∧
    ((∀ l ∈ lines, line_key l = some "memory_pool_size_mb".toList →
        stoul (line_value l) ≠ .ok 0) → 1 ≤ p.config.memory_pool_size_mb) ∧
    p.config.memory_pool_size_mb < SIZE_MOD ∧
    (p.config.memory_pool_size_mb < 2 ^ 44 →
      pool_bytes p.config = p.config.memory_pool_size_mb * 1024 * 1024) ∧
    pool_bytes (AppConfig.default timestep) = 268435456 := by
  have key := process_lines_mb stod lines _ p h
  have e0 : (AppConfig.default timestep).memory_pool_size_mb = 256 := rfl
  simp only [e0] at key
  have hS : SIZE_MOD = 18446744073709551616 := by unfold SIZE_MOD; norm_num
  refine ⟨key, ?_, ?_, ?_, ?_, ?_⟩
  · intro hno
    rcases key with e | ⟨l, hl, hk, _⟩
    · exact e
    · exact absurd hk (hno l hl)
  · intro hnz
    rcases key with e | ⟨l, hl, hk, hv⟩
    · omega
    · rcases Nat.eq_zero_or_pos p.config.memory_pool_size_mb with z | pos
      · rw [z] at hv; exact absurd hv (hnz l hl hk)
      · exact pos
  · rcases key with e | ⟨l, _, _, hv⟩
    · rw [e, hS]; norm_num
    · exact stoul_lt _ _ hv
  · intro hlt
    have e44 : (2 : Nat) ^ 44 = 17592186044416 := by norm_num
    rw [e44] at hlt
    unfold pool_bytes
    rw [hS]
    omega
  · unfold pool_bytes
    rw [e0, hS]

theorem C23_configured_capacity_witness :
    (process_lines stod_rejecting ⟨"Core".toList, AppConfig.default (2 / 125), []⟩
        sampleConfig).map (fun p => (p.config.memory_pool_size_mb, pool_bytes p.config))
      = .ok (512, 536870912) ∧
    ∃ p : ConfigParser Rat,
      process_lines stod_rejecting ⟨"Core".toList, AppConfig.default (2 / 125), []⟩
        sampleConfig = .ok p ∧
      (p.config.memory_pool_size_mb = 256 ∨
        ∃ l ∈ sampleConfig, line_key l = some "memory_pool_size_mb".toList ∧
          stoul (line_value l) = .ok p.config.memory_pool_size_mb) ∧
      ((∀ l ∈ sampleConfig, line_key l ≠ some "memory_pool_size_mb".toList) →
        p.config.memory_pool_size_mb = 256) ∧
      ((∀ l ∈ sampleConfig, line_key l = some "memory_pool_size_mb".toList →
          stoul (line_value l) ≠ .ok 0) → 1 ≤ p.config.memory_pool_size_mb) ∧
      p.config.memory_pool_size_mb < SIZE_MOD ∧
      (p.config.memory_pool_size_mb < 2 ^ 44 →
        pool_bytes p.config = p.config.memory_pool_size_mb * 1024 * 1024) ∧
      pool_bytes (AppConfig.default (2 / 125 : Rat)) = 268435456 := by
  refine ⟨rfl, ?_⟩
  cases hp : process_lines stod_rejecting ⟨"Core".toList, AppConfig.default (2 / 125), []⟩
      sampleConfig with
  | error e =>
    have hr : (process_lines stod_rejecting ⟨"Core".toList, AppConfig.default (2 / 125), []⟩
        sampleConfig).map (fun p => (p.config.memory_pool_size_mb, pool_bytes p.config))
      = .ok (512, 536870912) := rfl
    rw [hp] at hr
    cases hr
  | ok p =>
    exact ⟨p, rfl, C23_configured_capacity stod_rejecting (2 / 125) "Core".toList
      sampleConfig p hp⟩

/-- C23 (as stated) fails: the line `memory_pool_size_mb = 0` is accepted and
leaves `memory_pool_size_mb = 0`, which is not a positive integer; and with
`memory_pool_size_mb = 17592186044416` (`2 ^ 44`) the product wraps, so
`initialize` receives 0 bytes instead of `memory_pool_size_mb * 1024 * 1024`. -/
theorem C23_zero_megabytes_counterexample :
    (parse stod_rejecting (2 / 125) (some ["memory_pool_size_mb = 0".toList])).map
        (fun p => (p.config.memory_pool_size_mb, decide (1 ≤ p.config.memory_pool_size_mb)))
      = .ok (0, false) ∧
    (parse stod_rejecting (2 / 125) (some ["memory_pool_size_mb = 17592186044416".toList])).map
        (fun p => (p.config.memory_pool_size_mb, pool_bytes p.config,
          decide (pool_bytes p.config = p.config.memory_pool_size_mb * 1024 * 1024)))
      = .ok (17592186044416, 0, false) :=
  ⟨rfl, rfl⟩

end PoolAlloc
